import Mathlib

/-!
# layr: the MongoDB store and the entity identity map

A shallow embedding of `packages/mongodb-store/src/mongodb-store.js` (the functions
`load`, `save`, `delete`, `_loadDocuments`, `_updateDocuments`, `_updateDocument`,
`deserializeValue` and `buildProjection`) together with a model of the entity
reconciliation protocol exercised by `packages/entity/tests/src/entity.test.js`.

Conventions of the embedding:

* JavaScript values are the inductive type `JSValue`. Numbers are integers (no
  `NaN`, no fractions), a `Date` is kept as `date v` where `v` is the argument
  handed to `new Date`, and an object is the list of its own enumerable
  properties in enumeration order.
* Property names are assumed not to collide with members of `Object.prototype`
  (`constructor`, `__proto__`, ...); the special enumeration order of
  integer-like keys is not modelled (insertion order is used throughout).
* A thrown exception is the `Except.error` result, and the MongoDB database is an
  explicit `Store` value that is threaded through the operations.
-/

set_option autoImplicit false

/-! ## JavaScript values -/

/-- JavaScript values as they occur in documents and field descriptions. -/
inductive JSValue where
  | undefined
  | null
  | bool (b : Bool)
  | num (n : Int)
  | str (s : String)
  | date (v : JSValue)
  | arr (xs : List JSValue)
  | obj (fs : List (String × JSValue))

instance : Inhabited JSValue := ⟨JSValue.undefined⟩

namespace JSValue

mutual
/-- Decision procedure for equality of values. -/
def decEq : (a b : JSValue) → Decidable (a = b)
  | undefined, undefined => isTrue rfl
  | null, null => isTrue rfl
  | bool a, bool b => if h : a = b then isTrue (by rw [h]) else isFalse (by intro e; cases e; exact h rfl)
  | num a, num b => if h : a = b then isTrue (by rw [h]) else isFalse (by intro e; cases e; exact h rfl)
  | str a, str b => if h : a = b then isTrue (by rw [h]) else isFalse (by intro e; cases e; exact h rfl)
  | date a, date b =>
      match decEq a b with
      | isTrue h => isTrue (by rw [h])
      | isFalse h => isFalse (by intro e; cases e; exact h rfl)
  | arr a, arr b =>
      match decEqList a b with
      | isTrue h => isTrue (by rw [h])
      | isFalse h => isFalse (by intro e; cases e; exact h rfl)
  | obj a, obj b =>
      match decEqFields a b with
      | isTrue h => isTrue (by rw [h])
      | isFalse h => isFalse (by intro e; cases e; exact h rfl)
  | undefined, null | undefined, bool _ | undefined, num _ | undefined, str _ | undefined, date _
  | undefined, arr _ | undefined, obj _
  | null, undefined | null, bool _ | null, num _ | null, str _ | null, date _ | null, arr _
  | null, obj _
  | bool _, undefined | bool _, null | bool _, num _ | bool _, str _ | bool _, date _
  | bool _, arr _ | bool _, obj _
  | num _, undefined | num _, null | num _, bool _ | num _, str _ | num _, date _ | num _, arr _
  | num _, obj _
  | str _, undefined | str _, null | str _, bool _ | str _, num _ | str _, date _ | str _, arr _
  | str _, obj _
  | date _, undefined | date _, null | date _, bool _ | date _, num _ | date _, str _
  | date _, arr _ | date _, obj _
  | arr _, undefined | arr _, null | arr _, bool _ | arr _, num _ | arr _, str _ | arr _, date _
  | arr _, obj _
  | obj _, undefined | obj _, null | obj _, bool _ | obj _, num _ | obj _, str _ | obj _, date _
  | obj _, arr _ => isFalse (by intro e; cases e)
/-- Decision procedure for equality of lists of values. -/
def decEqList : (a b : List JSValue) → Decidable (a = b)
  | [], [] => isTrue rfl
  | [], _ :: _ => isFalse (by intro e; cases e)
  | _ :: _, [] => isFalse (by intro e; cases e)
  | x :: xs, y :: ys =>
      match decEq x y, decEqList xs ys with
      | isTrue h, isTrue k => isTrue (by rw [h, k])
      | isFalse h, _ => isFalse (by intro e; cases e; exact h rfl)
      | _, isFalse k => isFalse (by intro e; cases e; exact k rfl)
/-- Decision procedure for equality of property lists. -/
def decEqFields : (a b : List (String × JSValue)) → Decidable (a = b)
  | [], [] => isTrue rfl
  | [], _ :: _ => isFalse (by intro e; cases e)
  | _ :: _, [] => isFalse (by intro e; cases e)
  | (k, x) :: xs, (l, y) :: ys =>
      if hk : k = l then
        match decEq x y, decEqFields xs ys with
        | isTrue h, isTrue t => isTrue (by rw [hk, h, t])
        | isFalse h, _ => isFalse (by intro e; cases e; exact h rfl)
        | _, isFalse t => isFalse (by intro e; cases e; exact t rfl)
      else isFalse (by intro e; cases e; exact hk rfl)
end

instance : DecidableEq JSValue := decEq
mutual
/-- Nesting depth of a value: scalars have depth 0. -/
def depth : JSValue → Nat
  | date v => depth v + 1
  | arr xs => depthList xs + 1
  | obj fs => depthFields fs + 1
  | _ => 0
/-- Largest depth among the elements of a list. -/
def depthList : List JSValue → Nat
  | [] => 0
  | x :: xs => max (depth x) (depthList xs)
/-- Largest depth among the property values of a property list. -/
def depthFields : List (String × JSValue) → Nat
  | [] => 0
  | (_, x) :: xs => max (depth x) (depthFields xs)
end

/-- The test `v === undefined`. -/
def isUndefined : JSValue → Bool
  | undefined => true
  | _ => false

/-- JavaScript truthiness (`if (v)`). -/
def truthy : JSValue → Bool
  | undefined => false
  | null => false
  | bool b => b
  | num n => n != 0
  | str s => s != ""
  | _ => true

/-- The test `typeof v === 'object'` (true of `null`, arrays and dates as well). -/
def typeofObject : JSValue → Bool
  | null => true
  | date _ => true
  | arr _ => true
  | obj _ => true
  | _ => false

/-- Strict equality `a === b` between a value read from one object graph and a
value read from another: scalars compare by value, while two objects, arrays or
dates are never the same reference. -/
def strictEq : JSValue → JSValue → Bool
  | undefined, undefined => true
  | null, null => true
  | bool a, bool b => a == b
  | num a, num b => a == b
  | str a, str b => a == b
  | _, _ => false

/-- Entries `("i", x_i)`, `("i+1", x_(i+1))`, ... of an array-like list. -/
def indexedFrom : Nat → List JSValue → List (String × JSValue)
  | _, [] => []
  | i, x :: xs => (toString i, x) :: indexedFrom (i + 1) xs

/-- Own enumerable properties of a value, as `{...v}` and `Object.entries(v)`
see them: the properties of an object, the indexed elements of an array, the
indexed characters of a string (code points stand for UTF-16 units), and nothing
for `undefined`, `null`, booleans, numbers and dates. -/
def ownEntries : JSValue → List (String × JSValue)
  | obj fs => fs
  | arr xs => indexedFrom 0 xs
  | str s => indexedFrom 0 (s.toList.map (fun c => str (String.singleton c)))
  | _ => []

mutual
/-- Rendering of a value inside a template literal or as a property key
(`String(v)`). The rendering of a `Date` depends on the time zone of the host and
is left as a fixed tag. -/
def toJSString : JSValue → String
  | undefined => "undefined"
  | null => "null"
  | bool b => if b then "true" else "false"
  | num n => toString n
  | str s => s
  | date _ => "[Date]"
  | arr xs => ",".intercalate (toJSStrings xs)
  | obj _ => "[object Object]"
/-- Renderings of the elements of an array as `Array.prototype.join` uses them:
`null` and `undefined` elements give the empty string. -/
def toJSStrings : List JSValue → List String
  | [] => []
  | undefined :: xs => "" :: toJSStrings xs
  | null :: xs => "" :: toJSStrings xs
  | x :: xs => toJSString x :: toJSStrings xs
end

end JSValue

open JSValue

/-- Property list of an object. -/
abbrev Props := List (String × JSValue)

/-- The own property `name` of an object, if it has one. -/
def lookupProp : Props → String → Option JSValue
  | [], _ => none
  | (k, v) :: rest, name => if k = name then some v else lookupProp rest name

/-- Value of `o[name]` on a plain object: the value of the property, or
`undefined` when the object has no such property. -/
def getProp (o : Props) (name : String) : JSValue :=
  match lookupProp o name with
  | some v => v
  | none => undefined

/-- Assignment `o[name] = v`: replaces the value in place when the property
exists, appends it otherwise. -/
def setProp : Props → String → JSValue → Props
  | [], name, v => [(name, v)]
  | (k, w) :: rest, name, v =>
      if k = name then (k, v) :: rest else (k, w) :: setProp rest name v

/-- Statement `delete o[name]`. -/
def deleteProp : Props → String → Props
  | [], _ => []
  | (k, w) :: rest, name =>
      if k = name then deleteProp rest name else (k, w) :: deleteProp rest name

/-- Value of `v.name` for a value that is neither `null` nor `undefined`. -/
def JSValue.prop (v : JSValue) (name : String) : JSValue :=
  getProp (ownEntries v) name

/-! ## Errors -/

/-- Exceptions raised by the store. `outOfFuel` is an artefact of the
embedding (recursion on nested values is bounded by a fuel argument) and is
never produced by the functions below, which supply enough fuel. -/
inductive StoreError where
  | documentNotFound (type id : JSValue)
  | documentAlreadyExists (type id : JSValue)
  | typeError (what : String)
  | argumentError (what : String)
  | outOfFuel

/-- Text of `Document not found (type: ..., id: ...)`. -/
def documentNotFoundMessage (type id : JSValue) : String :=
  "Document not found (type: \x27" ++ toJSString type ++ "\x27, id: \x27" ++ toJSString id ++ "\x27)"

/-- Text of `Document already exists (type: ..., id: ...)`. -/
def documentAlreadyExistsMessage (type id : JSValue) : String :=
  "Document already exists (type: \x27" ++ toJSString type ++ "\x27, id: \x27" ++ toJSString id
    ++ "\x27)"

/-- Message carried by an exception. -/
def StoreError.message : StoreError → String
  | documentNotFound t i => documentNotFoundMessage t i
  | documentAlreadyExists t i => documentAlreadyExistsMessage t i
  | typeError what => what
  | argumentError what => what
  | outOfFuel => ""

/-! ## `deserializeValue` and `buildProjection` -/

/-- Source: `deserializeValue`. `null` becomes `undefined`, an object tagged
`_type: 'Date'` becomes the date built from its `_value`, anything else is kept. -/
def deserializeValue (value : JSValue) : JSValue :=
  match value with
  | null => undefined
  | _ =>
    if typeofObject value && strictEq (value.prop "_type") (str "Date") then
      date (value.prop "_value")
    else value

/-- Object literal `{_type: true, _id: true, ...rootFields}`: the two default
entries come first and every property of `rootFields` is then assigned over them. -/
def withTypeAndId (rootFields : JSValue) : Props :=
  (ownEntries rootFields).foldl (fun acc e => setProp acc e.1 e.2)
    [("_type", bool true), ("_id", bool true)]

/-- Source: the inner function `build` of `buildProjection`, with the projection
under construction passed explicitly. The first argument bounds the nesting. -/
def build : Nat → JSValue → List String → Props → Props
  | 0, _, _, projection => projection
  | n + 1, rootFields, rootPath, projection =>
      (withTypeAndId rootFields).foldl
        (fun projection e =>
          let path := rootPath ++ [e.1]
          if typeofObject e.2 then build n e.2 path projection
          else if truthy e.2 then setProp projection (".".intercalate path) (num 1)
          else projection)
        projection

/-- Source: `buildProjection`. Its check `ow(fields, ow.object)` repeats the one
its callers have made (`checkFields`), and is left to them. -/
def buildProjection (fields : JSValue) : Props :=
  build (depth fields + 1) fields [] []

/-! ## `_updateDocuments` and `_updateDocument` -/

/-- The options `{throwIfNotFound, throwIfAlreadyExists}` of `save`. -/
structure SaveOptions where
  throwIfNotFound : Bool := true
  throwIfAlreadyExists : Bool := true

/-- The record `{updatedDocuments, acknowledgedDocuments}` returned by
`_updateDocuments`. -/
structure UpdateResult where
  updatedDocuments : List JSValue
  acknowledgedDocuments : List JSValue

/-- The record returned by `_updateDocuments`, as a JavaScript object. -/
def UpdateResult.toJS (r : UpdateResult) : JSValue :=
  obj [("updatedDocuments", arr r.updatedDocuments),
       ("acknowledgedDocuments", arr r.acknowledgedDocuments)]

/-- A `for (const x of xs)` loop whose body updates a state and may throw. -/
def forOf {σ α : Type} (body : σ → α → Except StoreError σ) : σ → List α → Except StoreError σ
  | s, [] => .ok s
  | s, x :: xs =>
      match body s x with
      | .error e => .error e
      | .ok s1 => forOf body s1 xs

/-- The call `documents.find(d => d._type === _type && d._id === _id)` on an
array: the first matching element, `undefined` when there is none, and a
`TypeError` when an element met on the way is `null` or `undefined`. -/
def findDocument (_type _id : JSValue) : List JSValue → Except StoreError JSValue
  | [] => .ok undefined
  | d :: ds =>
      match d with
      | undefined => .error (.typeError "Cannot read property _type of undefined")
      | null => .error (.typeError "Cannot read property _type of null")
      | _ =>
        if strictEq (d.prop "_type") _type && strictEq (d.prop "_id") _id then .ok d
        else findDocument _type _id ds

/-- The expression `existingDocuments?.find(...)` of `_updateDocuments`. -/
def findExisting (existingDocuments _type _id : JSValue) : Except StoreError JSValue :=
  match existingDocuments with
  | undefined => .ok undefined
  | null => .ok undefined
  | arr ds => findDocument _type _id ds
  | _ => .error (.typeError "existingDocuments.find is not a function")

/-- The rest pattern `...fields` of `const {_type, _new, _id, ...fields} = document`. -/
def restFields (document : JSValue) : Props :=
  deleteProp (deleteProp (deleteProp (ownEntries document) "_type") "_new") "_id"

/-- The checks of `_updateDocuments` on one `document`, given the outcome
`existingDocument` of the search among the existing documents: the result is
the document to update (the one found, or a fresh `{_type, _id}`) and the
acknowledgment, carrying `_existed` or `_missed` when the check is tolerated. -/
def checkDocument (o : SaveOptions) (document existingDocument : JSValue) :
    Except StoreError (JSValue × Props) :=
  let _type := document.prop "_type"
  let _new := document.prop "_new"
  let _id := document.prop "_id"
  let acknowledgedDocument : Props := ("_type", _type) :: ("_id", _id) :: restFields document
  if truthy existingDocument then
    if truthy _new then
      if o.throwIfAlreadyExists then .error (.documentAlreadyExists _type _id)
      else .ok (existingDocument, setProp acknowledgedDocument "_existed" (bool true))
    else .ok (existingDocument, acknowledgedDocument)
  else
    if !truthy _new then
      if o.throwIfNotFound then .error (.documentNotFound _type _id)
      else .ok (obj [("_type", _type), ("_id", _id)],
                setProp acknowledgedDocument "_missed" (bool true))
    else .ok (obj [("_type", _type), ("_id", _id)], acknowledgedDocument)

/-- End of the body of the loop of `_updateDocuments`, once the search among the
existing documents has returned `found`: the checks, the call of
`_updateDocument` and the two `push`. -/
def updateChecked (updateDocument : JSValue → JSValue → Except StoreError JSValue)
    (o : SaveOptions) (acc : UpdateResult) (document found : JSValue) :
    Except StoreError UpdateResult :=
  match checkDocument o document found with
  | .error e => .error e
  | .ok (existingDocument, acknowledgedDocument) =>
    match updateDocument existingDocument (obj (restFields document)) with
    | .error e => .error e
    | .ok updatedDocument =>
      .ok ⟨acc.updatedDocuments ++ [updatedDocument],
           acc.acknowledgedDocuments ++ [obj acknowledgedDocument]⟩

/-- Body of the loop of `_updateDocuments`, for one `document`; `updateDocument`
stands for `this._updateDocument`. -/
def updateDocumentsStep (updateDocument : JSValue → JSValue → Except StoreError JSValue)
    (o : SaveOptions) (existingDocuments : JSValue) (acc : UpdateResult) (document : JSValue) :
    Except StoreError UpdateResult :=
  match document with
  | undefined => .error (.typeError "Cannot destructure undefined")
  | null => .error (.typeError "Cannot destructure null")
  | _ =>
    match findExisting existingDocuments (document.prop "_type") (document.prop "_id") with
    | .error e => .error e
    | .ok found => updateChecked updateDocument o acc document found

/-- Body of the loop of `_updateDocument`, for one entry `[name, value]` of
`fields`; `updateDocument` and `updateDocuments` stand for the two recursive
calls. -/
def updateDocumentStep (updateDocument : JSValue → JSValue → Except StoreError JSValue)
    (updateDocuments : JSValue → List JSValue → Except StoreError UpdateResult)
    (updatedDocument : Props) (entry : String × JSValue) : Except StoreError Props :=
  let name := entry.1
  let value := deserializeValue entry.2
  let existingValue := getProp updatedDocument name
  let updatedValue : Except StoreError JSValue :=
    match value with
    | arr xs =>
      match updateDocuments existingValue xs with
      | .error e => .error e
      | .ok r => .ok r.toJS
    | _ => if typeofObject value then updateDocument existingValue value else .ok value
  match updatedValue with
  | .error e => .error e
  | .ok updatedValue =>
    if updatedValue ≠ undefined then .ok (setProp updatedDocument name updatedValue)
    else .ok (deleteProp updatedDocument name)

mutual
/-- Source: `_updateDocument`, with the nesting of `fields` bounded by the first
argument. -/
def updateDocumentAux : Nat → SaveOptions → JSValue → JSValue → Except StoreError JSValue
  | 0, _, _, _ => .error .outOfFuel
  | n + 1, o, existingDocument, fields =>
    match fields with
    | undefined => .error (.typeError "Cannot convert undefined to object")
    | null => .error (.typeError "Cannot convert null to object")
    | _ =>
      match forOf (updateDocumentStep (updateDocumentAux n o) (updateDocumentsAux n o))
          (ownEntries existingDocument) (ownEntries fields) with
      | .error e => .error e
      | .ok updatedDocument => .ok (obj updatedDocument)
/-- Source: `_updateDocuments`, with the nesting of `documents` bounded by the
first argument. -/
def updateDocumentsAux : Nat → SaveOptions → JSValue → List JSValue →
    Except StoreError UpdateResult
  | 0, _, _, _ => .error .outOfFuel
  | n + 1, o, existingDocuments, documents =>
    forOf (updateDocumentsStep (updateDocumentAux n o) o existingDocuments) ⟨[], []⟩ documents
end

/-- Source: `MongoDBStore._updateDocument(existingDocument, fields, options)`. -/
def _updateDocument (o : SaveOptions) (existingDocument fields : JSValue) :
    Except StoreError JSValue :=
  updateDocumentAux (2 * depthFields (ownEntries fields) + 1) o existingDocument fields

/-- Source: `MongoDBStore._updateDocuments(existingDocuments, documents, options)`. -/
def _updateDocuments (o : SaveOptions) (existingDocuments : JSValue) (documents : List JSValue) :
    Except StoreError UpdateResult :=
  updateDocumentsAux (2 * depthList documents + 2) o existingDocuments documents

/-! ## The database and the store operations -/

/-- Content of the database: the documents of each collection, in natural order. -/
abbrev Store := String → List JSValue

/-- Source: `_getCollection`, whose check `ow(type, ow.string.nonEmpty)` rejects
the empty collection name. -/
def _getCollection (type : String) : Except StoreError String :=
  if type = "" then .error (.argumentError "Expected string to not be empty") else .ok type

/-- Insertion of `x` into the groups built so far by `groupBy`. -/
def addToGroup {α : Type} (key : String) (x : α) : List (String × List α) → List (String × List α)
  | [] => [(key, [x])]
  | (k, xs) :: rest =>
      if k = key then (k, xs ++ [x]) :: rest else (k, xs) :: addToGroup key x rest

/-- The call `groupBy(documents, '_type')` of lodash followed by
`Object.entries`: the documents grouped under the rendering of their `_type`. -/
def groupByType (documents : List JSValue) : List (String × List JSValue) :=
  documents.foldl (fun groups d => addToGroup (toJSString (d.prop "_type")) d groups) []

/-- The expression `documents.map(document => document._id)`. -/
def documentIds : List JSValue → Except StoreError (List JSValue)
  | [] => .ok []
  | d :: ds =>
      match d with
      | undefined => .error (.typeError "Cannot read property _id of undefined")
      | null => .error (.typeError "Cannot read property _id of null")
      | _ =>
        match documentIds ds with
        | .error e => .error e
        | .ok ids => .ok (d.prop "_id" :: ids)

/-- The document the driver returns for a stored document under the option
`{projection}`: the document itself when `projection` is `undefined`, and what
the projection `project` of MongoDB makes of it otherwise. -/
def applyProjection (project : Props → JSValue → JSValue) (projection : Option Props)
    (d : JSValue) : JSValue :=
  match projection with
  | none => d
  | some p => project p d

/-- The driver call `collection.find({_id: {$in: ids}}, {projection}).toArray()`;
`project` is the projection performed by MongoDB, and no projection is applied
when `projection` is `undefined`. -/
def findByIds (project : Props → JSValue → JSValue) (collection : List JSValue)
    (ids : List JSValue) (projection : Option Props) : List JSValue :=
  (collection.filter (fun d => ids.contains (d.prop "_id"))).map
    (applyProjection project projection)

/-- Body of the loop of `_loadDocuments`, for the documents of one type. -/
def loadGroup (project : Props → JSValue → JSValue) (store : Store) (projection : Option Props)
    (loadedDocuments : List JSValue) (group : String × List JSValue) :
    Except StoreError (List JSValue) :=
  match _getCollection group.1 with
  | .error e => .error e
  | .ok type =>
    match documentIds group.2 with
    | .error e => .error e
    | .ok ids => .ok (loadedDocuments ++ findByIds project (store type) ids projection)

/-- Source: `_loadDocuments`. -/
def _loadDocuments (project : Props → JSValue → JSValue) (store : Store)
    (documents : List JSValue) (fields : Option JSValue) : Except StoreError (List JSValue) :=
  forOf (loadGroup project store (fields.map buildProjection)) [] (groupByType documents)

/-- A `documents.map(f)` whose callback may throw. -/
def mapExcept {α β : Type} (f : α → Except StoreError β) : List α → Except StoreError (List β)
  | [] => .ok []
  | x :: xs =>
      match f x with
      | .error e => .error e
      | .ok y =>
        match mapExcept f xs with
        | .error e => .error e
        | .ok ys => .ok (y :: ys)

/-- Callback of the `map` in `load`. -/
def loadOne (loadedDocuments : List JSValue) (throwIfNotFound : Bool) (document : JSValue) :
    Except StoreError JSValue :=
  match document with
  | undefined => .error (.typeError "Cannot destructure undefined")
  | null => .error (.typeError "Cannot destructure null")
  | _ =>
    let _type := document.prop "_type"
    let _id := document.prop "_id"
    match findDocument _type _id loadedDocuments with
    | .error e => .error e
    | .ok loadedDocument =>
      if truthy loadedDocument then .ok loadedDocument
      else if !throwIfNotFound then
        .ok (obj [("_type", _type), ("_id", _id), ("_missed", bool true)])
      else .error (.documentNotFound _type _id)

/-- The check `ow(fields, ow.optional.object)`: when `fields` is given it has to
be an object (arrays and dates pass, `null` and scalars do not). -/
def checkFields (fields : Option JSValue) : Except StoreError Unit :=
  match fields with
  | none => .ok ()
  | some (obj _) => .ok ()
  | some (arr _) => .ok ()
  | some (date _) => .ok ()
  | some _ => .error (.argumentError "Expected argument to be of type object")

/-- Source: `MongoDBStore.load(documents, {fields, throwIfNotFound})`. -/
def load (project : Props → JSValue → JSValue) (store : Store) (documents : List JSValue)
    (fields : Option JSValue) (throwIfNotFound : Bool) : Except StoreError (List JSValue) :=
  match checkFields fields with
  | .error e => .error e
  | .ok _ =>
    match _loadDocuments project store documents fields with
    | .error e => .error e
    | .ok loadedDocuments => mapExcept (loadOne loadedDocuments throwIfNotFound) documents

/-- The operation `replaceOne: {filter: {_id}, replacement, upsert: true}`: the
first document with that `_id` is replaced, and the replacement is inserted when
there is none. -/
def replaceOne (_id replacement : JSValue) : List JSValue → List JSValue
  | [] => [replacement]
  | d :: ds =>
      if d.prop "_id" = _id then replacement :: ds else d :: replaceOne _id replacement ds

/-- The call `collection.bulkWrite(operations)` of `save`, the operations being
applied in the order of `documents`. -/
def bulkWrite (collection : List JSValue) (documents : List JSValue) : List JSValue :=
  documents.foldl (fun c d => replaceOne (d.prop "_id") d c) collection

/-- The loop of `save` that writes the updated documents, one collection after
the other; the store reached is returned together with the outcome. -/
def writeGroups : Store → List (String × List JSValue) → Except StoreError Unit × Store
  | store, [] => (.ok (), store)
  | store, (key, documents) :: rest =>
      match _getCollection key with
      | .error e => (.error e, store)
      | .ok type =>
        writeGroups (Function.update store type (bulkWrite (store type) documents)) rest

/-- Source: `MongoDBStore.save(documents, {throwIfNotFound, throwIfAlreadyExists})`.
The result pairs what the call returns or throws with the store it leaves. -/
def save (project : Props → JSValue → JSValue) (store : Store) (documents : List JSValue)
    (o : SaveOptions) : Except StoreError (List JSValue) × Store :=
  match _loadDocuments project store documents none with
  | .error e => (.error e, store)
  | .ok existingDocuments =>
    match _updateDocuments o (arr existingDocuments) documents with
    | .error e => (.error e, store)
    | .ok r =>
      match writeGroups store (groupByType r.updatedDocuments) with
      | (.error e, store1) => (.error e, store1)
      | (.ok _, store1) => (.ok r.acknowledgedDocuments, store1)

/-- Callback of the `map` in `delete`. -/
def deleteOne (existingDocuments : List JSValue) (throwIfNotFound : Bool) (document : JSValue) :
    Except StoreError JSValue :=
  match document with
  | undefined => .error (.typeError "Cannot destructure undefined")
  | null => .error (.typeError "Cannot destructure null")
  | _ =>
    let _type := document.prop "_type"
    let _id := document.prop "_id"
    match findDocument _type _id existingDocuments with
    | .error e => .error e
    | .ok existingDocument =>
      if !truthy existingDocument then
        if throwIfNotFound then .error (.documentNotFound _type _id)
        else .ok (obj [("_type", _type), ("_id", _id), ("_missed", bool true)])
      else .ok (obj [("_type", _type), ("_id", _id)])

/-- The call `collection.deleteMany({_id: {$in: ids}})`. -/
def deleteMany (collection : List JSValue) (ids : List JSValue) : List JSValue :=
  collection.filter (fun d => !(ids.contains (d.prop "_id")))

/-- The loop of `delete` that removes the found documents, one collection after
the other. -/
def deleteGroups : Store → List (String × List JSValue) → Except StoreError Unit × Store
  | store, [] => (.ok (), store)
  | store, (key, documents) :: rest =>
      match _getCollection key with
      | .error e => (.error e, store)
      | .ok type =>
        match documentIds documents with
        | .error e => (.error e, store)
        | .ok ids => deleteGroups (Function.update store type (deleteMany (store type) ids)) rest

/-- Source: `MongoDBStore.delete(documents, {throwIfNotFound})`. -/
def delete (project : Props → JSValue → JSValue) (store : Store) (documents : List JSValue)
    (throwIfNotFound : Bool) : Except StoreError (List JSValue) × Store :=
  match _loadDocuments project store documents (some (obj [])) with
  | .error e => (.error e, store)
  | .ok existingDocuments =>
    match mapExcept (deleteOne existingDocuments throwIfNotFound) documents with
    | .error e => (.error e, store)
    | .ok acknowledgedDocuments =>
      match deleteGroups store (groupByType existingDocuments) with
      | (.error e, store1) => (.error e, store1)
      | (.ok _, store1) => (.ok acknowledgedDocuments, store1)

/-! ## Well-formed objects and paths into nested records -/

namespace JSValue

mutual
/-- Whether every object inside the value has pairwise distinct property names,
as every JavaScript object does. -/
def uniqueKeys : JSValue → Bool
  | obj fs => decide ((fs.map Prod.fst).Nodup) && uniqueKeysFields fs
  | arr xs => uniqueKeysList xs
  | date v => uniqueKeys v
  | _ => true
/-- The elements of a list all have `uniqueKeys`. -/
def uniqueKeysList : List JSValue → Bool
  | [] => true
  | x :: xs => uniqueKeys x && uniqueKeysList xs
/-- The property values of a property list all have `uniqueKeys`. -/
def uniqueKeysFields : List (String × JSValue) → Bool
  | [] => true
  | (_, x) :: xs => uniqueKeys x && uniqueKeysFields xs
end

end JSValue

/-- The nested record reached from the input fields `f` by following the
property names of `path`, each step going through a nested record that is not a
serialized date. -/
def recordAt : Props → List String → Option Props
  | f, [] => some f
  | f, n :: path =>
      match lookupProp f n with
      | some (obj g) => if getProp g "_type" = str "Date" then none else recordAt g path
      | _ => none

/-- The value reached from `v` by following the property names of `path`
through objects. -/
def valueAt : JSValue → List String → Option JSValue
  | v, [] => some v
  | obj fs, n :: path =>
      match lookupProp fs n with
      | some x => valueAt x path
      | none => none
  | _, _ :: _ => none

/-- An existing document used in the examples: a user with a nested address. -/
def exampleUser : Props :=
  [("_type", str "user"), ("_id", str "u1"), ("name", str "Ada"),
   ("address", obj [("city", str "Paris"), ("zip", str "75001")])]

/-! ## Documents, references and the content of the store -/

/-- The collection a document belongs to: the rendering of its `_type`. -/
def JSValue.typeName (d : JSValue) : String :=
  toJSString (d.prop "_type")

/-- A document or reference as the store expects it: its `_type` is a non-empty
string and its `_id` is a string. -/
def isDocument (d : JSValue) : Bool :=
  match d.prop "_type", d.prop "_id" with
  | str t, str _ => t != ""
  | _, _ => false

/-- The stored document that has the `_type` and the `_id` of `d`, if any. -/
def findStored (store : Store) (d : JSValue) : Option JSValue :=
  (store d.typeName).find? (fun x => x.prop "_id" = d.prop "_id")

/-- Every document of a collection records the name of the collection as its
`_type`, as the documents written by `save` do. -/
def Store.WellFormed (store : Store) : Prop :=
  ∀ T, ∀ x ∈ store T, x.prop "_type" = str T

/-- The projection `view` keeps the `_type` and the `_id` of the stored
documents. -/
def KeepsTypeAndId (view : JSValue → JSValue) (store : Store) : Prop :=
  ∀ T, ∀ x ∈ store T,
    (view x).prop "_type" = x.prop "_type" ∧ (view x).prop "_id" = x.prop "_id"

/-- The reference `{_type, _id}` of a document. -/
def reference (d : JSValue) : JSValue :=
  obj [("_type", d.prop "_type"), ("_id", d.prop "_id")]

/-- The acknowledgment `{_type, _id, _missed: true}` of a document that was not
found. -/
def missed (d : JSValue) : JSValue :=
  obj [("_type", d.prop "_type"), ("_id", d.prop "_id"), ("_missed", bool true)]

/-- The documents `_loadDocuments` returns when no call fails: for each group of
`groupByType`, the documents of the collection whose `_id` is asked for, as the
projection `view` shows them. -/
def loadedDocuments (view : JSValue → JSValue) (store : Store) (documents : List JSValue) :
    List JSValue :=
  (groupByType documents).flatMap
    (fun g =>
      ((store g.1).filter
        (fun x => (g.2.map (fun d => d.prop "_id")).contains (x.prop "_id"))).map view)

/-- A store used in the examples: one user document in the collection `user`. -/
def exampleStore : Store :=
  fun T => if T = "user" then [obj exampleUser] else []

/-- A projection used in the examples: the document is returned whole. -/
def noProjection : Props → JSValue → JSValue :=
  fun _ d => d

/-- A projection used in the examples: of a stored object, the top-level
properties that the projection names are kept, together with `_id`, as an
inclusion projection of MongoDB does for paths without a dot. -/
def topLevelProjection : Props → JSValue → JSValue :=
  fun projection d =>
    match d with
    | obj fs => obj (fs.filter (fun e => e.1 = "_id" || (lookupProp projection e.1).isSome))
    | _ => d

/-- The store without the documents that a reference of `documents` designates:
in every collection, the documents whose `_id` is the `_id` of a reference of
that type are left out. -/
def withoutReferenced (store : Store) (documents : List JSValue) : Store :=
  fun T => (store T).filter (fun x =>
    !(documents.any (fun d => decide (d.typeName = T) && decide (d.prop "_id" = x.prop "_id"))))

/-- The stored document that has the `_type` and the `_id` of `d`, or
`undefined`: what the search of `_updateDocuments` yields at the top level. -/
def storedOrUndefined (store : Store) (d : JSValue) : JSValue :=
  match findStored store d with
  | some x => x
  | none => undefined

/-- The body of the loop of `_updateDocuments` as `save` runs it on one of its
documents, the search being answered from the store. -/
def saveStep (store : Store) (o : SaveOptions) (acc : UpdateResult) (d : JSValue) :
    Except StoreError UpdateResult :=
  updateChecked (_updateDocument o) o acc d (storedOrUndefined store d)

/-- The acknowledgment the checks of `_updateDocuments` build for a document
(the empty record when a check throws). -/
def acknowledgment (o : SaveOptions) (document found : JSValue) : Props :=
  match checkDocument o document found with
  | .ok (_, acknowledgedDocument) => acknowledgedDocument
  | .error _ => []

/-- The stored user `u1`, sent again with the flag `_new`. -/
def newUser1 : JSValue :=
  obj [("_type", str "user"), ("_id", str "u1"), ("_new", bool true)]

/-- The unknown user `u2`, sent without the flag `_new`. -/
def unknownUser2 : JSValue :=
  obj [("_type", str "user"), ("_id", str "u2")]

/-- The serialized form `{_type: 'Date', _value: v}` of a date, as it occurs in
the fields handed to `save`. -/
def serializedDate (v : JSValue) : JSValue :=
  obj [("_type", str "Date"), ("_value", v)]

/-- The new user `u2`, sent with a serialized date under `birthday`. -/
def newUser2WithBirthday : JSValue :=
  obj [("_type", str "user"), ("_id", str "u2"), ("_new", bool true),
    ("birthday", obj [("_type", str "Date"), ("_value", str "2000-01-01T00:00:00.000Z")])]

/-! ## What `save` does with one document -/

/-- The document `existingDocument` that the loop of `_updateDocuments` merges
the fields of `d` into when `save` runs it: the stored document that has the
`_type` and the `_id` of `d`, or the fresh `{_type, _id}` when there is none. -/
def existingOrFresh (store : Store) (d : JSValue) : JSValue :=
  match findStored store d with
  | some x => x
  | none => obj [("_type", d.prop "_type"), ("_id", d.prop "_id")]

/-- The call `this._updateDocument(existingDocument, fields, options)` that
`save` makes for the document `d`. -/
def mergeInto (store : Store) (o : SaveOptions) (d : JSValue) : Except StoreError JSValue :=
  _updateDocument o (existingOrFresh store d) (obj (restFields d))

mutual
/-- The elements of the array fields that `_updateDocument` goes through for
`fields`, at any depth: the elements of each array field, the elements nested in
the fields of those elements, and the elements nested in each record field. The
first argument bounds the nesting as in `updateDocumentAux`. -/
def nestedAux : Nat → JSValue → List JSValue
  | 0, _ => []
  | n + 1, fields =>
    (ownEntries fields).flatMap (fun entry =>
      match deserializeValue entry.2 with
      | arr xs => nestedListAux n xs
      | value => if typeofObject value then nestedAux n value else [])
/-- The elements of an array handed to `_updateDocuments`, followed by the
elements nested in their fields. -/
def nestedListAux : Nat → List JSValue → List JSValue
  | 0, _ => []
  | n + 1, documents =>
    documents ++ documents.flatMap (fun document => nestedAux n (obj (restFields document)))
end

/-- The elements of the array fields of the document `d`, at any depth: the
documents other than `d` itself that the checks of `_updateDocuments` are run
on when `save` handles `d`. -/
def nestedDocuments (d : JSValue) : List JSValue :=
  nestedAux (2 * depthFields (restFields d) + 1) (obj (restFields d))

namespace JSValue

mutual
/-- Whether the value holds no array, at any depth of its properties. -/
def noArrays : JSValue → Bool
  | arr _ => false
  | obj fs => noArraysFields fs
  | _ => true
/-- The property values of a property list all have `noArrays`. -/
def noArraysFields : List (String × JSValue) → Bool
  | [] => true
  | (_, x) :: xs => noArrays x && noArraysFields xs
end

end JSValue

/-- Options of `save` that tolerate a document flagged `_new` that exists. -/
def tolerateExisting : SaveOptions :=
  { throwIfNotFound := true, throwIfAlreadyExists := false }

/-- Options of `save` that tolerate a document that is not found. -/
def tolerateMissing : SaveOptions :=
  { throwIfNotFound := false, throwIfAlreadyExists := true }

/-- The unknown user `u3`, sent with the flag `_new` and a name. -/
def newUser3 : JSValue :=
  obj [("_type", str "user"), ("_id", str "u3"), ("_new", bool true), ("name", str "Bob")]

/-- The unknown user `u2`, sent without the flag `_new` and with a name. -/
def unknownUser2Named : JSValue :=
  obj [("_type", str "user"), ("_id", str "u2"), ("name", str "Eve")]

/-- The unknown user `u4`, flagged `_new`, with the unknown tag `t1` (not
flagged `_new`) in its array field `tags`. -/
def newUser4WithTag : JSValue :=
  obj [("_type", str "user"), ("_id", str "u4"), ("_new", bool true),
    ("tags", arr [obj [("_type", str "tag"), ("_id", str "t1")]])]

/-- The unknown user `u3`, flagged `_new`, sent with a field `_missed` of its
own. -/
def newUser3Missed : JSValue :=
  obj [("_type", str "user"), ("_id", str "u3"), ("_new", bool true), ("_missed", bool true)]

/-! ## The entity identity map and the reconciliation protocol

The implementation of `Entity.fromJSON` is not part of the sources at hand (only
its test is); the definitions of this section follow sections 3 and 4 of the
specification. Attribute values are `JSValue`s, an entity instance is referred to
by its position in a heap, and reference equality of instances is equality of
these positions. -/

namespace Entity

/-- Modelled from the spec: the error taxonomy of section 7, as far as attribute
writes and reconciliation raise it (the implementation of the entity package is
missing from the sources). -/
inductive EntityError where
  | unknownType (typeName : String)
  | unknownProperty (name : String)
  | typeMismatch (attrName : String)
  | duplicateIdentifierValue (attrName : String)
  | newInstanceConflict

/-- Modelled from the spec: the tag of an attribute; `primary` and `secondary`
are the two kinds of `IdentifierAttribute` (the attribute classes are missing
from the sources). -/
inductive AttributeKind where
  | plain
  | primary
  | secondary
  deriving DecidableEq

/-- Modelled from the spec: the `declaredType` kinds of an `AttributeDescriptor`
(the attribute classes are missing from the sources). -/
inductive DeclaredType where
  | string
  | number
  | boolean
  | object
  | array
  | date
  deriving DecidableEq

/-- Modelled from the spec: `AttributeDescriptor`, a typed, named slot on an
entity type (the attribute classes are missing from the sources). -/
structure AttributeDescriptor where
  name : String
  declaredType : DeclaredType
  nullable : Bool
  kind : AttributeKind

/-- Modelled from the spec: whether the attribute is an `IdentifierAttribute`
(the attribute classes are missing from the sources). -/
def AttributeDescriptor.isIdentifier (a : AttributeDescriptor) : Bool :=
  a.kind != AttributeKind.plain

/-- Modelled from the spec: the type an attribute checks its values against; the
declared type of an identifier attribute is fixed to string (the attribute
classes are missing from the sources). -/
def AttributeDescriptor.expectedType (a : AttributeDescriptor) : DeclaredType :=
  if a.isIdentifier then DeclaredType.string else a.declaredType

/-- Modelled from the spec: `EntityTypeDescriptor`, the attributes of a type in
declaration order (the entity classes are missing from the sources). -/
structure EntityTypeDescriptor where
  typeName : String
  attributes : List AttributeDescriptor

/-- Modelled from the spec: `getIdentifierAttributes()`, the identifier
attributes in declaration order (the entity classes are missing from the
sources). -/
def EntityTypeDescriptor.getIdentifierAttributes (t : EntityTypeDescriptor) :
    List AttributeDescriptor :=
  t.attributes.filter (fun a => a.isIdentifier)

/-- Modelled from the spec: lookup of an attribute by name (the entity classes
are missing from the sources). -/
def EntityTypeDescriptor.getAttribute (t : EntityTypeDescriptor) (name : String) :
    Option AttributeDescriptor :=
  t.attributes.find? (fun a => a.name == name)

/-- Modelled from the spec: `EntityInstance`, a type reference, a values store
in which `undefined` is the unset state, and the newness flag (the entity
classes are missing from the sources). -/
structure EntityInstance where
  type : String
  values : String → JSValue
  isNew : Bool

/-- Modelled from the spec: `IdentityMap`, the mapping from
`(typeName, identifierAttributeName, value)` to the registered instance (the
entity manager is missing from the sources). -/
abbrev IdentityMap := String → String → String → Option Nat

/-- Modelled from the spec: the state of a process, namely the instances
allocated so far (`heap r` for `r < next`) and the one identity map shared by
all types (the entity manager is missing from the sources). -/
structure World where
  heap : Nat → EntityInstance
  next : Nat
  identityMap : IdentityMap

/-- Modelled from the spec: the serialized entity record of section 6, made of
a type tag, an optional new-instance flag and attribute fields (the
deserializer is missing from the sources). -/
structure Record where
  type : String
  isNew : Bool
  fields : List (String × JSValue)

/-- Modelled from the spec: `lookup(type, attr, value)` of the identity map (the
entity manager is missing from the sources). -/
def lookup (m : IdentityMap) (typeName attrName value : String) : Option Nat :=
  m typeName attrName value

/-- Modelled from the spec: insertion or overwriting of one mapping (the entity
manager is missing from the sources). -/
def insert (m : IdentityMap) (typeName attrName value : String) (instance_ : Nat) :
    IdentityMap :=
  fun t a v => if t = typeName ∧ a = attrName ∧ v = value then some instance_ else m t a v

/-- Modelled from the spec: removal of one mapping (the entity manager is
missing from the sources). -/
def remove (m : IdentityMap) (typeName attrName value : String) : IdentityMap :=
  fun t a v => if t = typeName ∧ a = attrName ∧ v = value then none else m t a v

/-- Modelled from the spec: `register(instance, attr, value)`, which fails with
a duplicate-identifier error when the key already maps to a different instance
and otherwise makes the key point at `instance_` (the entity manager is missing
from the sources). -/
def register (m : IdentityMap) (instance_ : Nat) (typeName attrName value : String) :
    Except EntityError IdentityMap :=
  match lookup m typeName attrName value with
  | some other =>
      if other = instance_ then .ok (insert m typeName attrName value instance_)
      else .error (.duplicateIdentifierValue attrName)
  | none => .ok (insert m typeName attrName value instance_)

/-- Modelled from the spec: the first half of `rekey`, the removal of the old
mapping if there is one (the entity manager is missing from the sources). -/
def removeOld (m : IdentityMap) (typeName attrName : String) (oldValue : JSValue) :
    IdentityMap :=
  match oldValue with
  | str old => remove m typeName attrName old
  | _ => m

/-- Modelled from the spec: `rekey(instance, attr, oldValue, newValue)`, which
removes the old mapping if there is one and registers the new value; when the
registration fails the map is left as it was and the write is rejected (the
entity manager is missing from the sources). -/
def rekey (m : IdentityMap) (instance_ : Nat) (typeName attrName : String)
    (oldValue newValue : JSValue) : Except EntityError IdentityMap :=
  match newValue with
  | str new => register (removeOld m typeName attrName oldValue) instance_ typeName attrName new
  | _ => .ok (removeOld m typeName attrName oldValue)

/-- Modelled from the spec: the kind of a value, `none` for the unset state
(the attribute classes are missing from the sources). -/
def kindOf : JSValue → Option DeclaredType
  | undefined => none
  | null => none
  | JSValue.bool _ => some .boolean
  | num _ => some .number
  | str _ => some .string
  | date _ => some .date
  | arr _ => some .array
  | obj _ => some .object

/-- Modelled from the spec: a `null` input is normalized to the unset state
(the attribute classes are missing from the sources). -/
def normalize : JSValue → JSValue
  | null => undefined
  | v => v

/-- Modelled from the spec: validation of a normalized value against the
declared type, an exact kind match, the unset state being accepted only by a
nullable attribute (the attribute classes are missing from the sources). -/
def AttributeDescriptor.accepts (a : AttributeDescriptor) (value : JSValue) : Bool :=
  match kindOf value with
  | none => a.nullable
  | some k => k = a.expectedType

/-- Modelled from the spec: `set(instance, value)` of an `AttributeDescriptor`
reached through its name, on the instance at position `instance_` of the heap:
validation, then identity-map maintenance for an identifier attribute, then the
store of the value (the attribute classes are missing from the sources). -/
def set (t : EntityTypeDescriptor) (instance_ : Nat) (w : World) (field : String × JSValue) :
    Except EntityError World :=
  match t.getAttribute field.1 with
  | none => .error (.unknownProperty field.1)
  | some a =>
    let value := normalize field.2
    let current := w.heap instance_
    let written : EntityInstance :=
      { current with values := Function.update current.values field.1 value }
    if a.accepts value then
      if a.isIdentifier then
        match rekey w.identityMap instance_ t.typeName field.1 (current.values field.1) value with
        | .error e => .error e
        | .ok m =>
          .ok { heap := Function.update w.heap instance_ written, next := w.next,
                identityMap := m }
      else
        .ok { heap := Function.update w.heap instance_ written, next := w.next,
              identityMap := w.identityMap }
    else .error (.typeMismatch field.1)

/-- Modelled from the spec: the application of the attribute fields of an input
through the normal write path, in input order (the deserializer is missing from
the sources). -/
def applyFields (t : EntityTypeDescriptor) (instance_ : Nat) :
    World → List (String × JSValue) → Except EntityError World
  | w, [] => .ok w
  | w, field :: rest =>
      match set t instance_ w field with
      | .error e => .error e
      | .ok w1 => applyFields t instance_ w1 rest

/-- Modelled from the spec: the identifier value an input carries for an
attribute, if any (the deserializer is missing from the sources). -/
def Record.identifierValue (input : Record) (attrName : String) : Option String :=
  match input.fields.find? (fun e => e.1 == attrName) with
  | some (_, str v) => some v
  | _ => none

/-- Modelled from the spec: step 2 of the reconciliation algorithm, the probe
of the identity map for each identifier attribute that has a value in the
input, in declaration order, until a match is found (the deserializer is
missing from the sources). -/
def probe (m : IdentityMap) (input : Record) : List AttributeDescriptor → Option Nat
  | [] => none
  | a :: rest =>
      match input.identifierValue a.name with
      | some v =>
          match lookup m input.type a.name v with
          | some r => some r
          | none => probe m input rest
      | none => probe m input rest

/-- Modelled from the spec: the reconciliation algorithm of section 4.4, which
`Entity.fromJSON` runs on a serialized record (the deserializer is missing from
the sources). It returns the world reached and the instance, or the error. -/
def fromJSON (types : List EntityTypeDescriptor) (w : World) (input : Record) :
    Except EntityError (World × Nat) :=
  match types.find? (fun t => t.typeName == input.type) with
  | none => .error (.unknownType input.type)
  | some t =>
    match probe w.identityMap input t.getIdentifierAttributes with
    | some r =>
        if input.isNew && !(w.heap r).isNew then .error .newInstanceConflict
        else
          match applyFields t r w input.fields with
          | .error e => .error e
          | .ok w1 => .ok (w1, r)
    | none =>
        let r := w.next
        let created : EntityInstance :=
          { type := t.typeName, values := fun _ => undefined, isNew := input.isNew }
        let w0 : World :=
          { heap := Function.update w.heap r created, next := r + 1,
            identityMap := w.identityMap }
        match applyFields t r w0 input.fields with
        | .error e => .error e
        | .ok w1 => .ok (w1, r)

/-- The empty world: no instance has been created and nothing is registered. -/
def World.empty : World :=
  { heap := fun _ => { type := "", values := fun _ => undefined, isNew := false },
    next := 0, identityMap := fun _ _ _ => none }

/-- The declared attribute names of a type are pairwise distinct. -/
def EntityTypeDescriptor.WellFormed (t : EntityTypeDescriptor) : Prop :=
  (t.attributes.map (fun a => a.name)).Nodup

instance (t : EntityTypeDescriptor) : Decidable t.WellFormed :=
  inferInstanceAs (Decidable (t.attributes.map (fun (a : AttributeDescriptor) => a.name)).Nodup)

/-- Consistency of the identity map with the instances: every identifier value
held by an allocated instance is registered to that instance, and every
registration is made under an identifier attribute of its type and points at an
allocated instance of that type holding that value. -/
structure World.Consistent (types : List EntityTypeDescriptor) (w : World) : Prop where
  registered : ∀ r t a v, r < w.next →
    types.find? (fun t => t.typeName == (w.heap r).type) = some t →
    t.getAttribute a.name = some a → a.isIdentifier = true →
    (w.heap r).values a.name = str v → w.identityMap (w.heap r).type a.name v = some r
  holds : ∀ typeName attrName v r, w.identityMap typeName attrName v = some r →
    r < w.next ∧ (w.heap r).type = typeName ∧ (w.heap r).values attrName = str v
  identifier : ∀ typeName attrName v r, w.identityMap typeName attrName v = some r →
    ∃ t a, types.find? (fun t => t.typeName == typeName) = some t ∧
      t.getAttribute attrName = some a ∧ a.isIdentifier = true

/-- The world a reconciliation call leaves (the world it started from when the
call fails). -/
def worldAfter (types : List EntityTypeDescriptor) (w : World) (input : Record) : World :=
  match fromJSON types w input with
  | .ok (w1, _) => w1
  | .error _ => w

/-- The entity type of the test `Entity management`: a primary identifier `id`
and a secondary identifier `email`. -/
def userType : EntityTypeDescriptor :=
  { typeName := "user",
    attributes :=
      [{ name := "id", declaredType := .string, nullable := false, kind := .primary },
       { name := "email", declaredType := .string, nullable := false, kind := .secondary }] }

/-- The record `{__component: 'user', id: 'abc123'}` of the test. -/
def userAbc : Record := { type := "user", isNew := false, fields := [("id", str "abc123")] }

/-- The record `{__component: 'user', id: 'xyz789'}` of the test. -/
def userXyz : Record := { type := "user", isNew := false, fields := [("id", str "xyz789")] }

end Entity

/-! ## Nesting bounds -/

theorem depth_le_depthFields {fs : Props} {e : String × JSValue} (h : e ∈ fs) :
    depth e.2 ≤ depthFields fs := by
  induction fs with
  | nil => cases h
  | cons a rest ih =>
    obtain ⟨k, v⟩ := a
    simp only [depthFields]
    rcases List.mem_cons.1 h with h | h
    · subst h; exact Nat.le_max_left _ _
    · exact Nat.le_trans (ih h) (Nat.le_max_right _ _)

theorem depth_le_depthList {xs : List JSValue} {x : JSValue} (h : x ∈ xs) :
    depth x ≤ depthList xs := by
  induction xs with
  | nil => cases h
  | cons a rest ih =>
    simp only [depthList]
    rcases List.mem_cons.1 h with h | h
    · subst h; exact Nat.le_max_left _ _
    · exact Nat.le_trans (ih h) (Nat.le_max_right _ _)

theorem depthFields_deleteProp_le (fs : Props) (name : String) :
    depthFields (deleteProp fs name) ≤ depthFields fs := by
  induction fs with
  | nil => simp [deleteProp, depthFields]
  | cons a rest ih =>
    obtain ⟨k, v⟩ := a
    by_cases hp : k = name
    · simp only [deleteProp, if_pos hp, depthFields]
      omega
    · simp only [deleteProp, if_neg hp, depthFields]
      omega

theorem depthFields_indexedFrom (i : Nat) (xs : List JSValue) :
    depthFields (indexedFrom i xs) = depthList xs := by
  induction xs generalizing i with
  | nil => simp [indexedFrom, depthFields, depthList]
  | cons a rest ih => simp [indexedFrom, depthFields, depthList, ih]

theorem depthList_chars (cs : List Char) :
    depthList (cs.map (fun c => str (String.singleton c))) = 0 := by
  induction cs with
  | nil => simp [depthList]
  | cons a rest ih => simp [depthList, depth, ih]

theorem depthFields_ownEntries_le (v : JSValue) : depthFields (ownEntries v) ≤ depth v := by
  cases v <;> simp [ownEntries, depthFields, depth, depthFields_indexedFrom, depthList_chars]

theorem depthFields_restFields_le (d : JSValue) :
    depthFields (restFields d) ≤ depth d := by
  have h1 := depthFields_ownEntries_le d
  have h2 := depthFields_deleteProp_le (ownEntries d) "_type"
  have h3 := depthFields_deleteProp_le (deleteProp (ownEntries d) "_type") "_new"
  have h4 := depthFields_deleteProp_le
    (deleteProp (deleteProp (ownEntries d) "_type") "_new") "_id"
  unfold restFields
  omega

theorem depthFields_ownEntries_lt {v : JSValue} (h : typeofObject v = true) (hn : v ≠ null) :
    depthFields (ownEntries v) + 1 ≤ depth v := by
  cases v <;> simp_all [ownEntries, depthFields, depth, depthFields_indexedFrom, typeofObject]

theorem deserializeValue_cases (v : JSValue) :
    deserializeValue v = v ∨ deserializeValue v = undefined ∨
      (∃ w, deserializeValue v = date w ∧ typeofObject v = true ∧ v ≠ null) := by
  unfold deserializeValue
  cases v <;> simp [typeofObject]
  all_goals split <;> simp_all

theorem forOf_congr {σ α : Type} {f g : σ → α → Except StoreError σ} {xs : List α}
    (h : ∀ s, ∀ x ∈ xs, f s x = g s x) (s : σ) : forOf f s xs = forOf g s xs := by
  induction xs generalizing s with
  | nil => rfl
  | cons a rest ih =>
    simp only [forOf]
    rw [h s a (List.mem_cons_self _ _)]
    cases g s a with
    | error e => rfl
    | ok s1 => exact ih (fun s x hx => h s x (List.mem_cons_of_mem _ hx)) s1

theorem updateDocumentStep_congr
    {f g : JSValue → JSValue → Except StoreError JSValue}
    {fs gs : JSValue → List JSValue → Except StoreError UpdateResult}
    (u : Props) (e : String × JSValue)
    (hdoc : typeofObject (deserializeValue e.2) = true →
      ∀ x, f x (deserializeValue e.2) = g x (deserializeValue e.2))
    (hdocs : ∀ xs, deserializeValue e.2 = arr xs → ∀ x, fs x xs = gs x xs) :
    updateDocumentStep f fs u e = updateDocumentStep g gs u e := by
  unfold updateDocumentStep
  cases hv : deserializeValue e.2 with
  | arr xs => simp only [hdocs xs hv]
  | undefined => rfl
  | null => rw [hv] at hdoc; simp only [hdoc rfl]
  | bool b => rfl
  | num n => rfl
  | str s => rfl
  | date w => rw [hv] at hdoc; simp only [hdoc rfl]
  | obj fs => rw [hv] at hdoc; simp only [hdoc rfl]

theorem updateDocumentsStep_congr {f g : JSValue → JSValue → Except StoreError JSValue}
    (o : SaveOptions) (existing : JSValue) (acc : UpdateResult) (d : JSValue)
    (h : ∀ x, f x (obj (restFields d)) = g x (obj (restFields d))) :
    updateDocumentsStep f o existing acc d = updateDocumentsStep g o existing acc d := by
  unfold updateDocumentsStep updateChecked
  cases d <;> simp only [h]

theorem fuel_deserialized_doc {v : JSValue} (h : typeofObject (deserializeValue v) = true) :
    2 * depthFields (ownEntries (deserializeValue v)) + 1 ≤ 2 * depth v := by
  rcases deserializeValue_cases v with hv | hv | ⟨w, hv, ht, hn⟩
  · rw [hv] at h ⊢
    have hnull : v ≠ null := by
      intro hnull
      subst hnull
      simp [deserializeValue] at hv
    have := depthFields_ownEntries_lt h hnull
    omega
  · rw [hv] at h
    simp [typeofObject] at h
  · rw [hv]
    have := depthFields_ownEntries_lt ht hn
    simp only [ownEntries, depthFields]
    omega

theorem fuel_deserialized_docs {v : JSValue} {xs : List JSValue}
    (h : deserializeValue v = arr xs) : 2 * depthList xs + 2 ≤ 2 * depth v := by
  rcases deserializeValue_cases v with hv | hv | ⟨w, hv, _, _⟩
  · rw [hv] at h
    subst h
    simp only [depth]
    omega
  · rw [hv] at h
    cases h
  · rw [hv] at h
    cases h

theorem updateAux_fuel (n : Nat) :
    (∀ m o x f, 2 * depthFields (ownEntries f) + 1 ≤ n → 2 * depthFields (ownEntries f) + 1 ≤ m →
      updateDocumentAux n o x f = updateDocumentAux m o x f) ∧
    (∀ m o x ds, 2 * depthList ds + 2 ≤ n → 2 * depthList ds + 2 ≤ m →
      updateDocumentsAux n o x ds = updateDocumentsAux m o x ds) := by
  induction n with
  | zero => exact ⟨fun _ _ _ _ h => by omega, fun _ _ _ _ h => by omega⟩
  | succ n ih =>
    refine ⟨?_, ?_⟩
    · intro m o x f hn hm
      obtain ⟨m, rfl⟩ : ∃ k, m = k + 1 := ⟨m - 1, by omega⟩
      simp only [updateDocumentAux]
      have hstep : ∀ (s : Props), ∀ e ∈ ownEntries f,
          updateDocumentStep (updateDocumentAux n o) (updateDocumentsAux n o) s e =
          updateDocumentStep (updateDocumentAux m o) (updateDocumentsAux m o) s e := by
        intro s e he
        have hd := depth_le_depthFields he
        apply updateDocumentStep_congr
        · intro ht y
          have := fuel_deserialized_doc ht
          exact ih.1 m o y _ (by omega) (by omega)
        · intro xs hxs y
          have := fuel_deserialized_docs hxs
          exact ih.2 m o y xs (by omega) (by omega)
      rw [forOf_congr hstep]
    · intro m o x ds hn hm
      obtain ⟨m, rfl⟩ : ∃ k, m = k + 1 := ⟨m - 1, by omega⟩
      simp only [updateDocumentsAux]
      apply forOf_congr
      intro s d hd
      apply updateDocumentsStep_congr
      intro y
      have h1 := depth_le_depthList hd
      have h2 : depthFields (ownEntries (obj (restFields d))) ≤ depth d :=
        depthFields_restFields_le d
      exact ih.1 m o y _ (by omega) (by omega)

/-- Unfolding of `_updateDocument`: the loop over the entries of `fields`, the
nested calls being `_updateDocument` and `_updateDocuments` themselves. -/
theorem _updateDocument_eq (o : SaveOptions) (existingDocument fields : JSValue) :
    _updateDocument o existingDocument fields =
      match fields with
      | undefined => .error (.typeError "Cannot convert undefined to object")
      | null => .error (.typeError "Cannot convert null to object")
      | _ =>
        match forOf (updateDocumentStep (_updateDocument o) (_updateDocuments o))
            (ownEntries existingDocument) (ownEntries fields) with
        | .error e => .error e
        | .ok updatedDocument => .ok (obj updatedDocument) := by
  have hstep : ∀ (s : Props), ∀ e ∈ ownEntries fields,
      updateDocumentStep (updateDocumentAux (2 * depthFields (ownEntries fields)) o)
        (updateDocumentsAux (2 * depthFields (ownEntries fields)) o) s e =
      updateDocumentStep (_updateDocument o) (_updateDocuments o) s e := by
    intro s e he
    have hd := depth_le_depthFields he
    apply updateDocumentStep_congr
    · intro ht y
      have := fuel_deserialized_doc ht
      exact (updateAux_fuel _).1 _ o y _ (by omega) (Nat.le_refl _)
    · intro xs hxs y
      have := fuel_deserialized_docs hxs
      exact (updateAux_fuel _).2 _ o y xs (by omega) (Nat.le_refl _)
  have hdef : _updateDocument o existingDocument fields =
      updateDocumentAux (2 * depthFields (ownEntries fields) + 1) o existingDocument fields := rfl
  rw [hdef]
  simp only [updateDocumentAux]
  rw [forOf_congr hstep]

/-- Unfolding of `_updateDocuments`: the loop over `documents`. -/
theorem _updateDocuments_eq (o : SaveOptions) (existingDocuments : JSValue)
    (documents : List JSValue) :
    _updateDocuments o existingDocuments documents =
      forOf (updateDocumentsStep (_updateDocument o) o existingDocuments) ⟨[], []⟩ documents := by
  have hdef : _updateDocuments o existingDocuments documents =
      updateDocumentsAux ((2 * depthList documents + 1) + 1) o existingDocuments documents := rfl
  rw [hdef]
  simp only [updateDocumentsAux]
  apply forOf_congr
  intro s d hd
  apply updateDocumentsStep_congr
  intro y
  have h1 := depth_le_depthList hd
  have h2 : depthFields (ownEntries (obj (restFields d))) ≤ depth d :=
    depthFields_restFields_le d
  exact (updateAux_fuel _).1 _ o y _ (by omega) (Nat.le_refl _)

/-! ## The nesting bound of `buildProjection` -/

theorem mem_setProp {u : Props} {n : String} {v : JSValue} {e : String × JSValue}
    (h : e ∈ setProp u n v) : e ∈ u ∨ e.2 = v := by
  induction u with
  | nil =>
    simp only [setProp, List.mem_singleton] at h
    exact Or.inr (by rw [h])
  | cons a rest ih =>
    obtain ⟨k, w⟩ := a
    by_cases hk : k = n
    · simp only [setProp, if_pos hk] at h
      rcases List.mem_cons.1 h with h | h
      · exact Or.inr (by rw [h])
      · exact Or.inl (List.mem_cons_of_mem _ h)
    · simp only [setProp, if_neg hk] at h
      rcases List.mem_cons.1 h with h | h
      · exact Or.inl (h ▸ List.mem_cons_self _ _)
      · rcases ih h with h | h
        · exact Or.inl (List.mem_cons_of_mem _ h)
        · exact Or.inr h

theorem mem_withTypeAndId {rootFields : JSValue} {e : String × JSValue}
    (h : e ∈ withTypeAndId rootFields) :
    e.2 = bool true ∨ ∃ e0 ∈ ownEntries rootFields, e.2 = e0.2 := by
  unfold withTypeAndId at h
  have key : ∀ (es : Props) (init : Props),
      e ∈ es.foldl (fun acc e => setProp acc e.1 e.2) init →
      e ∈ init ∨ ∃ e0 ∈ es, e.2 = e0.2 := by
    intro es
    induction es with
    | nil => intro init h; exact Or.inl h
    | cons a rest ih =>
      intro init h
      simp only [List.foldl_cons] at h
      rcases ih _ h with h | ⟨e0, he0, h⟩
      · rcases mem_setProp h with h | h
        · exact Or.inl h
        · exact Or.inr ⟨a, List.mem_cons_self _ _, h⟩
      · exact Or.inr ⟨e0, List.mem_cons_of_mem _ he0, h⟩
  rcases key _ _ h with h | h
  · simp only [List.mem_cons, List.mem_singleton, List.not_mem_nil, or_false] at h
    rcases h with h | h <;> exact Or.inl (by rw [h])
  · exact Or.inr h

theorem foldl_congr_mem {α β : Type} {f g : β → α → β} (xs : List α)
    (h : ∀ b, ∀ x ∈ xs, f b x = g b x) (b : β) : xs.foldl f b = xs.foldl g b := by
  induction xs generalizing b with
  | nil => rfl
  | cons x rest ih =>
    simp only [List.foldl_cons, h b x (List.mem_cons_self _ _)]
    exact ih (fun b y hy => h b y (List.mem_cons_of_mem _ hy)) (g b x)

theorem chars_not_object (cs : List Char) :
    ∀ (i : Nat), ∀ x ∈ indexedFrom i (cs.map (fun c => str (String.singleton c))),
      typeofObject x.2 = false := by
  induction cs with
  | nil => intro i x hx; cases hx
  | cons c rest ih =>
    intro i x hx
    simp only [List.map_cons, indexedFrom] at hx
    rcases List.mem_cons.1 hx with hx | hx
    · rw [hx]; rfl
    · exact ih _ x hx

theorem depth_entry_lt {v : JSValue} {e : String × JSValue} (he : e ∈ ownEntries v)
    (ht : typeofObject e.2 = true) : depth e.2 + 1 ≤ depth v := by
  cases v with
  | obj fs =>
    have := depth_le_depthFields he
    simp only [ownEntries, depth] at this ⊢
    omega
  | arr xs =>
    have := depth_le_depthFields he
    simp only [ownEntries, depthFields_indexedFrom, depth] at this ⊢
    omega
  | str s =>
    have := chars_not_object s.toList 0 e he
    rw [ht] at this
    cases this
  | _ => cases he

/-- With at least the bound that `buildProjection` supplies, `build` does not
depend on the bound: the nesting of the description never exhausts it. -/
theorem build_enough (n : Nat) :
    ∀ (m : Nat) (v : JSValue) (path : List String) (projection : Props),
      depth v + 1 ≤ n → depth v + 1 ≤ m →
      build n v path projection = build m v path projection := by
  induction n with
  | zero => intro m v path projection h; omega
  | succ n ih =>
    intro m v path projection hn hm
    obtain ⟨m, rfl⟩ : ∃ k, m = k + 1 := ⟨m - 1, by omega⟩
    simp only [build]
    apply foldl_congr_mem
    intro b e he
    by_cases ht : typeofObject e.2 = true
    · simp only [ht, if_true]
      have hd : depth e.2 + 1 ≤ depth v := by
        rcases mem_withTypeAndId he with h | ⟨e0, he0, h⟩
        · rw [h] at ht
          simp [typeofObject] at ht
        · rw [h] at ht ⊢
          exact depth_entry_lt he0 ht
      exact ih m e.2 _ b (by omega) (by omega)
    · simp [ht]

/-! ## The identity map: invariants of the write path -/

namespace Entity

theorem getAttribute_name {t : EntityTypeDescriptor} {n : String} {a : AttributeDescriptor}
    (h : t.getAttribute n = some a) : a.name = n := by
  have := List.find?_some h
  simpa using this

theorem find_typeName {types : List EntityTypeDescriptor} {n : String} {t : EntityTypeDescriptor}
    (h : types.find? (fun t => t.typeName == n) = some t) : t.typeName = n := by
  have := List.find?_some h
  simpa using this

theorem getAttribute_of_mem {t : EntityTypeDescriptor} (hwf : t.WellFormed)
    {a : AttributeDescriptor} (ha : a ∈ t.attributes) : t.getAttribute a.name = some a := by
  obtain ⟨tn, attrs⟩ := t
  simp only [EntityTypeDescriptor.getAttribute, EntityTypeDescriptor.WellFormed] at *
  induction attrs with
  | nil => cases ha
  | cons b rest ih =>
    simp only [List.map_cons, List.nodup_cons] at hwf
    rcases List.mem_cons.1 ha with h | h
    · subst h
      simp
    · have hne : b.name ≠ a.name := by
        intro heq
        exact hwf.1 (heq ▸ List.mem_map_of_mem _ h)
      simp only [List.find?_cons]
      have : (b.name == a.name) = false := by simpa using hne
      rw [this]
      exact ih hwf.2 h

theorem removeOld_spec (m : IdentityMap) (T n : String) (old : JSValue) :
    (∀ T1 n1 v, (T1 ≠ T ∨ n1 ≠ n) → removeOld m T n old T1 n1 v = m T1 n1 v) ∧
    (∀ v r0, removeOld m T n old T n v = some r0 → m T n v = some r0 ∧ old ≠ str v) ∧
    (∀ v, old ≠ str v → removeOld m T n old T n v = m T n v) := by
  cases old with
  | str o =>
    refine ⟨?_, ?_, ?_⟩
    · intro T1 n1 v hne
      simp only [removeOld, remove]
      rw [if_neg]
      rintro ⟨h1, h2, _⟩
      rcases hne with hne | hne
      · exact hne h1
      · exact hne h2
    · intro v r0 hv
      simp only [removeOld, remove] at hv
      by_cases hc : v = o
      · subst hc
        simp at hv
      · rw [if_neg (fun hh => hc hh.2.2)] at hv
        exact ⟨hv, fun hh => hc (by injection hh with hh; exact hh.symm)⟩
    · intro v hv
      simp only [removeOld, remove]
      rw [if_neg]
      rintro ⟨_, _, h3⟩
      exact hv (by rw [h3])
  | _ => exact ⟨fun _ _ _ _ => rfl, fun v r0 hv => ⟨hv, by simp⟩, fun _ _ => rfl⟩

/-- What a successful `rekey` leaves in the map. -/
theorem rekey_ok {m m1 : IdentityMap} {r : Nat} {T n : String} {old new : JSValue}
    (h : rekey m r T n old new = .ok m1) :
    (∀ T1 n1 v, (T1 ≠ T ∨ n1 ≠ n) → m1 T1 n1 v = m T1 n1 v) ∧
    (∀ v, new = str v → m1 T n v = some r) ∧
    (∀ v r0, m1 T n v = some r0 → (new = str v ∧ r0 = r) ∨ (m T n v = some r0 ∧ old ≠ str v)) ∧
    (∀ v r0, m T n v = some r0 → old ≠ str v → m1 T n v = some r0) := by
  unfold rekey at h
  obtain ⟨hf, hsome, hkeep⟩ := removeOld_spec m T n old
  generalize removeOld m T n old = rm at h hf hsome hkeep
  cases new with
  | str nv =>
    simp only [register, lookup] at h
    have hins : m1 = insert rm T n nv r ∧ (rm T n nv = none ∨ rm T n nv = some r) := by
      cases hl : rm T n nv with
      | none =>
        rw [hl] at h
        simp only at h
        injection h with h
        exact ⟨h.symm, Or.inl rfl⟩
      | some other =>
        rw [hl] at h
        simp only at h
        by_cases ho : other = r
        · rw [if_pos ho] at h
          injection h with h
          exact ⟨h.symm, Or.inr (by rw [ho])⟩
        · rw [if_neg ho] at h
          cases h
    obtain ⟨hm1, hfree⟩ := hins
    subst hm1
    refine ⟨?_, ?_, ?_, ?_⟩
    · intro T1 n1 v hne
      simp only [insert]
      rw [if_neg]
      · exact hf T1 n1 v hne
      · rintro ⟨h1, h2, _⟩
        rcases hne with hne | hne
        · exact hne h1
        · exact hne h2
    · intro v hv
      injection hv with hv
      subst hv
      simp [insert]
    · intro v r0 hv
      simp only [insert] at hv
      by_cases hc : v = nv
      · subst hc
        simp at hv
        exact Or.inl ⟨rfl, hv.symm⟩
      · rw [if_neg (fun hh => hc hh.2.2)] at hv
        exact Or.inr (hsome v r0 hv)
    · intro v r0 hv hold
      have hrmv : rm T n v = some r0 := by rw [hkeep v hold]; exact hv
      simp only [insert]
      by_cases hc : v = nv
      · subst hc
        rcases hfree with hfree | hfree
        · rw [hfree] at hrmv
          cases hrmv
        · rw [hfree] at hrmv
          simp [hrmv]
      · rw [if_neg (fun hh => hc hh.2.2)]
        exact hrmv
  | _ =>
    simp only at h
    injection h with h
    subst h
    exact ⟨hf, fun v hv => (by cases hv), fun v r0 hv => Or.inr (hsome v r0 hv),
      fun v r0 hv hold => (by rw [hkeep v hold]; exact hv)⟩

/-- What a successful attribute write does to the world. -/
theorem set_ok {t : EntityTypeDescriptor} {r : Nat} {w w1 : World} {field : String × JSValue}
    (h : set t r w field = .ok w1) :
    ∃ a, t.getAttribute field.1 = some a ∧ w1.next = w.next ∧
      w1.heap = Function.update w.heap r
        { w.heap r with
          values := Function.update (w.heap r).values field.1 (normalize field.2) } ∧
      ((a.isIdentifier = true ∧
          rekey w.identityMap r t.typeName field.1 ((w.heap r).values field.1)
            (normalize field.2) = .ok w1.identityMap) ∨
        (a.isIdentifier = false ∧ w1.identityMap = w.identityMap)) := by
  unfold set at h
  cases ha : t.getAttribute field.1 with
  | none => rw [ha] at h; cases h
  | some a =>
    rw [ha] at h
    simp only at h
    refine ⟨a, rfl, ?_⟩
    by_cases hacc : a.accepts (normalize field.2) = true
    · rw [if_pos hacc] at h
      by_cases hid : a.isIdentifier = true
      · rw [if_pos hid] at h
        cases hre : rekey w.identityMap r t.typeName field.1 ((w.heap r).values field.1)
            (normalize field.2) with
        | error e => rw [hre] at h; cases h
        | ok m =>
          rw [hre] at h
          injection h with h
          subst h
          exact ⟨rfl, rfl, Or.inl ⟨hid, rfl⟩⟩
      · rw [if_neg hid] at h
        injection h with h
        subst h
        exact ⟨rfl, rfl, Or.inr ⟨by simpa using hid, rfl⟩⟩
    · rw [if_neg hacc] at h
      cases h

/-- An attribute write leaves the other instances, the type and the other
attributes of the written instance, and the registrations of the other
attribute names as they were. -/
theorem set_frame {t : EntityTypeDescriptor} {r : Nat} {w w1 : World} {field : String × JSValue}
    (h : set t r w field = .ok w1) :
    w1.next = w.next ∧ (∀ r0, r0 ≠ r → w1.heap r0 = w.heap r0) ∧
    (w1.heap r).type = (w.heap r).type ∧ (w1.heap r).isNew = (w.heap r).isNew ∧
    (w1.heap r).values field.1 = normalize field.2 ∧
    (∀ n, n ≠ field.1 → (w1.heap r).values n = (w.heap r).values n) ∧
    (∀ T n v, n ≠ field.1 → w1.identityMap T n v = w.identityMap T n v) := by
  obtain ⟨a, _, hnext, hheap, hmap⟩ := set_ok h
  refine ⟨hnext, ?_, ?_, ?_, ?_, ?_, ?_⟩
  · intro r0 hr0
    rw [hheap, Function.update_noteq hr0]
  · rw [hheap, Function.update_same]
  · rw [hheap, Function.update_same]
  · rw [hheap, Function.update_same]
    simp
  · intro n hn
    rw [hheap, Function.update_same]
    simp [Function.update_noteq hn]
  · intro T n v hn
    rcases hmap with ⟨_, hre⟩ | ⟨_, hre⟩
    · exact (rekey_ok hre).1 T n v (Or.inr hn)
    · rw [hre]

/-- An attribute write keeps the identity map consistent with the instances. -/
theorem set_consistent {types : List EntityTypeDescriptor} {t : EntityTypeDescriptor} {r : Nat}
    {w w1 : World} {field : String × JSValue}
    (hw : w.Consistent types) (hr : r < w.next) (hrt : (w.heap r).type = t.typeName)
    (ht : types.find? (fun t0 => t0.typeName == t.typeName) = some t)
    (h : set t r w field = .ok w1) : w1.Consistent types := by
  obtain ⟨a, ha, hnext, hheap, hmap⟩ := set_ok h
  obtain ⟨_, hother, htype, _, hval, hvals, hframe⟩ := set_frame h
  have han : a.name = field.1 := getAttribute_name ha
  constructor
  · intro r0 t0 a0 v0 hr0 ht0 ha0 hid0 hv0
    rw [hnext] at hr0
    by_cases hrr : r0 = r
    · subst hrr
      rw [htype] at ht0 ⊢
      rw [hrt] at ht0 ⊢
      have ht0t : t0 = t := by rw [ht] at ht0; injection ht0 with ht0; exact ht0.symm
      subst ht0t
      by_cases hn : a0.name = field.1
      · rw [hn] at ha0 hv0 ⊢
        have haa : a0 = a := by rw [ha] at ha0; injection ha0 with ha0; exact ha0.symm
        subst haa
        rcases hmap with ⟨_, hre⟩ | ⟨hplain, _⟩
        · rw [hval] at hv0
          exact (rekey_ok hre).2.1 v0 hv0
        · rw [hplain] at hid0
          cases hid0
      · rw [hvals _ hn] at hv0
        rw [hframe _ _ _ hn]
        have := hw.registered r0 t0 a0 v0 hr0 (by rw [hrt]; exact ht) ha0 hid0 hv0
        rw [hrt] at this
        exact this
    · rw [hother r0 hrr] at ht0 hv0 ⊢
      have hold := hw.registered r0 t0 a0 v0 hr0 ht0 ha0 hid0 hv0
      rcases hmap with ⟨_, hre⟩ | ⟨_, hre⟩
      · by_cases hkey : (w.heap r0).type = t.typeName ∧ a0.name = field.1
        · obtain ⟨hk1, hk2⟩ := hkey
          have ht0t : t0 = t := by
            rw [hk1, ht] at ht0
            injection ht0 with ht0
            exact ht0.symm
          subst ht0t
          have haa : a0 = a := by
            rw [hk2, ha] at ha0
            injection ha0 with ha0
            exact ha0.symm
          subst haa
          rw [hk1, hk2] at hold ⊢
          apply (rekey_ok hre).2.2.2 v0 r0 hold
          intro hcur
          have := hw.registered r t0 a0 v0 hr (by rw [hrt]; exact ht)
            (by rw [hk2]; exact ha) hid0 (by rw [hk2]; exact hcur)
          rw [hrt, hk2, hold] at this
          injection this with this
          exact hrr this
        · rw [(rekey_ok hre).1 _ _ _ (by
            by_cases h1 : (w.heap r0).type = t.typeName
            · exact Or.inr (fun h2 => hkey ⟨h1, h2⟩)
            · exact Or.inl h1)]
          exact hold
      · rw [hre]
        exact hold
  · intro T n v r0 hm
    rw [hnext]
    rcases hmap with ⟨_, hre⟩ | ⟨hplain, hre⟩
    · by_cases hkey : T = t.typeName ∧ n = field.1
      · obtain ⟨hk1, hk2⟩ := hkey
        subst hk1 hk2
        rcases (rekey_ok hre).2.2.1 v r0 hm with ⟨hnew, hr0⟩ | ⟨hold, hcur⟩
        · subst hr0
          exact ⟨hr, by rw [htype]; exact hrt, by rw [hval]; exact hnew⟩
        · obtain ⟨h1, h2, h3⟩ := hw.holds _ _ _ _ hold
          have hrr : r0 ≠ r := by
            intro hrr
            subst hrr
            exact hcur h3
          rw [hother r0 hrr]
          exact ⟨h1, h2, h3⟩
      · have hsame : w1.identityMap T n v = w.identityMap T n v :=
          (rekey_ok hre).1 T n v (by
            by_cases h1 : T = t.typeName
            · exact Or.inr (fun h2 => hkey ⟨h1, h2⟩)
            · exact Or.inl h1)
        rw [hsame] at hm
        obtain ⟨h1, h2, h3⟩ := hw.holds _ _ _ _ hm
        by_cases hrr : r0 = r
        · subst hrr
          have hn : n ≠ field.1 := fun hn => hkey ⟨by rw [← h2, hrt], hn⟩
          exact ⟨h1, by rw [htype]; exact h2, by rw [hvals n hn]; exact h3⟩
        · rw [hother r0 hrr]
          exact ⟨h1, h2, h3⟩
    · rw [hre] at hm
      obtain ⟨h1, h2, h3⟩ := hw.holds _ _ _ _ hm
      by_cases hrr : r0 = r
      · subst hrr
        by_cases hn : n = field.1
        · exfalso
          obtain ⟨t1, a1, ht1, ha1, hid1⟩ := hw.identifier _ _ _ _ hm
          rw [← h2, hrt, ht] at ht1
          injection ht1 with ht1
          subst ht1
          rw [hn, ha] at ha1
          injection ha1 with ha1
          subst ha1
          rw [hplain] at hid1
          cases hid1
        · exact ⟨h1, by rw [htype]; exact h2, by rw [hvals n hn]; exact h3⟩
      · rw [hother r0 hrr]
        exact ⟨h1, h2, h3⟩
  · intro T n v r0 hm
    rcases hmap with ⟨hid, hre⟩ | ⟨_, hre⟩
    · by_cases hkey : T = t.typeName ∧ n = field.1
      · obtain ⟨hk1, hk2⟩ := hkey
        subst hk1 hk2
        exact ⟨t, a, ht, ha, hid⟩
      · have hsame : w1.identityMap T n v = w.identityMap T n v :=
          (rekey_ok hre).1 T n v (by
            by_cases h1 : T = t.typeName
            · exact Or.inr (fun h2 => hkey ⟨h1, h2⟩)
            · exact Or.inl h1)
        rw [hsame] at hm
        exact hw.identifier _ _ _ _ hm
    · rw [hre] at hm
      exact hw.identifier _ _ _ _ hm

/-- Invariants of a successful run of `applyFields` on the instance `r`. -/
theorem applyFields_inv {types : List EntityTypeDescriptor} {t : EntityTypeDescriptor} {r : Nat}
    (ht : types.find? (fun t0 => t0.typeName == t.typeName) = some t)
    (fields : List (String × JSValue)) :
    ∀ {w w1 : World}, w.Consistent types → r < w.next → (w.heap r).type = t.typeName →
      applyFields t r w fields = .ok w1 →
      w1.Consistent types ∧ w1.next = w.next ∧ (w1.heap r).type = t.typeName ∧
      (∀ r0, r0 ≠ r → w1.heap r0 = w.heap r0) ∧
      (∀ n, n ∉ fields.map Prod.fst →
        (w1.heap r).values n = (w.heap r).values n ∧
        ∀ T v, w1.identityMap T n v = w.identityMap T n v) := by
  induction fields with
  | nil =>
    intro w w1 hw hr hrt h
    simp only [applyFields] at h
    injection h with h
    subst h
    exact ⟨hw, rfl, hrt, fun _ _ => rfl, fun _ _ => ⟨rfl, fun _ _ => rfl⟩⟩
  | cons f rest ih =>
    intro w w1 hw hr hrt h
    simp only [applyFields] at h
    cases hs : set t r w f with
    | error e => rw [hs] at h; cases h
    | ok w0 =>
      rw [hs] at h
      simp only at h
      obtain ⟨hnext, hother, htype, _, _, hvals, hframe⟩ := set_frame hs
      have hw0 := set_consistent hw hr hrt ht hs
      obtain ⟨c1, c2, c3, c4, c5⟩ := ih hw0 (by rw [hnext]; exact hr) (by rw [htype]; exact hrt) h
      refine ⟨c1, by rw [c2, hnext], c3, ?_, ?_⟩
      · intro r0 hr0
        rw [c4 r0 hr0, hother r0 hr0]
      · intro n hn
        simp only [List.map_cons, List.mem_cons, not_or] at hn
        obtain ⟨d1, d2⟩ := c5 n hn.2
        refine ⟨by rw [d1, hvals n hn.1], ?_⟩
        intro T v
        rw [d2 T v, hframe T n v hn.1]

/-- After a successful run of `applyFields` the instance holds the value of every
field of the input. -/
theorem applyFields_value {types : List EntityTypeDescriptor} {t : EntityTypeDescriptor} {r : Nat}
    (ht : types.find? (fun t0 => t0.typeName == t.typeName) = some t)
    (fields : List (String × JSValue)) :
    ∀ {w w1 : World}, w.Consistent types → r < w.next → (w.heap r).type = t.typeName →
      (fields.map Prod.fst).Nodup → applyFields t r w fields = .ok w1 →
      ∀ f ∈ fields, (w1.heap r).values f.1 = normalize f.2 := by
  induction fields with
  | nil => intro w w1 _ _ _ _ _ f hf; cases hf
  | cons f0 rest ih =>
    intro w w1 hw hr hrt hnd h f hf
    simp only [applyFields] at h
    simp only [List.map_cons, List.nodup_cons] at hnd
    cases hs : set t r w f0 with
    | error e => rw [hs] at h; cases h
    | ok w0 =>
      rw [hs] at h
      simp only at h
      obtain ⟨hnext, _, htype, _, hval, _, _⟩ := set_frame hs
      have hw0 := set_consistent hw hr hrt ht hs
      have hr0 : r < w0.next := by rw [hnext]; exact hr
      have hrt0 : (w0.heap r).type = t.typeName := by rw [htype]; exact hrt
      rcases List.mem_cons.1 hf with hf | hf
      · subst hf
        rw [(applyFields_inv ht rest hw0 hr0 hrt0 h).2.2.2.2 f.1 hnd.1 |>.1]
        exact hval
      · exact ih hw0 hr0 hrt0 hnd.2 h f hf

/-- A run of `applyFields` on the instance `r` cannot succeed when the input
carries an identifier value that is registered to another instance. -/
theorem applyFields_blocked {types : List EntityTypeDescriptor} {t : EntityTypeDescriptor}
    {r r1 : Nat} {n v : String} {a : AttributeDescriptor}
    (ht : types.find? (fun t0 => t0.typeName == t.typeName) = some t)
    (ha : t.getAttribute n = some a) (hid : a.isIdentifier = true) (hne : r1 ≠ r)
    (fields : List (String × JSValue)) :
    ∀ {w w1 : World}, w.Consistent types → r < w.next → (w.heap r).type = t.typeName →
      (fields.map Prod.fst).Nodup → (n, str v) ∈ fields →
      w.identityMap t.typeName n v = some r1 → applyFields t r w fields = .ok w1 → False := by
  induction fields with
  | nil => intro w w1 _ _ _ _ hf; cases hf
  | cons f0 rest ih =>
    intro w w1 hw hr hrt hnd hf hm h
    simp only [applyFields] at h
    simp only [List.map_cons, List.nodup_cons] at hnd
    cases hs : set t r w f0 with
    | error e => rw [hs] at h; cases h
    | ok w0 =>
      rw [hs] at h
      simp only at h
      obtain ⟨hnext, _, htype, _, _, _, hframe⟩ := set_frame hs
      have hw0 := set_consistent hw hr hrt ht hs
      rcases List.mem_cons.1 hf with hf | hf
      · subst hf
        obtain ⟨a1, ha1, _, _, hmap⟩ := set_ok hs
        simp only at ha1 hmap
        rw [ha] at ha1
        injection ha1 with ha1
        subst ha1
        rcases hmap with ⟨_, hre⟩ | ⟨hplain, _⟩
        · have hcur : (w.heap r).values n ≠ str v := by
            intro hcur
            have := hw.registered r t a v hr (by rw [hrt]; exact ht)
              (by rw [getAttribute_name ha]; exact ha) hid
              (by rw [getAttribute_name ha]; exact hcur)
            rw [hrt, getAttribute_name ha, hm] at this
            injection this with this
            exact hne this
          have h1 := (rekey_ok hre).2.1 v rfl
          have h2 := (rekey_ok hre).2.2.2 v r1 hm hcur
          rw [h1] at h2
          injection h2 with h2
          exact hne h2.symm
        · rw [hplain] at hid
          cases hid
      · have hn0 : n ≠ f0.1 := by
          intro hn0
          exact hnd.1 (hn0 ▸ List.mem_map_of_mem Prod.fst hf)
        exact ih hw0 (by rw [hnext]; exact hr) (by rw [htype]; exact hrt) hnd.2 hf
          (by rw [hframe _ _ _ hn0]; exact hm) h

theorem identifierValue_mem {input : Record} {n v : String}
    (h : input.identifierValue n = some v) : (n, str v) ∈ input.fields := by
  unfold Record.identifierValue at h
  cases hf : input.fields.find? (fun e => e.1 == n) with
  | none => rw [hf] at h; cases h
  | some e =>
    rw [hf] at h
    obtain ⟨k, x⟩ := e
    have hk : k = n := by simpa using List.find?_some hf
    have hmem := List.mem_of_find?_eq_some hf
    cases x <;> simp only at h
    case str s =>
      injection h with h
      subst h hk
      exact hmem
    all_goals cases h

theorem probe_some {m : IdentityMap} {input : Record} {r : Nat} :
    ∀ {attrs : List AttributeDescriptor}, probe m input attrs = some r →
      ∃ a ∈ attrs, ∃ v, input.identifierValue a.name = some v ∧ m input.type a.name v = some r := by
  intro attrs
  induction attrs with
  | nil => intro h; cases h
  | cons a rest ih =>
    intro h
    simp only [probe, lookup] at h
    cases hv : input.identifierValue a.name with
    | none =>
      rw [hv] at h
      obtain ⟨b, hb, u, h1, h2⟩ := ih h
      exact ⟨b, List.mem_cons_of_mem _ hb, u, h1, h2⟩
    | some v =>
      rw [hv] at h
      simp only at h
      cases hl : m input.type a.name v with
      | some r0 =>
        rw [hl] at h
        injection h with h
        subst h
        exact ⟨a, List.mem_cons_self _ _, v, hv, hl⟩
      | none =>
        rw [hl] at h
        obtain ⟨b, hb, u, h1, h2⟩ := ih h
        exact ⟨b, List.mem_cons_of_mem _ hb, u, h1, h2⟩

theorem probe_none {m : IdentityMap} {input : Record} :
    ∀ {attrs : List AttributeDescriptor}, probe m input attrs = none →
      ∀ a ∈ attrs, ∀ v, input.identifierValue a.name = some v → m input.type a.name v = none := by
  intro attrs
  induction attrs with
  | nil => intro _ a ha; cases ha
  | cons a rest ih =>
    intro h b hb v hv
    simp only [probe, lookup] at h
    cases hva : input.identifierValue a.name with
    | none =>
      rw [hva] at h
      rcases List.mem_cons.1 hb with hb | hb
      · subst hb
        rw [hva] at hv
        cases hv
      · exact ih h b hb v hv
    | some u =>
      rw [hva] at h
      simp only at h
      cases hl : m input.type a.name u with
      | some r0 => rw [hl] at h; cases h
      | none =>
        rw [hl] at h
        rcases List.mem_cons.1 hb with hb | hb
        · subst hb
          rw [hva] at hv
          injection hv with hv
          subst hv
          exact hl
        · exact ih h b hb v hv

/-- The world in which a fresh instance of type `t` has been allocated. -/
theorem allocate_consistent {types : List EntityTypeDescriptor} {w : World}
    (hw : w.Consistent types) (typeName : String) (isNew : Bool) :
    World.Consistent types
      { heap := Function.update w.heap w.next
          { type := typeName, values := fun _ => undefined, isNew := isNew },
        next := w.next + 1, identityMap := w.identityMap } := by
  constructor
  · intro r t a v hr ht ha hid hv
    simp only at hr ht hv ⊢
    by_cases hrr : r = w.next
    · subst hrr
      rw [Function.update_same] at hv
      cases hv
    · rw [Function.update_noteq hrr] at ht hv ⊢
      exact hw.registered r t a v (by omega) ht ha hid hv
  · intro T n v r hm
    simp only at hm ⊢
    obtain ⟨h1, h2, h3⟩ := hw.holds _ _ _ _ hm
    have hrr : r ≠ w.next := by omega
    rw [Function.update_noteq hrr]
    exact ⟨by omega, h2, h3⟩
  · intro T n v r hm
    exact hw.identifier _ _ _ _ hm

/-- The two ways in which `fromJSON` succeeds: on the instance found by the
probe, or on a freshly allocated instance when the probe finds none. -/
theorem fromJSON_ok {types : List EntityTypeDescriptor} {w w1 : World} {input : Record} {r : Nat}
    (h : fromJSON types w input = .ok (w1, r)) :
    ∃ t, types.find? (fun t => t.typeName == input.type) = some t ∧
      ((probe w.identityMap input t.getIdentifierAttributes = some r ∧
          applyFields t r w input.fields = .ok w1) ∨
       (probe w.identityMap input t.getIdentifierAttributes = none ∧ r = w.next ∧
          applyFields t r
            { heap := Function.update w.heap w.next
                { type := t.typeName, values := fun _ => undefined, isNew := input.isNew },
              next := w.next + 1, identityMap := w.identityMap } input.fields = .ok w1)) := by
  unfold fromJSON at h
  cases ht : types.find? (fun t => t.typeName == input.type) with
  | none => rw [ht] at h; cases h
  | some t =>
    rw [ht] at h
    simp only at h
    refine ⟨t, rfl, ?_⟩
    cases hp : probe w.identityMap input t.getIdentifierAttributes with
    | some r0 =>
      rw [hp] at h
      simp only at h
      split at h
      · cases h
      · cases ha : applyFields t r0 w input.fields with
        | error e => rw [ha] at h; cases h
        | ok w0 =>
          rw [ha] at h
          injection h with h
          injection h with h1 h2
          subst h1 h2
          exact Or.inl ⟨rfl, ha⟩
    | none =>
      rw [hp] at h
      simp only at h
      split at h
      · cases h
      · rename_i w0 ha
        injection h with h
        injection h with h1 h2
        subst h1 h2
        exact Or.inr ⟨rfl, rfl, ha⟩

theorem empty_consistent (types : List EntityTypeDescriptor) :
    World.empty.Consistent types := by
  constructor
  · intro r t a v hr
    simp [World.empty] at hr
  · intro T n v r hm
    simp [World.empty] at hm
  · intro T n v r hm
    simp [World.empty] at hm

/-- What a successful reconciliation call establishes: the world stays
consistent, and the returned instance is allocated, has the type of the input
and holds the value of every field of the input. -/
theorem fromJSON_post {types : List EntityTypeDescriptor} {t : EntityTypeDescriptor}
    {w w1 : World} {input : Record} {r : Nat}
    (hw : w.Consistent types)
    (ht : types.find? (fun t0 => t0.typeName == input.type) = some t)
    (hn : (input.fields.map Prod.fst).Nodup)
    (h : fromJSON types w input = .ok (w1, r)) :
    w1.Consistent types ∧ r < w1.next ∧ w.next ≤ w1.next ∧ (w1.heap r).type = t.typeName ∧
      ∀ f ∈ input.fields, (w1.heap r).values f.1 = normalize f.2 := by
  have htn : t.typeName = input.type := find_typeName ht
  have ht1 : types.find? (fun t0 => t0.typeName == t.typeName) = some t := by
    rw [htn]; exact ht
  obtain ⟨t0, ht0, hcase⟩ := fromJSON_ok h
  rw [ht] at ht0
  injection ht0 with ht0
  subst ht0
  rcases hcase with ⟨hp, ha⟩ | ⟨_, hr, ha⟩
  · obtain ⟨a, _, v, _, hm⟩ := probe_some hp
    obtain ⟨h1, h2, _⟩ := hw.holds _ _ _ _ hm
    have hrt : (w.heap r).type = t.typeName := by rw [h2, htn]
    obtain ⟨c1, c2, c3, _, _⟩ := applyFields_inv ht1 input.fields hw h1 hrt ha
    exact ⟨c1, by rw [c2]; exact h1, by rw [c2], c3,
      applyFields_value ht1 input.fields hw h1 hrt hn ha⟩
  · subst hr
    have hw0 := allocate_consistent hw t.typeName input.isNew
    have hr0 : w.next < w.next + 1 := Nat.lt_succ_self _
    obtain ⟨c1, c2, c3, _, _⟩ := applyFields_inv ht1 input.fields hw0 hr0
      (by simp only [Function.update_same]) ha
    exact ⟨c1, by rw [c2]; exact hr0, by rw [c2]; exact Nat.le_succ _, c3,
      applyFields_value ht1 input.fields hw0 hr0 (by simp only [Function.update_same]) hn ha⟩

/-- C1. Two successive reconciliation calls (`Entity.fromJSON`) on records of
the same entity type: when both records carry the same value for one identifier
attribute (primary or secondary) the second call returns the very instance the
first returned, and when every identifier value carried by the second record
differs from the value the first record carries for that attribute the second
call returns a different instance. -/
theorem fromJSON_identity (types : List EntityTypeDescriptor) (t : EntityTypeDescriptor)
    (w w1 w2 : World) (first second : Record) (r1 r2 : Nat)
    (hw : w.Consistent types)
    (ht : types.find? (fun t0 => t0.typeName == first.type) = some t) (hwf : t.WellFormed)
    (hty : second.type = first.type)
    (hn1 : (first.fields.map Prod.fst).Nodup) (hn2 : (second.fields.map Prod.fst).Nodup)
    (h1 : fromJSON types w first = .ok (w1, r1))
    (h2 : fromJSON types w1 second = .ok (w2, r2)) :
    ((∃ a ∈ t.getIdentifierAttributes, ∃ v,
        first.identifierValue a.name = some v ∧ second.identifierValue a.name = some v) →
      r2 = r1) ∧
    ((∀ a ∈ t.getIdentifierAttributes, ∀ v, second.identifierValue a.name = some v →
        ∃ u, first.identifierValue a.name = some u ∧ u ≠ v) →
      r2 ≠ r1) := by
  have htn : t.typeName = first.type := find_typeName ht
  have ht1 : types.find? (fun t0 => t0.typeName == t.typeName) = some t := by
    rw [htn]; exact ht
  obtain ⟨hw1, hr1, _, hrt1, hval1⟩ := fromJSON_post hw ht hn1 h1
  obtain ⟨t0, ht0, hcase⟩ := fromJSON_ok h2
  rw [hty, ht] at ht0
  injection ht0 with ht0
  subst ht0
  refine ⟨?_, ?_⟩
  · rintro ⟨a, ha, v, hv1, hv2⟩
    have hamem : a ∈ t.attributes := (List.mem_filter.1 ha).1
    have haid : a.isIdentifier = true := (List.mem_filter.1 ha).2
    have hattr := getAttribute_of_mem hwf hamem
    have hheld : (w1.heap r1).values a.name = str v := hval1 _ (identifierValue_mem hv1)
    have hreg := hw1.registered r1 t a v hr1 (by rw [hrt1]; exact ht1) hattr haid hheld
    rw [hrt1] at hreg
    rcases hcase with ⟨hp, happ⟩ | ⟨hp, _, _⟩
    · by_cases hrr : r2 = r1
      · exact hrr
      · exfalso
        obtain ⟨b, _, u, _, hm⟩ := probe_some hp
        obtain ⟨k1, k2, _⟩ := hw1.holds _ _ _ _ hm
        exact applyFields_blocked ht1 hattr haid (fun hh => hrr hh.symm) second.fields hw1 k1
          (by rw [k2, hty, htn]) hn2 (identifierValue_mem hv2) hreg happ
    · have := probe_none hp a ha v hv2
      rw [hty, ← htn, hreg] at this
      cases this
  · intro hdiff
    rcases hcase with ⟨hp, _⟩ | ⟨_, hr, _⟩
    · obtain ⟨b, hb, u, hu, hm⟩ := probe_some hp
      obtain ⟨_, _, k3⟩ := hw1.holds _ _ _ _ hm
      obtain ⟨u1, hu1, hne⟩ := hdiff b hb u hu
      have hheld : (w1.heap r1).values b.name = str u1 := hval1 _ (identifierValue_mem hu1)
      intro hrr
      rw [hrr, hheld] at k3
      injection k3 with k3
      exact hne k3
    · omega

/-- C1, on the test `Entity management`: from the empty world, the record with
id `abc123` creates instance 0 and the record with id `xyz789` then yields
instance 1. -/
theorem fromJSON_identity_witness :
    fromJSON [userType] World.empty userAbc =
        .ok (worldAfter [userType] World.empty userAbc, 0) ∧
      fromJSON [userType] (worldAfter [userType] World.empty userAbc) userXyz =
        .ok (worldAfter [userType] (worldAfter [userType] World.empty userAbc) userXyz, 1) ∧
      (((∃ a ∈ userType.getIdentifierAttributes, ∃ v,
          userAbc.identifierValue a.name = some v ∧ userXyz.identifierValue a.name = some v) →
        1 = 0) ∧
       ((∀ a ∈ userType.getIdentifierAttributes, ∀ v, userXyz.identifierValue a.name = some v →
          ∃ u, userAbc.identifierValue a.name = some u ∧ u ≠ v) →
        1 ≠ 0)) :=
  ⟨rfl, rfl,
    fromJSON_identity [userType] userType World.empty _ _ userAbc userXyz 0 1
      (empty_consistent _) rfl (by decide) rfl (by decide) (by decide) rfl rfl⟩

/-- A successful attribute write has found the attribute and passed its
validation. -/
theorem set_accepts {t : EntityTypeDescriptor} {r : Nat} {w w1 : World}
    {field : String × JSValue} (h : set t r w field = .ok w1) :
    ∃ a, t.getAttribute field.1 = some a ∧ a.accepts (normalize field.2) = true := by
  unfold set at h
  cases ha : t.getAttribute field.1 with
  | none => rw [ha] at h; cases h
  | some a =>
    rw [ha] at h
    simp only at h
    refine ⟨a, rfl, ?_⟩
    by_cases hacc : a.accepts (normalize field.2) = true
    · exact hacc
    · rw [if_neg hacc] at h
      cases h

theorem accepts_identifier {a : AttributeDescriptor} {value : JSValue}
    (hid : a.isIdentifier = true) (h : a.accepts value = true) :
    (∃ v, value = str v) ∨ kindOf value = none := by
  unfold AttributeDescriptor.accepts at h
  cases hk : kindOf value with
  | none => exact Or.inr rfl
  | some k =>
    rw [hk] at h
    simp only [AttributeDescriptor.expectedType, hid, if_true, decide_eq_true_eq] at h
    subst h
    cases value <;> simp [kindOf] at hk
    exact Or.inl ⟨_, rfl⟩

/-- Writing again the value an attribute already holds, registered as it should
be, succeeds and changes nothing. -/
theorem set_same {t : EntityTypeDescriptor} {r : Nat} {w : World} {field : String × JSValue}
    {a : AttributeDescriptor} (ha : t.getAttribute field.1 = some a)
    (hacc : a.accepts (normalize field.2) = true)
    (hval : (w.heap r).values field.1 = normalize field.2)
    (hreg : a.isIdentifier = true → ∀ v, normalize field.2 = str v →
      w.identityMap t.typeName field.1 v = some r) :
    set t r w field = .ok w := by
  have hheap : Function.update w.heap r
      { w.heap r with
        values := Function.update (w.heap r).values field.1 (normalize field.2) } = w.heap := by
    have hv : Function.update (w.heap r).values field.1 (normalize field.2) =
        (w.heap r).values := by
      rw [← hval]
      exact Function.update_eq_self _ _
    rw [hv]
    exact Function.update_eq_self _ _
  unfold set
  simp only [ha, hacc, if_true]
  by_cases hid : a.isIdentifier = true
  · simp only [hid, if_true, hval]
    have hre : rekey w.identityMap r t.typeName field.1 (normalize field.2) (normalize field.2) =
        .ok w.identityMap := by
      rcases accepts_identifier hid hacc with ⟨v, hv⟩ | hnone
      · have hm := hreg hid v hv
        rw [hv]
        simp only [rekey, removeOld, register, lookup, remove, if_true, and_self]
        congr 1
        funext T n x
        simp only [insert]
        by_cases hk : T = t.typeName ∧ n = field.1 ∧ x = v
        · obtain ⟨h1, h2, h3⟩ := hk
          subst h1 h2 h3
          simp [hm]
        · simp [remove, hk]
      · cases hn : normalize field.2 <;> rw [hn] at hnone <;> simp [kindOf] at hnone <;>
          simp [rekey, removeOld]
    rw [hre]
    simp only [hheap]
  · simp only [hid, Bool.false_eq_true, if_false, hheap]

/-- Applying again fields whose values the instance already holds succeeds and
changes nothing. -/
theorem applyFields_same {types : List EntityTypeDescriptor} {t : EntityTypeDescriptor}
    {r : Nat} {w : World} (hw : w.Consistent types) (hr : r < w.next)
    (hrt : (w.heap r).type = t.typeName)
    (ht : types.find? (fun t0 => t0.typeName == t.typeName) = some t)
    (fields : List (String × JSValue))
    (h : ∀ f ∈ fields, (∃ a, t.getAttribute f.1 = some a ∧ a.accepts (normalize f.2) = true) ∧
      (w.heap r).values f.1 = normalize f.2) :
    applyFields t r w fields = .ok w := by
  induction fields with
  | nil => rfl
  | cons f rest ih =>
    obtain ⟨⟨a, ha, hacc⟩, hval⟩ := h f (List.mem_cons_self _ _)
    have hs : set t r w f = .ok w := by
      apply set_same ha hacc hval
      intro hid v hv
      have := hw.registered r t a v hr (by rw [hrt]; exact ht)
        (by rw [getAttribute_name ha]; exact ha) hid
        (by rw [getAttribute_name ha, hval, hv])
      rw [hrt, getAttribute_name ha] at this
      exact this
    simp only [applyFields, hs]
    exact ih (fun g hg => h g (List.mem_cons_of_mem _ hg))

theorem applyFields_accepts {t : EntityTypeDescriptor} {r : Nat}
    (fields : List (String × JSValue)) :
    ∀ {w w1 : World}, applyFields t r w fields = .ok w1 →
      (w1.heap r).isNew = (w.heap r).isNew ∧
      ∀ f ∈ fields, ∃ a, t.getAttribute f.1 = some a ∧ a.accepts (normalize f.2) = true := by
  induction fields with
  | nil =>
    intro w w1 h
    simp only [applyFields] at h
    injection h with h
    subst h
    exact ⟨rfl, fun f hf => (by cases hf)⟩
  | cons f0 rest ih =>
    intro w w1 h
    simp only [applyFields] at h
    cases hs : set t r w f0 with
    | error e => rw [hs] at h; cases h
    | ok w0 =>
      rw [hs] at h
      simp only at h
      obtain ⟨i1, i2⟩ := ih h
      refine ⟨by rw [i1, (set_frame hs).2.2.2.1], ?_⟩
      intro f hf
      rcases List.mem_cons.1 hf with hf | hf
      · subst hf
        exact set_accepts hs
      · exact i2 f hf

/-- After a successful reconciliation call on a record that carries an
identifier value, the same record again is reconciled without failure: it
returns the same instance and leaves the world as it is. -/
theorem fromJSON_again {types : List EntityTypeDescriptor} {t : EntityTypeDescriptor}
    {w w1 : World} {input : Record} {r : Nat}
    (hw : w.Consistent types)
    (ht : types.find? (fun t0 => t0.typeName == input.type) = some t) (hwf : t.WellFormed)
    (hn : (input.fields.map Prod.fst).Nodup)
    (hid : ∃ a ∈ t.getIdentifierAttributes, ∃ v, input.identifierValue a.name = some v)
    (h : fromJSON types w input = .ok (w1, r)) :
    fromJSON types w1 input = .ok (w1, r) := by
  have htn : t.typeName = input.type := find_typeName ht
  have ht1 : types.find? (fun t0 => t0.typeName == t.typeName) = some t := by
    rw [htn]; exact ht
  obtain ⟨hw1, hr1, _, hrt1, hval1⟩ := fromJSON_post hw ht hn h
  have hfacts : ((w1.heap r).isNew = true ∨ input.isNew = false) ∧
      ∀ f ∈ input.fields, ∃ a, t.getAttribute f.1 = some a ∧ a.accepts (normalize f.2) = true := by
    have hcopy := h
    unfold fromJSON at hcopy
    rw [ht] at hcopy
    simp only at hcopy
    cases hp : probe w.identityMap input t.getIdentifierAttributes with
    | some r0 =>
      rw [hp] at hcopy
      simp only at hcopy
      split at hcopy
      · cases hcopy
      · rename_i hflag
        cases ha : applyFields t r0 w input.fields with
        | error e => rw [ha] at hcopy; cases hcopy
        | ok w0 =>
          rw [ha] at hcopy
          injection hcopy with hcopy
          injection hcopy with h1 h2
          subst h1 h2
          obtain ⟨i1, i2⟩ := applyFields_accepts input.fields ha
          refine ⟨?_, i2⟩
          rw [i1]
          cases hnew : input.isNew
          · exact Or.inr rfl
          · cases hheap : (w.heap r0).isNew
            · rw [hnew, hheap] at hflag
              simp at hflag
            · exact Or.inl rfl
    | none =>
      rw [hp] at hcopy
      simp only at hcopy
      split at hcopy
      · cases hcopy
      · rename_i w0 ha
        injection hcopy with hcopy
        injection hcopy with h1 h2
        subst h1 h2
        obtain ⟨i1, i2⟩ := applyFields_accepts input.fields ha
        refine ⟨?_, i2⟩
        rw [i1]
        simp only [Function.update_same]
        cases input.isNew
        · exact Or.inr rfl
        · exact Or.inl rfl
  obtain ⟨hflag, hacc⟩ := hfacts
  obtain ⟨a, ha, v, hv⟩ := hid
  have hamem : a ∈ t.attributes := (List.mem_filter.1 ha).1
  have haid : a.isIdentifier = true := (List.mem_filter.1 ha).2
  have hreg := hw1.registered r t a v hr1 (by rw [hrt1]; exact ht1)
    (getAttribute_of_mem hwf hamem) haid (hval1 _ (identifierValue_mem hv))
  rw [hrt1] at hreg
  have hprobe : probe w1.identityMap input t.getIdentifierAttributes = some r := by
    cases hp : probe w1.identityMap input t.getIdentifierAttributes with
    | none =>
      have := probe_none hp a ha v hv
      rw [← htn, hreg] at this
      cases this
    | some r0 =>
      obtain ⟨b, hb, u, hu, hm⟩ := probe_some hp
      have hbmem : b ∈ t.attributes := (List.mem_filter.1 hb).1
      have hbid : b.isIdentifier = true := (List.mem_filter.1 hb).2
      have hregb := hw1.registered r t b u hr1 (by rw [hrt1]; exact ht1)
        (getAttribute_of_mem hwf hbmem) hbid (hval1 _ (identifierValue_mem hu))
      rw [hrt1, htn, hm] at hregb
      exact hregb
  have happ := applyFields_same hw1 hr1 hrt1 ht1 input.fields
    (fun f hf => ⟨hacc f hf, hval1 f hf⟩)
  unfold fromJSON
  rw [ht]
  simp only [hprobe, happ]
  rcases hflag with hflag | hflag
  · simp [hflag]
  · simp [hflag]

/-- The test `Entity management`, first lines: from the empty world, the record
with id `abc123` creates instance 0, and the same record again returns
instance 0. -/
theorem fromJSON_twice_example :
    fromJSON [userType] World.empty userAbc =
        .ok (worldAfter [userType] World.empty userAbc, 0) ∧
      fromJSON [userType] (worldAfter [userType] World.empty userAbc) userAbc =
        .ok (worldAfter [userType] (worldAfter [userType] World.empty userAbc) userAbc, 0) :=
  ⟨rfl, rfl⟩

end Entity

/-! ## Properties of objects -/

theorem lookupProp_setProp_same (u : Props) (n : String) (v : JSValue) :
    lookupProp (setProp u n v) n = some v := by
  induction u with
  | nil => simp [setProp, lookupProp]
  | cons a rest ih =>
    obtain ⟨k, w⟩ := a
    by_cases hk : k = n
    · simp [setProp, lookupProp, hk]
    · simp [setProp, lookupProp, hk, ih]

theorem lookupProp_setProp_ne (u : Props) {n k : String} (v : JSValue) (h : k ≠ n) :
    lookupProp (setProp u n v) k = lookupProp u k := by
  induction u with
  | nil => simp [setProp, lookupProp, Ne.symm h]
  | cons a rest ih =>
    obtain ⟨k1, w⟩ := a
    by_cases hk : k1 = n
    · subst hk
      simp [setProp, lookupProp, Ne.symm h]
    · by_cases hk2 : k1 = k
      · subst hk2
        simp [setProp, lookupProp, hk]
      · simp [setProp, lookupProp, hk, hk2, ih]

theorem lookupProp_deleteProp_same (u : Props) (n : String) :
    lookupProp (deleteProp u n) n = none := by
  induction u with
  | nil => simp [deleteProp, lookupProp]
  | cons a rest ih =>
    obtain ⟨k, w⟩ := a
    by_cases hk : k = n
    · simp [deleteProp, hk, ih]
    · simp [deleteProp, lookupProp, hk, ih]

theorem lookupProp_deleteProp_ne (u : Props) {n k : String} (h : k ≠ n) :
    lookupProp (deleteProp u n) k = lookupProp u k := by
  induction u with
  | nil => simp [deleteProp, lookupProp]
  | cons a rest ih =>
    obtain ⟨k1, w⟩ := a
    by_cases hk : k1 = n
    · subst hk
      simp [deleteProp, lookupProp, Ne.symm h, ih]
    · by_cases hk2 : k1 = k
      · subst hk2
        simp [deleteProp, lookupProp, hk]
      · simp [deleteProp, lookupProp, hk, hk2, ih]

theorem lookupProp_none_of_not_mem {f : Props} {n : String} (h : n ∉ f.map Prod.fst) :
    lookupProp f n = none := by
  induction f with
  | nil => rfl
  | cons a rest ih =>
    obtain ⟨k, w⟩ := a
    simp only [List.map_cons, List.mem_cons, not_or] at h
    simp [lookupProp, Ne.symm h.1, ih h.2]

theorem lookupProp_of_mem {f : Props} {n : String} {v : JSValue}
    (hnd : (f.map Prod.fst).Nodup) (h : (n, v) ∈ f) : lookupProp f n = some v := by
  induction f with
  | nil => cases h
  | cons a rest ih =>
    obtain ⟨k, w⟩ := a
    simp only [List.map_cons, List.nodup_cons] at hnd
    rcases List.mem_cons.1 h with h | h
    · injection h with h1 h2
      subst h1 h2
      simp [lookupProp]
    · have hk : k ≠ n := by
        intro hk
        subst hk
        exact hnd.1 (List.mem_map_of_mem Prod.fst h)
      simp [lookupProp, hk, ih hnd.2 h]

theorem mem_of_lookupProp {f : Props} {n : String} {v : JSValue}
    (h : lookupProp f n = some v) : (n, v) ∈ f := by
  induction f with
  | nil => cases h
  | cons a rest ih =>
    obtain ⟨k, w⟩ := a
    by_cases hk : k = n
    · simp only [lookupProp, if_pos hk] at h
      injection h with h
      subst h hk
      exact List.mem_cons_self _ _
    · simp only [lookupProp, if_neg hk] at h
      exact List.mem_cons_of_mem _ (ih h)

theorem getProp_eq_of_lookupProp_eq {u v : Props} {n : String}
    (h : lookupProp u n = lookupProp v n) : getProp u n = getProp v n := by
  unfold getProp
  rw [h]

theorem uniqueKeys_of_mem {fs : Props} {e : String × JSValue}
    (h : uniqueKeysFields fs = true) (he : e ∈ fs) : uniqueKeys e.2 = true := by
  induction fs with
  | nil => cases he
  | cons a rest ih =>
    obtain ⟨k, w⟩ := a
    simp only [uniqueKeysFields, Bool.and_eq_true] at h
    rcases List.mem_cons.1 he with he | he
    · subst he
      exact h.1
    · exact ih h.2 he

/-! ## One step of `_updateDocument` -/

section Step

variable (F : JSValue → JSValue → Except StoreError JSValue)
variable (Fs : JSValue → List JSValue → Except StoreError UpdateResult)

/-- A step only touches the property it is run for. -/
theorem updateDocumentStep_frame {u u1 : Props} {e : String × JSValue} {k : String}
    (h : updateDocumentStep F Fs u e = .ok u1) (hk : k ≠ e.1) :
    lookupProp u1 k = lookupProp u k := by
  unfold updateDocumentStep at h
  simp only at h
  split at h
  · cases h
  · rename_i x _
    split at h
    · injection h with h
      subst h
      exact lookupProp_setProp_ne u x hk
    · injection h with h
      subst h
      exact lookupProp_deleteProp_ne u hk

/-- A step run for a `null` value deletes the property. -/
theorem updateDocumentStep_null (u : Props) (name : String) :
    updateDocumentStep F Fs u (name, null) = .ok (deleteProp u name) := by
  simp [updateDocumentStep, deserializeValue, typeofObject]

theorem deserializeValue_record {g : Props} (hg : getProp g "_type" ≠ str "Date") :
    deserializeValue (obj g) = obj g := by
  have hs : strictEq (getProp g "_type") (str "Date") = false := by
    cases hv : getProp g "_type" <;> simp [strictEq]
    rename_i s
    intro hs
    exact hg (by rw [hv, hs])
  simp [deserializeValue, typeofObject, JSValue.prop, ownEntries, hs]

/-- A step run for a nested record stores what the nested call returns. -/
theorem updateDocumentStep_record {u u1 : Props} {name : String} {g : Props}
    (hg : getProp g "_type" ≠ str "Date")
    (h : updateDocumentStep F Fs u (name, obj g) = .ok u1) :
    ∃ x, F (getProp u name) (obj g) = .ok x ∧
      ((x ≠ undefined ∧ u1 = setProp u name x) ∨ (x = undefined ∧ u1 = deleteProp u name)) := by
  unfold updateDocumentStep at h
  simp only [deserializeValue_record hg, typeofObject, if_true] at h
  cases hx : F (getProp u name) (obj g) with
  | error e => rw [hx] at h; cases h
  | ok x =>
    rw [hx] at h
    simp only at h
    refine ⟨x, rfl, ?_⟩
    by_cases hu : x = undefined
    · rw [if_neg (by simpa using hu)] at h
      injection h with h
      exact Or.inr ⟨hu, h.symm⟩
    · rw [if_pos hu] at h
      injection h with h
      exact Or.inl ⟨hu, h.symm⟩

/-- The loop of `_updateDocument` leaves alone the properties that `fields` does
not name. -/
theorem forOf_updateDocumentStep_frame {k : String} (f : Props) :
    ∀ {u u1 : Props}, forOf (updateDocumentStep F Fs) u f = .ok u1 → k ∉ f.map Prod.fst →
      lookupProp u1 k = lookupProp u k := by
  induction f with
  | nil =>
    intro u u1 h _
    simp only [forOf] at h
    injection h with h
    rw [h]
  | cons e rest ih =>
    intro u u1 h hk
    simp only [List.map_cons, List.mem_cons, not_or] at hk
    simp only [forOf] at h
    cases hs : updateDocumentStep F Fs u e with
    | error err => rw [hs] at h; cases h
    | ok u0 =>
      rw [hs] at h
      simp only at h
      rw [ih h hk.2, updateDocumentStep_frame F Fs hs hk.1]

/-- The loop of `_updateDocument` deletes the properties given as `null`. -/
theorem forOf_updateDocumentStep_null {n : String} (f : Props) :
    ∀ {u u1 : Props}, forOf (updateDocumentStep F Fs) u f = .ok u1 →
      (f.map Prod.fst).Nodup → (n, null) ∈ f → lookupProp u1 n = none := by
  induction f with
  | nil => intro _ _ _ _ hn; cases hn
  | cons e rest ih =>
    intro u u1 h hnd hn
    simp only [List.map_cons, List.nodup_cons] at hnd
    simp only [forOf] at h
    cases hs : updateDocumentStep F Fs u e with
    | error err => rw [hs] at h; cases h
    | ok u0 =>
      rw [hs] at h
      simp only at h
      rcases List.mem_cons.1 hn with hn | hn
      · subst hn
        rw [updateDocumentStep_null] at hs
        injection hs with hs
        subst hs
        rw [forOf_updateDocumentStep_frame F Fs rest h hnd.1]
        exact lookupProp_deleteProp_same u n
      · exact ih h hnd.2 hn

/-- The loop of `_updateDocument` stores, for a nested record, the result of
the nested call on the value the document had under that name. -/
theorem forOf_updateDocumentStep_record {n : String} {g : Props}
    (hg : getProp g "_type" ≠ str "Date") (f : Props) :
    ∀ {u u1 : Props}, forOf (updateDocumentStep F Fs) u f = .ok u1 →
      (f.map Prod.fst).Nodup → (n, obj g) ∈ f →
      ∃ x, F (getProp u n) (obj g) = .ok x ∧
        ((x ≠ undefined ∧ lookupProp u1 n = some x) ∨ (x = undefined ∧ lookupProp u1 n = none)) := by
  induction f with
  | nil => intro _ _ _ _ hn; cases hn
  | cons e rest ih =>
    intro u u1 h hnd hn
    simp only [List.map_cons, List.nodup_cons] at hnd
    simp only [forOf] at h
    cases hs : updateDocumentStep F Fs u e with
    | error err => rw [hs] at h; cases h
    | ok u0 =>
      rw [hs] at h
      simp only at h
      rcases List.mem_cons.1 hn with hn | hn
      · subst hn
        obtain ⟨x, hx, hcase⟩ := updateDocumentStep_record F Fs hg hs
        refine ⟨x, hx, ?_⟩
        rw [forOf_updateDocumentStep_frame F Fs rest h hnd.1]
        rcases hcase with ⟨h1, h2⟩ | ⟨h1, h2⟩
        · exact Or.inl ⟨h1, by rw [h2]; exact lookupProp_setProp_same u n x⟩
        · exact Or.inr ⟨h1, by rw [h2]; exact lookupProp_deleteProp_same u n⟩
      · have hne : n ≠ e.1 := by
          intro hne
          exact hnd.1 (hne ▸ List.mem_map_of_mem Prod.fst hn)
        obtain ⟨x, hx, hcase⟩ := ih h hnd.2 hn
        refine ⟨x, ?_, hcase⟩
        rw [← getProp_eq_of_lookupProp_eq (updateDocumentStep_frame F Fs hs hne)]
        exact hx

end Step

/-- A successful `_updateDocument` returns an object, built by the loop over the
entries of `fields`. -/
theorem _updateDocument_ok {o : SaveOptions} {d fields r : JSValue}
    (h : _updateDocument o d fields = .ok r) :
    ∃ rs, r = obj rs ∧
      forOf (updateDocumentStep (_updateDocument o) (_updateDocuments o)) (ownEntries d)
        (ownEntries fields) = .ok rs := by
  rw [_updateDocument_eq] at h
  split at h
  · cases h
  · cases h
  · split at h
    · cases h
    · rename_i rs hrs
      injection h with h
      exact ⟨rs, h.symm, hrs⟩

/-! ## C2, C3: merging and deleting fields -/

/-- C2. The document computed by `_updateDocument(d, f)` keeps every field of
`d` that `f` does not name, and under every field of `f` whose value is a nested
record it holds the recursive merge of the value `d` had there with that record
(so the sub-fields of the existing nested value that the record does not name
are kept). -/
theorem updateDocument_merges (o : SaveOptions) (d f : Props) (r : JSValue)
    (hf : (f.map Prod.fst).Nodup) (h : _updateDocument o (obj d) (obj f) = .ok r) :
    ∃ rs, r = obj rs ∧
      (∀ n, n ∉ f.map Prod.fst → lookupProp rs n = lookupProp d n) ∧
      (∀ n g, (n, obj g) ∈ f → getProp g "_type" ≠ str "Date" →
        ∃ ms, _updateDocument o (getProp d n) (obj g) = .ok (obj ms) ∧
          lookupProp rs n = some (obj ms) ∧
          ∀ k, k ∉ g.map Prod.fst →
            lookupProp ms k = lookupProp (ownEntries (getProp d n)) k) := by
  obtain ⟨rs, hr, hloop⟩ := _updateDocument_ok h
  simp only [ownEntries] at hloop
  refine ⟨rs, hr, ?_, ?_⟩
  · intro n hn
    exact forOf_updateDocumentStep_frame _ _ f hloop hn
  · intro n g hmem hg
    obtain ⟨x, hx, hcase⟩ := forOf_updateDocumentStep_record _ _ hg f hloop hf hmem
    obtain ⟨ms, hms, hnested⟩ := _updateDocument_ok hx
    subst hms
    simp only [ownEntries] at hnested
    refine ⟨ms, hx, ?_, ?_⟩
    · rcases hcase with ⟨_, h2⟩ | ⟨h1, _⟩
      · exact h2
      · cases h1
    · intro k hk
      exact forOf_updateDocumentStep_frame _ _ g hnested hk

/-- C2 on an example: updating the city of the nested address keeps the name of
the user and the zip code of the address. -/
theorem updateDocument_merges_witness :
    ([("address", obj [("city", str "Lyon")])].map Prod.fst).Nodup ∧
      _updateDocument {} (obj exampleUser) (obj [("address", obj [("city", str "Lyon")])]) =
        .ok (obj [("_type", str "user"), ("_id", str "u1"), ("name", str "Ada"),
          ("address", obj [("city", str "Lyon"), ("zip", str "75001")])]) ∧
      ∃ rs, obj [("_type", str "user"), ("_id", str "u1"), ("name", str "Ada"),
            ("address", obj [("city", str "Lyon"), ("zip", str "75001")])] = obj rs ∧
        (∀ n, n ∉ [("address", obj [("city", str "Lyon")])].map Prod.fst →
          lookupProp rs n = lookupProp exampleUser n) ∧
        (∀ n g, (n, obj g) ∈ [("address", obj [("city", str "Lyon")])] →
          getProp g "_type" ≠ str "Date" →
          ∃ ms, _updateDocument {} (getProp exampleUser n) (obj g) = .ok (obj ms) ∧
            lookupProp rs n = some (obj ms) ∧
            ∀ k, k ∉ g.map Prod.fst →
              lookupProp ms k = lookupProp (ownEntries (getProp exampleUser n)) k) :=
  ⟨by decide, rfl,
    updateDocument_merges {} exampleUser [("address", obj [("city", str "Lyon")])] _
      (by decide) rfl⟩

/-- C3. When `_updateDocument(d, f)` returns a document and `f` gives `null`
for the field `n`, at the top level or inside a nested record reached through
`path`, the document has no field `n` at that place, whether or not `d` had
one. -/
theorem updateDocument_null_deletes (o : SaveOptions) (path : List String) :
    ∀ (d : JSValue) (f : Props) (r : JSValue) (g : Props) (n : String),
      uniqueKeys (obj f) = true → _updateDocument o d (obj f) = .ok r →
      recordAt f path = some g → lookupProp g n = some null →
      ∃ rs, valueAt r path = some (obj rs) ∧ lookupProp rs n = none := by
  induction path with
  | nil =>
    intro d f r g n hu h hg hn
    simp only [recordAt] at hg
    injection hg with hg
    subst hg
    obtain ⟨rs, hr, hloop⟩ := _updateDocument_ok h
    simp only [ownEntries] at hloop
    simp only [uniqueKeys, Bool.and_eq_true, decide_eq_true_eq] at hu
    refine ⟨rs, by rw [hr]; rfl, ?_⟩
    exact forOf_updateDocumentStep_null _ _ f hloop hu.1 (mem_of_lookupProp hn)
  | cons m rest ih =>
    intro d f r g n hu h hg hn
    simp only [uniqueKeys, Bool.and_eq_true, decide_eq_true_eq] at hu
    simp only [recordAt] at hg
    cases hl : lookupProp f m with
    | none => rw [hl] at hg; cases hg
    | some x =>
      rw [hl] at hg
      cases x with
      | obj g1 =>
        simp only at hg
        by_cases hdate : getProp g1 "_type" = str "Date"
        · rw [if_pos hdate] at hg
          cases hg
        · rw [if_neg hdate] at hg
          obtain ⟨rs, hr, hloop⟩ := _updateDocument_ok h
          simp only [ownEntries] at hloop
          have hmem := mem_of_lookupProp hl
          obtain ⟨x, hx, hcase⟩ :=
            forOf_updateDocumentStep_record _ _ hdate f hloop hu.1 hmem
          obtain ⟨ms, hms, _⟩ := _updateDocument_ok hx
          subst hms
          have hlook : lookupProp rs m = some (obj ms) := by
            rcases hcase with ⟨_, h2⟩ | ⟨h1, _⟩
            · exact h2
            · cases h1
          obtain ⟨rs1, hv, hnone⟩ := ih _ g1 (obj ms) g n (uniqueKeys_of_mem hu.2 hmem) hx hg hn
          refine ⟨rs1, ?_, hnone⟩
          rw [hr]
          simp only [valueAt, hlook]
          exact hv
      | _ => simp only at hg; cases hg

/-- C3 on an example: a `null` zip code inside the nested address removes the
zip code of the stored address. -/
theorem updateDocument_null_deletes_witness :
    uniqueKeys (obj [("address", obj [("zip", null)])]) = true ∧
      _updateDocument {} (obj exampleUser) (obj [("address", obj [("zip", null)])]) =
        .ok (obj [("_type", str "user"), ("_id", str "u1"), ("name", str "Ada"),
          ("address", obj [("city", str "Paris")])]) ∧
      recordAt [("address", obj [("zip", null)])] ["address"] = some [("zip", null)] ∧
      lookupProp [("zip", null)] "zip" = some null ∧
      ∃ rs, valueAt (obj [("_type", str "user"), ("_id", str "u1"), ("name", str "Ada"),
            ("address", obj [("city", str "Paris")])]) ["address"] = some (obj rs) ∧
        lookupProp rs "zip" = none :=
  ⟨by decide, rfl, by decide, by decide,
    updateDocument_null_deletes {} ["address"] (obj exampleUser)
      [("address", obj [("zip", null)])] _ [("zip", null)] "zip" (by decide) rfl (by decide)
      (by decide)⟩

/-! ## C4, C8: two places where the code misses what it announces -/

/-- The example of the comment above `buildProjection`:
`{a: true, b: {c: true}}` gives
`{_type: 1, _id: 1, a: 1, "b._type": 1, "b._id": 1, "b.c": 1}`. -/
theorem buildProjection_example :
    buildProjection (obj [("a", bool true), ("b", obj [("c", bool true)])]) =
      [("_type", num 1), ("_id", num 1), ("a", num 1), ("b._type", num 1), ("b._id", num 1),
       ("b.c", num 1)] := rfl

/-- C4. On the description `{_type: false}` the projection built is `{_id: 1}`:
it has no key `_type`, although the type is announced as always included. -/
theorem buildProjection_drops_type :
    buildProjection (obj [("_type", bool false)]) = [("_id", num 1)] ∧
      lookupProp (buildProjection (obj [("_type", bool false)])) "_type" = none :=
  ⟨rfl, rfl⟩

/-- C8. With an array of one nested record under `tags`, the document computed
by `_updateDocument`, which `save` then stores, holds under `tags` the record
`{updatedDocuments, acknowledgedDocuments}` returned by `_updateDocuments`, not
an array of sub-documents. -/
theorem updateDocument_array_field :
    _updateDocument {} (obj [("_type", str "user"), ("_id", str "u2")])
        (obj [("tags", arr [obj [("_type", str "tag"), ("_id", str "t1"), ("_new", bool true),
          ("label", str "x")]])]) =
      .ok (obj [("_type", str "user"), ("_id", str "u2"),
        ("tags", obj
          [("updatedDocuments",
              arr [obj [("_type", str "tag"), ("_id", str "t1"), ("label", str "x")]]),
           ("acknowledgedDocuments",
              arr [obj [("_type", str "tag"), ("_id", str "t1"), ("label", str "x")]])])]) ∧
    (save noProjection exampleStore
        [obj [("_type", str "user"), ("_id", str "u2"), ("_new", bool true),
          ("tags", arr [obj [("_type", str "tag"), ("_id", str "t1"), ("_new", bool true),
            ("label", str "x")]])]] {}).2 "user" =
      [obj exampleUser,
       obj [("_type", str "user"), ("_id", str "u2"),
        ("tags", obj
          [("updatedDocuments",
              arr [obj [("_type", str "tag"), ("_id", str "t1"), ("label", str "x")]]),
           ("acknowledgedDocuments",
              arr [obj [("_type", str "tag"), ("_id", str "t1"), ("label", str "x")]])])]] :=
  ⟨rfl, rfl⟩

/-! ## C11: the date that `deserializeValue` builds is not stored -/

/-- The function `deserializeValue` turns the serialized form of a date into the
date built from its `_value`. -/
theorem deserializeValue_serializedDate (v : JSValue) :
    deserializeValue (serializedDate v) = date v := by
  simp [deserializeValue, serializedDate, typeofObject, JSValue.prop, ownEntries, getProp,
    lookupProp, strictEq]

/-- Called with a date as `fields`, `_updateDocument` returns a copy of the own
properties of `existingDocument`: a date has no entries to loop over. -/
theorem updateDocument_of_date (o : SaveOptions) (existing w : JSValue) :
    _updateDocument o existing (date w) = .ok (obj (ownEntries existing)) := by
  rw [_updateDocument_eq]
  simp [ownEntries, forOf]

/-- A step of the loop of `_updateDocument` run for a serialized date hands the
date to the nested call, as `typeof` of a date is `object`, and stores a copy of
the value the document had under that name. -/
theorem updateDocumentStep_date (o : SaveOptions) (u : Props) (n : String) (v : JSValue) :
    updateDocumentStep (_updateDocument o) (_updateDocuments o) u (n, serializedDate v) =
      .ok (setProp u n (obj (ownEntries (getProp u n)))) := by
  unfold updateDocumentStep
  simp only [deserializeValue_serializedDate, typeofObject, if_true, updateDocument_of_date]
  simp

/-- The loop of `_updateDocument` leaves, under the name of a serialized date, a
copy of the value the document had there. -/
theorem forOf_updateDocumentStep_date (o : SaveOptions) {n : String} {v : JSValue} (f : Props) :
    ∀ {u u1 : Props},
      forOf (updateDocumentStep (_updateDocument o) (_updateDocuments o)) u f = .ok u1 →
      (f.map Prod.fst).Nodup → (n, serializedDate v) ∈ f →
      lookupProp u1 n = some (obj (ownEntries (getProp u n))) := by
  induction f with
  | nil => intro _ _ _ _ hn; cases hn
  | cons e rest ih =>
    intro u u1 h hnd hn
    simp only [List.map_cons, List.nodup_cons] at hnd
    simp only [forOf] at h
    cases hs : updateDocumentStep (_updateDocument o) (_updateDocuments o) u e with
    | error err => rw [hs] at h; cases h
    | ok u0 =>
      rw [hs] at h
      simp only at h
      rcases List.mem_cons.1 hn with hn | hn
      · subst hn
        rw [updateDocumentStep_date] at hs
        injection hs with hs
        subst hs
        rw [forOf_updateDocumentStep_frame _ _ rest h hnd.1]
        exact lookupProp_setProp_same u n _
      · have hne : n ≠ e.1 := by
          intro hne
          exact hnd.1 (hne ▸ List.mem_map_of_mem Prod.fst hn)
        rw [ih h hnd.2 hn, getProp_eq_of_lookupProp_eq (updateDocumentStep_frame _ _ hs hne)]

/-- For every document `d`, name `n` and value `v`: with the single field `n`
given as a serialized date, `_updateDocument` returns `d` with a copy of its
previous value under `n`, and that is not the date. -/
theorem updateDocument_date_single (o : SaveOptions) (d : Props) (n : String) (v : JSValue) :
    _updateDocument o (obj d) (obj [(n, serializedDate v)]) =
        .ok (obj (setProp d n (obj (ownEntries (getProp d n))))) ∧
      getProp (setProp d n (obj (ownEntries (getProp d n)))) n ≠
        deserializeValue (serializedDate v) := by
  constructor
  · rw [_updateDocument_eq]
    simp only [ownEntries, forOf, updateDocumentStep_date]
  · rw [deserializeValue_serializedDate, getProp, lookupProp_setProp_same]
    intro h
    cases h

/-- Whatever the other fields are, as long as `_updateDocument(d, f)` returns a
document and `f` names each field once, the document holds under the name of a
serialized date a copy of the previous value of `d`, never the date. -/
theorem updateDocument_date_lost (o : SaveOptions) (d f : Props) (r : JSValue) (n : String)
    (v : JSValue) (hf : (f.map Prod.fst).Nodup) (h : _updateDocument o (obj d) (obj f) = .ok r)
    (hn : (n, serializedDate v) ∈ f) :
    r.prop n = obj (ownEntries (getProp d n)) ∧ r.prop n ≠ deserializeValue (serializedDate v) := by
  obtain ⟨rs, hr, hloop⟩ := _updateDocument_ok h
  subst hr
  have hv : (obj rs).prop n = obj (ownEntries (getProp d n)) := by
    simp only [JSValue.prop, ownEntries, getProp]
    rw [forOf_updateDocumentStep_date o f hloop hf hn]
    simp only [ownEntries, getProp]
  refine ⟨hv, ?_⟩
  rw [hv, deserializeValue_serializedDate]
  intro hc
  cases hc

/-- C11. A serialized date under `birthday` is deserialized to a date and then
lost: for a document without a previous value the document computed by
`_updateDocument`, which `save` then stores, holds the empty record under
`birthday`; for a document with a previous value it holds a copy of that value.
In both cases it is not the date built by `deserializeValue`. -/
theorem updateDocument_date_field :
    deserializeValue (obj [("_type", str "Date"), ("_value", str "2000-01-01T00:00:00.000Z")]) =
      date (str "2000-01-01T00:00:00.000Z") ∧
    _updateDocument {} (obj [("_type", str "user"), ("_id", str "u2")])
        (obj [("birthday",
          obj [("_type", str "Date"), ("_value", str "2000-01-01T00:00:00.000Z")])]) =
      .ok (obj [("_type", str "user"), ("_id", str "u2"), ("birthday", obj [])]) ∧
    _updateDocument {} (obj exampleUser)
        (obj [("address",
          obj [("_type", str "Date"), ("_value", str "2000-01-01T00:00:00.000Z")])]) =
      .ok (obj exampleUser) ∧
    (save noProjection exampleStore [newUser2WithBirthday] {}).2 "user" =
      [obj exampleUser,
       obj [("_type", str "user"), ("_id", str "u2"), ("birthday", obj [])]] :=
  ⟨rfl, rfl, rfl, rfl⟩

/-! ## Grouping documents by type -/

section GroupBy

variable {α : Type}

theorem addToGroup_keys (key : String) (x : α) (gs : List (String × List α)) :
    (addToGroup key x gs).map Prod.fst =
      if key ∈ gs.map Prod.fst then gs.map Prod.fst else gs.map Prod.fst ++ [key] := by
  induction gs with
  | nil => simp [addToGroup]
  | cons g rest ih =>
    obtain ⟨k, xs⟩ := g
    by_cases hk : k = key
    · subst hk
      simp [addToGroup]
    · simp only [addToGroup, if_neg hk, List.map_cons, ih, List.mem_cons]
      by_cases hm : key ∈ rest.map Prod.fst
      · simp [hm]
      · have hkk : ¬key = k := fun h => hk h.symm
        simp [hm, hkk]

theorem addToGroup_nodup (key : String) (x : α) (gs : List (String × List α))
    (h : (gs.map Prod.fst).Nodup) : ((addToGroup key x gs).map Prod.fst).Nodup := by
  rw [addToGroup_keys]
  by_cases hm : key ∈ gs.map Prod.fst
  · rw [if_pos hm]; exact h
  · rw [if_neg hm]
    exact List.nodup_append.2 ⟨h, List.nodup_singleton _, by
      intro a ha hb
      simp only [List.mem_singleton] at hb
      subst hb
      exact hm ha⟩

theorem mem_addToGroup {key : String} {x : α} {gs : List (String × List α)}
    {g : String × List α} (h : g ∈ addToGroup key x gs) :
    g ∈ gs ∨ (g.1 = key ∧ ∀ y ∈ g.2, y = x ∨ ∃ g0 ∈ gs, g0.1 = key ∧ y ∈ g0.2) := by
  induction gs with
  | nil =>
    simp only [addToGroup, List.mem_singleton] at h
    subst h
    exact Or.inr ⟨rfl, fun y hy => Or.inl (by simpa using hy)⟩
  | cons g0 rest ih =>
    obtain ⟨k, xs⟩ := g0
    by_cases hk : k = key
    · simp only [addToGroup, if_pos hk] at h
      rcases List.mem_cons.1 h with h | h
      · subst h
        refine Or.inr ⟨hk, fun y hy => ?_⟩
        rcases List.mem_append.1 hy with hy | hy
        · exact Or.inr ⟨(k, xs), List.mem_cons_self _ _, hk, hy⟩
        · exact Or.inl (by simpa using hy)
      · exact Or.inl (List.mem_cons_of_mem _ h)
    · simp only [addToGroup, if_neg hk] at h
      rcases List.mem_cons.1 h with h | h
      · subst h
        exact Or.inl (List.mem_cons_self _ _)
      · rcases ih h with h | ⟨h1, h2⟩
        · exact Or.inl (List.mem_cons_of_mem _ h)
        · refine Or.inr ⟨h1, fun y hy => ?_⟩
          rcases h2 y hy with h2 | ⟨g1, hg1, h3, h4⟩
          · exact Or.inl h2
          · exact Or.inr ⟨g1, List.mem_cons_of_mem _ hg1, h3, h4⟩

theorem addToGroup_mem_new (key : String) (x : α) (gs : List (String × List α)) :
    ∃ g ∈ addToGroup key x gs, g.1 = key ∧ x ∈ g.2 := by
  induction gs with
  | nil => exact ⟨(key, [x]), by simp [addToGroup], rfl, by simp⟩
  | cons g0 rest ih =>
    obtain ⟨k, xs⟩ := g0
    by_cases hk : k = key
    · exact ⟨(k, xs ++ [x]), by simp [addToGroup, hk], hk, by simp⟩
    · obtain ⟨g, hg, h1, h2⟩ := ih
      exact ⟨g, by simp only [addToGroup, if_neg hk]; exact List.mem_cons_of_mem _ hg, h1, h2⟩

theorem addToGroup_mem_old (key : String) (x : α) {gs : List (String × List α)}
    {g0 : String × List α} (h0 : g0 ∈ gs) :
    ∃ g ∈ addToGroup key x gs, g.1 = g0.1 ∧ ∀ y ∈ g0.2, y ∈ g.2 := by
  induction gs with
  | nil => cases h0
  | cons g1 rest ih =>
    obtain ⟨k, xs⟩ := g1
    by_cases hk : k = key
    · rcases List.mem_cons.1 h0 with h0 | h0
      · subst h0
        exact ⟨(k, xs ++ [x]), by simp [addToGroup, hk], rfl,
          fun y hy => List.mem_append_left _ hy⟩
      · exact ⟨g0, by simp only [addToGroup, if_pos hk]; exact List.mem_cons_of_mem _ h0, rfl,
          fun y hy => hy⟩
    · rcases List.mem_cons.1 h0 with h0 | h0
      · subst h0
        exact ⟨(k, xs), by simp [addToGroup, hk], rfl, fun y hy => hy⟩
      · obtain ⟨g, hg, h1, h2⟩ := ih h0
        exact ⟨g, by simp only [addToGroup, if_neg hk]; exact List.mem_cons_of_mem _ hg, h1, h2⟩

end GroupBy

/-- What `groupByType` builds, starting from groups `gs` that already satisfy
the same three properties for the documents `seen`: the keys are pairwise
distinct, every group holds documents of its key only, and every document is in
the group of its type. -/
theorem groupBy_fold (docs : List JSValue) :
    ∀ (gs : List (String × List JSValue)) (seen : List JSValue),
      (gs.map Prod.fst).Nodup →
      (∀ g ∈ gs, ∀ d ∈ g.2, d ∈ seen ∧ d.typeName = g.1) →
      (∀ d ∈ seen, ∃ g ∈ gs, g.1 = d.typeName ∧ d ∈ g.2) →
      ((docs.foldl (fun groups d => addToGroup (toJSString (d.prop "_type")) d groups) gs).map
          Prod.fst).Nodup ∧
      (∀ g ∈ docs.foldl (fun groups d => addToGroup (toJSString (d.prop "_type")) d groups) gs,
        ∀ d ∈ g.2, d ∈ seen ++ docs ∧ d.typeName = g.1) ∧
      (∀ d ∈ seen ++ docs,
        ∃ g ∈ docs.foldl (fun groups d => addToGroup (toJSString (d.prop "_type")) d groups) gs,
          g.1 = d.typeName ∧ d ∈ g.2) := by
  induction docs with
  | nil =>
    intro gs seen h1 h2 h3
    simp only [List.foldl_nil, List.append_nil]
    exact ⟨h1, h2, h3⟩
  | cons x rest ih =>
    intro gs seen h1 h2 h3
    simp only [List.foldl_cons]
    have hstep := ih (addToGroup (toJSString (x.prop "_type")) x gs) (seen ++ [x])
      (addToGroup_nodup _ _ _ h1)
      (by
        intro g hg d hd
        rcases mem_addToGroup hg with hg | ⟨hk, hall⟩
        · obtain ⟨a, b⟩ := h2 g hg d hd
          exact ⟨List.mem_append_left _ a, b⟩
        · rcases hall d hd with hd | ⟨g0, hg0, hk0, hd0⟩
          · subst hd
            exact ⟨by simp, hk.symm⟩
          · obtain ⟨a, b⟩ := h2 g0 hg0 d hd0
            exact ⟨List.mem_append_left _ a, by rw [b, hk0, hk]⟩)
      (by
        intro d hd
        rcases List.mem_append.1 hd with hd | hd
        · obtain ⟨g0, hg0, a, b⟩ := h3 d hd
          obtain ⟨g, hg, c, e⟩ := addToGroup_mem_old (toJSString (x.prop "_type")) x hg0
          exact ⟨g, hg, by rw [c, a], e d b⟩
        · simp only [List.mem_singleton] at hd
          subst hd
          obtain ⟨g, hg, c, e⟩ := addToGroup_mem_new (toJSString (d.prop "_type")) d gs
          exact ⟨g, hg, c, e⟩)
    simpa only [List.append_assoc, List.singleton_append] using hstep

theorem addToGroup_nonempty {α : Type} (key : String) (x : α) (gs : List (String × List α))
    (h : ∀ g ∈ gs, g.2 ≠ []) : ∀ g ∈ addToGroup key x gs, g.2 ≠ [] := by
  induction gs with
  | nil =>
    intro g hg
    simp only [addToGroup, List.mem_singleton] at hg
    subst hg
    simp
  | cons g0 rest ih =>
    obtain ⟨k, xs⟩ := g0
    intro g hg
    by_cases hk : k = key
    · simp only [addToGroup, if_pos hk] at hg
      rcases List.mem_cons.1 hg with hg | hg
      · subst hg
        simp
      · exact h g (List.mem_cons_of_mem _ hg)
    · simp only [addToGroup, if_neg hk] at hg
      rcases List.mem_cons.1 hg with hg | hg
      · subst hg
        exact h _ (List.mem_cons_self _ _)
      · exact ih (fun g1 hg1 => h g1 (List.mem_cons_of_mem _ hg1)) g hg

theorem groupBy_fold_nonempty (docs : List JSValue) :
    ∀ (gs : List (String × List JSValue)), (∀ g ∈ gs, g.2 ≠ []) →
      ∀ g ∈ docs.foldl (fun groups d => addToGroup (toJSString (d.prop "_type")) d groups) gs,
        g.2 ≠ [] := by
  induction docs with
  | nil => intro gs h; simpa using h
  | cons x rest ih =>
    intro gs h
    simp only [List.foldl_cons]
    exact ih _ (addToGroup_nonempty _ _ _ h)

/-- The groups of `groupByType`: distinct keys, each group made of documents of
the list that have the type of its key, and every document in the group of its
type. -/
theorem groupByType_spec (docs : List JSValue) :
    ((groupByType docs).map Prod.fst).Nodup ∧
    (∀ g ∈ groupByType docs, ∀ d ∈ g.2, d ∈ docs ∧ d.typeName = g.1) ∧
    (∀ d ∈ docs, ∃ g ∈ groupByType docs, g.1 = d.typeName ∧ d ∈ g.2) := by
  have h := groupBy_fold docs [] [] (by simp) (by simp) (by simp)
  simpa only [List.nil_append] using h

/-- The key of every group of `groupByType` is the type of one of the documents. -/
theorem groupByType_key {docs : List JSValue} {g : String × List JSValue}
    (hg : g ∈ groupByType docs) : ∃ d ∈ docs, d.typeName = g.1 := by
  have hne := groupBy_fold_nonempty docs [] (by simp) g hg
  obtain ⟨d, hd⟩ := List.exists_mem_of_ne_nil _ hne
  obtain ⟨h1, h2⟩ := (groupByType_spec docs).2.1 g hg d hd
  exact ⟨d, h1, h2⟩

/-! ## Finding a document among the loaded documents -/

theorem prop_str_cases {v : JSValue} {k s : String} (h : v.prop k = str s) :
    v ≠ undefined ∧ v ≠ null ∧ truthy v = true := by
  cases v with
  | str s1 =>
    refine ⟨by simp, by simp, ?_⟩
    simp only [truthy, bne_iff_ne, ne_eq]
    intro hs
    subst hs
    simp [JSValue.prop, ownEntries, indexedFrom, getProp, lookupProp] at h
  | arr xs => simp [truthy]
  | obj fs => simp [truthy]
  | _ => simp [JSValue.prop, ownEntries, getProp, lookupProp] at h

theorem isDocument_spec {d : JSValue} (h : isDocument d = true) :
    ∃ t i, d.prop "_type" = str t ∧ t ≠ "" ∧ d.prop "_id" = str i ∧ d.typeName = t := by
  unfold isDocument at h
  cases ht : d.prop "_type" with
  | str t =>
    cases hi : d.prop "_id" with
    | str i =>
      rw [ht, hi] at h
      simp only [bne_iff_ne, ne_eq] at h
      exact ⟨t, i, rfl, h, rfl, by simp [JSValue.typeName, ht, toJSString]⟩
    | _ => rw [ht, hi] at h; simp at h
  | _ => rw [ht] at h; simp at h

theorem strictEq_str (v : JSValue) (s : String) : strictEq v (str s) = decide (v = str s) := by
  cases v with
  | str s1 => by_cases h : s1 = s <;> simp [strictEq, h]
  | _ => simp [strictEq]

theorem findDocument_cons {t i d : JSValue} {ds : List JSValue}
    (h1 : d ≠ undefined) (h2 : d ≠ null) :
    findDocument t i (d :: ds) =
      if strictEq (d.prop "_type") t && strictEq (d.prop "_id") i then .ok d
      else findDocument t i ds := by
  cases d <;> simp only [findDocument] <;> first | exact absurd rfl h1 | exact absurd rfl h2

theorem findDocument_append (t i : JSValue) (xs ys : List JSValue) :
    findDocument t i (xs ++ ys) =
      match findDocument t i xs with
      | .ok undefined => findDocument t i ys
      | r => r := by
  induction xs with
  | nil => simp [findDocument]
  | cons d rest ih =>
    by_cases h1 : d = undefined
    · subst h1; simp [findDocument]
    · by_cases h2 : d = null
      · subst h2; simp [findDocument]
      · rw [List.cons_append, findDocument_cons h1 h2, findDocument_cons h1 h2]
        split
        · cases d <;> first | exact absurd rfl h1 | rfl
        · exact ih

theorem findDocument_other {t i : JSValue} (xs : List JSValue)
    (h : ∀ x ∈ xs, x ≠ undefined ∧ x ≠ null ∧ strictEq (x.prop "_type") t = false) :
    findDocument t i xs = .ok undefined := by
  induction xs with
  | nil => rfl
  | cons d rest ih =>
    obtain ⟨h1, h2, h3⟩ := h d (List.mem_cons_self _ _)
    rw [findDocument_cons h1 h2, h3]
    simp only [Bool.false_and, Bool.false_eq_true, if_false]
    exact ih (fun x hx => h x (List.mem_cons_of_mem _ hx))

theorem findDocument_group (view : JSValue → JSValue) (T I : String) (ids : List JSValue)
    (hI : str I ∈ ids) (coll : List JSValue)
    (hcoll : ∀ x ∈ coll, (view x).prop "_type" = str T ∧ (view x).prop "_id" = x.prop "_id") :
    findDocument (str T) (str I)
        ((coll.filter (fun x => ids.contains (x.prop "_id"))).map view) =
      .ok (match coll.find? (fun x => x.prop "_id" = str I) with
        | some x => view x
        | none => undefined) := by
  induction coll with
  | nil => rfl
  | cons x rest ih =>
    have ih1 := ih (fun y hy => hcoll y (List.mem_cons_of_mem _ hy))
    obtain ⟨hx1, hx2⟩ := hcoll x (List.mem_cons_self _ _)
    obtain ⟨n1, n2, _⟩ := prop_str_cases hx1
    by_cases hc : ids.contains (x.prop "_id") = true
    · simp only [List.filter_cons, hc, if_true, List.map_cons]
      rw [findDocument_cons n1 n2, hx1, hx2, strictEq_str, strictEq_str]
      by_cases hid : x.prop "_id" = str I
      · simp [hid]
      · rw [if_neg (by simp [hid]), List.find?_cons_of_neg _ (by simp [hid])]
        exact ih1
    · simp only [List.filter_cons, hc]
      have hid : x.prop "_id" ≠ str I := by
        intro hid
        apply hc
        rw [hid]
        simpa using hI
      rw [List.find?_cons_of_neg _ (by simp [hid])]
      exact ih1

theorem group_unique {gs : List (String × List JSValue)} (hnd : (gs.map Prod.fst).Nodup)
    {g g0 : String × List JSValue} (hg : g ∈ gs) (hg0 : g0 ∈ gs) (hk : g.1 = g0.1) : g = g0 := by
  induction gs with
  | nil => cases hg
  | cons a rest ih =>
    simp only [List.map_cons, List.nodup_cons] at hnd
    rcases List.mem_cons.1 hg with hg | hg <;> rcases List.mem_cons.1 hg0 with hg0 | hg0
    · rw [hg, hg0]
    · have hm : g0.1 ∈ rest.map Prod.fst := List.mem_map_of_mem Prod.fst hg0
      rw [← hk, hg] at hm
      exact absurd hm hnd.1
    · have hm : g.1 ∈ rest.map Prod.fst := List.mem_map_of_mem Prod.fst hg
      rw [hk, hg0] at hm
      exact absurd hm hnd.1
    · exact ih hnd.2 hg hg0

theorem findDocument_groups (view : JSValue → JSValue) (store : Store)
    (hstore : store.WellFormed) (hview : KeepsTypeAndId view store) (T I : String)
    (gs : List (String × List JSValue)) (hnd : (gs.map Prod.fst).Nodup)
    (hI : ∀ g ∈ gs, g.1 = T → str I ∈ g.2.map (fun d => d.prop "_id")) :
    findDocument (str T) (str I)
        (gs.flatMap (fun g =>
          ((store g.1).filter
            (fun x => (g.2.map (fun d => d.prop "_id")).contains (x.prop "_id"))).map view)) =
      .ok (if T ∈ gs.map Prod.fst then
          (match (store T).find? (fun x => x.prop "_id" = str I) with
            | some x => view x
            | none => undefined)
        else undefined) := by
  induction gs with
  | nil => rfl
  | cons g rest ih =>
    simp only [List.map_cons, List.nodup_cons] at hnd
    have ih1 := ih hnd.2 (fun g0 hg0 => hI g0 (List.mem_cons_of_mem _ hg0))
    rw [List.flatMap_cons, findDocument_append]
    by_cases hk : g.1 = T
    · have hnot : T ∉ rest.map Prod.fst := hk ▸ hnd.1
      rw [if_neg hnot] at ih1
      have hgrp := findDocument_group view T I (g.2.map (fun d => d.prop "_id"))
        (hI g (List.mem_cons_self _ _) hk) (store T)
        (fun x hx => ⟨by rw [(hview T x hx).1]; exact hstore T x hx, (hview T x hx).2⟩)
      rw [hk, hgrp]
      simp only [List.map_cons, List.mem_cons, hk, true_or, if_true]
      cases hf : (store T).find? (fun x => x.prop "_id" = str I) with
      | none => simp only; rw [ih1]
      | some x =>
        simp only
        have hx := List.mem_of_find?_eq_some hf
        have hty : (view x).prop "_type" = str T := by
          rw [(hview T x hx).1]; exact hstore T x hx
        obtain ⟨n1, _, _⟩ := prop_str_cases hty
        cases hv : view x <;> first | rfl | exact absurd hv n1
    · have hoth := findDocument_other (t := str T) (i := str I)
        (((store g.1).filter
          (fun x => (g.2.map (fun d => d.prop "_id")).contains (x.prop "_id"))).map view)
        (by
          intro y hy
          obtain ⟨x, hx, rfl⟩ := List.mem_map.1 hy
          have hxm := (List.mem_filter.1 hx).1
          have hty : (view x).prop "_type" = str g.1 := by
            rw [(hview g.1 x hxm).1]; exact hstore g.1 x hxm
          obtain ⟨n1, n2, _⟩ := prop_str_cases hty
          refine ⟨n1, n2, ?_⟩
          rw [hty, strictEq_str]
          simpa using hk)
      rw [hoth]
      simp only
      rw [ih1]
      have hTk : ¬T = g.1 := fun h => hk h.symm
      simp only [List.map_cons, List.mem_cons, hTk, false_or]

/-- Among the documents loaded for `documents`, the search for the `_type` and
`_id` of one of them finds the stored document that has them, if there is one. -/
theorem findDocument_loadedDocuments (view : JSValue → JSValue) (store : Store)
    (hstore : store.WellFormed) (hview : KeepsTypeAndId view store) (docs : List JSValue)
    {d : JSValue} (hd : d ∈ docs) (hdoc : isDocument d = true) :
    findDocument (d.prop "_type") (d.prop "_id") (loadedDocuments view store docs) =
      .ok (match findStored store d with
        | some x => view x
        | none => undefined) := by
  obtain ⟨T, I, hT, _, hI, hname⟩ := isDocument_spec hdoc
  obtain ⟨hnd, hin, hall⟩ := groupByType_spec docs
  obtain ⟨g0, hg0, hk0, hd0⟩ := hall d hd
  rw [hT, hI]
  unfold loadedDocuments
  rw [findDocument_groups view store hstore hview T I (groupByType docs) hnd]
  · have hmem : T ∈ (groupByType docs).map Prod.fst := by
      rw [← hname, ← hk0]
      exact List.mem_map_of_mem Prod.fst hg0
    rw [if_pos hmem]
    simp only [findStored, hname, hI]
  · intro g hg hk
    have : g = g0 := group_unique hnd hg hg0 (by rw [hk, hk0, hname])
    subst this
    rw [← hI]
    exact List.mem_map_of_mem (fun d => d.prop "_id") hd0

/-! ## `_loadDocuments` and `load` -/

theorem documentIds_ok (ds : List JSValue) (h : ∀ d ∈ ds, d ≠ undefined ∧ d ≠ null) :
    documentIds ds = .ok (ds.map (fun d => d.prop "_id")) := by
  induction ds with
  | nil => rfl
  | cons d rest ih =>
    obtain ⟨h1, h2⟩ := h d (List.mem_cons_self _ _)
    have ih1 := ih (fun x hx => h x (List.mem_cons_of_mem _ hx))
    cases d <;> simp only [documentIds, ih1, List.map_cons] <;>
      first | exact absurd rfl h1 | exact absurd rfl h2

theorem isDocument_ne {d : JSValue} (h : isDocument d = true) : d ≠ undefined ∧ d ≠ null := by
  obtain ⟨t, _, ht, _, _, _⟩ := isDocument_spec h
  exact ⟨(prop_str_cases ht).1, (prop_str_cases ht).2.1⟩

theorem loadDocuments_groups (project : Props → JSValue → JSValue) (store : Store)
    (projection : Option Props) (gs : List (String × List JSValue))
    (h : ∀ g ∈ gs, g.1 ≠ "" ∧ ∀ d ∈ g.2, d ≠ undefined ∧ d ≠ null) (acc : List JSValue) :
    forOf (loadGroup project store projection) acc gs =
      .ok (acc ++ gs.flatMap (fun g =>
        ((store g.1).filter
          (fun x => (g.2.map (fun d => d.prop "_id")).contains (x.prop "_id"))).map
          (applyProjection project projection))) := by
  induction gs generalizing acc with
  | nil => simp [forOf]
  | cons g rest ih =>
    obtain ⟨h1, h2⟩ := h g (List.mem_cons_self _ _)
    have hstep : loadGroup project store projection acc g =
        .ok (acc ++ findByIds project (store g.1) (g.2.map (fun d => d.prop "_id")) projection) := by
      simp only [loadGroup, _getCollection, if_neg h1, documentIds_ok g.2 h2]
    simp only [forOf, hstep]
    rw [ih (fun g0 hg0 => h g0 (List.mem_cons_of_mem _ hg0))]
    simp [findByIds, List.flatMap_cons, List.append_assoc]

/-- For documents the store expects, `_loadDocuments` does not fail and returns
the stored documents whose type and `_id` are asked for. -/
theorem loadDocuments_eq (project : Props → JSValue → JSValue) (store : Store)
    (docs : List JSValue) (fields : Option JSValue)
    (hdocs : ∀ d ∈ docs, isDocument d = true) :
    _loadDocuments project store docs fields =
      .ok (loadedDocuments (applyProjection project (fields.map buildProjection)) store docs) := by
  obtain ⟨_, hin, _⟩ := groupByType_spec docs
  unfold _loadDocuments loadedDocuments
  rw [loadDocuments_groups project store (fields.map buildProjection) (groupByType docs)]
  · simp
  · intro g hg
    constructor
    · intro hempty
      obtain ⟨d, hd, hk⟩ := groupByType_key hg
      obtain ⟨t, _, _, hne, _, hname⟩ := isDocument_spec (hdocs d hd)
      rw [hname] at hk
      exact hne (hk.trans hempty)
    · intro d hd
      exact isDocument_ne (hdocs d (hin g hg d hd).1)

theorem mapExcept_ok {α β : Type} {f : α → Except StoreError β} {g : α → β} (xs : List α)
    (h : ∀ x ∈ xs, f x = .ok (g x)) : mapExcept f xs = .ok (xs.map g) := by
  induction xs with
  | nil => rfl
  | cons x rest ih =>
    simp [mapExcept, h x (List.mem_cons_self _ _),
      ih (fun y hy => h y (List.mem_cons_of_mem _ hy))]

theorem mapExcept_error {α β : Type} {f : α → Except StoreError β} {g : α → β}
    (pre : List α) (x : α) (post : List α) {e : StoreError}
    (h : ∀ y ∈ pre, f y = .ok (g y)) (hx : f x = .error e) :
    mapExcept f (pre ++ x :: post) = .error e := by
  induction pre with
  | nil => simp only [List.nil_append, mapExcept, hx]
  | cons y rest ih =>
    simp [mapExcept, h y (List.mem_cons_self _ _),
      ih (fun z hz => h z (List.mem_cons_of_mem _ hz))]

theorem mapExcept_congr {α β : Type} {f g : α → Except StoreError β} (xs : List α)
    (h : ∀ x ∈ xs, f x = g x) : mapExcept f xs = mapExcept g xs := by
  induction xs with
  | nil => rfl
  | cons x rest ih =>
    simp [mapExcept, h x (List.mem_cons_self _ _),
      ih (fun y hy => h y (List.mem_cons_of_mem _ hy))]

/-- What the callback of `load` returns for one reference. -/
theorem loadOne_eq (view : JSValue → JSValue) (store : Store) (hstore : store.WellFormed)
    (hview : KeepsTypeAndId view store) (docs : List JSValue) (throwIfNotFound : Bool)
    {d : JSValue} (hd : d ∈ docs) (hdoc : isDocument d = true) :
    loadOne (loadedDocuments view store docs) throwIfNotFound d =
      match findStored store d with
      | some x => .ok (view x)
      | none =>
        if throwIfNotFound then .error (.documentNotFound (d.prop "_type") (d.prop "_id"))
        else .ok (missed d) := by
  obtain ⟨h1, h2⟩ := isDocument_ne hdoc
  have hfind := findDocument_loadedDocuments view store hstore hview docs hd hdoc
  have hone : loadOne (loadedDocuments view store docs) throwIfNotFound d =
      match findDocument (d.prop "_type") (d.prop "_id") (loadedDocuments view store docs) with
      | .error e => .error e
      | .ok loadedDocument =>
        if truthy loadedDocument then .ok loadedDocument
        else if !throwIfNotFound then
          .ok (obj [("_type", d.prop "_type"), ("_id", d.prop "_id"), ("_missed", bool true)])
        else .error (.documentNotFound (d.prop "_type") (d.prop "_id")) := by
    cases d <;> first | exact absurd rfl h1 | exact absurd rfl h2 | rfl
  rw [hone, hfind]
  cases hf : findStored store d with
  | none =>
    simp only [truthy, Bool.false_eq_true, if_false]
    cases throwIfNotFound <;> simp [missed]
  | some x =>
    simp only
    have hx := List.mem_of_find?_eq_some hf
    have hty : (view x).prop "_type" = str d.typeName := by
      rw [(hview _ x hx).1]; exact hstore _ x hx
    rw [if_pos (prop_str_cases hty).2.2]

/-- The message of the error raised for a reference of type `t` and id `i`. -/
theorem documentNotFound_message (t i : String) :
    (StoreError.documentNotFound (str t) (str i)).message =
      "Document not found (type: \x27" ++ t ++ "\x27, id: \x27" ++ i ++ "\x27)" := by
  simp [StoreError.message, documentNotFoundMessage, toJSString]

/-- The message of the error raised for a new document of type `t` and id `i`
that already exists. -/
theorem documentAlreadyExists_message (t i : String) :
    (StoreError.documentAlreadyExists (str t) (str i)).message =
      "Document already exists (type: \x27" ++ t ++ "\x27, id: \x27" ++ i ++ "\x27)" := by
  simp [StoreError.message, documentAlreadyExistsMessage, toJSString]

theorem exampleStore_wellFormed : exampleStore.WellFormed := by
  intro T x hx
  unfold exampleStore at hx
  by_cases hT : T = "user"
  · subst hT
    simp only [if_true, List.mem_singleton] at hx
    subst hx
    rfl
  · rw [if_neg hT] at hx
    cases hx

theorem keepsTypeAndId_none (project : Props → JSValue → JSValue) (store : Store) :
    KeepsTypeAndId (applyProjection project none) store :=
  fun _ _ _ => ⟨rfl, rfl⟩

/-- C5. For references the store expects, a description `fields` that passes
the argument check and a store whose documents record their collection as
`_type`, `load` answers reference by reference, in the
order of the references: each reference gets the stored document that has its
`_type` and `_id` (as the projection shows it) when there is one; when there is
none it gets `{_type, _id, _missed: true}` if `throwIfNotFound` is false, and
`load` throws `Document not found` for the first such reference if
`throwIfNotFound` is true. -/
theorem load_returns (project : Props → JSValue → JSValue) (store : Store)
    (docs : List JSValue) (fields : Option JSValue) (throwIfNotFound : Bool)
    (hstore : store.WellFormed) (hdocs : ∀ d ∈ docs, isDocument d = true)
    (hfields : checkFields fields = .ok ())
    (hview : KeepsTypeAndId (applyProjection project (fields.map buildProjection)) store) :
    (throwIfNotFound = false →
      load project store docs fields throwIfNotFound =
        .ok (docs.map (fun d =>
          match findStored store d with
          | some x => applyProjection project (fields.map buildProjection) x
          | none => missed d))) ∧
    ((∀ d ∈ docs, findStored store d ≠ none) →
      load project store docs fields throwIfNotFound =
        .ok (docs.map (fun d =>
          match findStored store d with
          | some x => applyProjection project (fields.map buildProjection) x
          | none => missed d))) ∧
    (throwIfNotFound = true →
      ∀ pre d post, docs = pre ++ d :: post → (∀ x ∈ pre, findStored store x ≠ none) →
        findStored store d = none →
        load project store docs fields throwIfNotFound =
          .error (.documentNotFound (d.prop "_type") (d.prop "_id"))) := by
  have hload : load project store docs fields throwIfNotFound =
      mapExcept (fun d =>
        match findStored store d with
        | some x => .ok (applyProjection project (fields.map buildProjection) x)
        | none =>
          if throwIfNotFound then .error (.documentNotFound (d.prop "_type") (d.prop "_id"))
          else .ok (missed d)) docs := by
    unfold load
    rw [hfields]
    simp only
    rw [loadDocuments_eq project store docs fields hdocs]
    exact mapExcept_congr docs (fun d hd =>
      loadOne_eq _ store hstore hview docs throwIfNotFound hd (hdocs d hd))
  refine ⟨?_, ?_, ?_⟩
  · intro hthrow
    rw [hload]
    apply mapExcept_ok
    intro d _
    cases findStored store d with
    | none => simp [hthrow]
    | some x => rfl
  · intro hall
    rw [hload]
    apply mapExcept_ok
    intro d hd
    cases hf : findStored store d with
    | none => exact absurd hf (hall d hd)
    | some x => rfl
  · intro hthrow pre d post hsplit hpre hd
    rw [hload, hsplit]
    apply mapExcept_error (g := fun d =>
      match findStored store d with
      | some x => applyProjection project (fields.map buildProjection) x
      | none => missed d) pre d post
    · intro y hy
      cases hf : findStored store y with
      | none => exact absurd hf (hpre y hy)
      | some x => rfl
    · simp [hd, hthrow]

/-- C5 on an example: loading the stored user `u1` and the unknown user `u2`
with `throwIfNotFound` false returns the stored document and a `_missed`
marker, in that order. -/
theorem load_returns_witness :
    load noProjection exampleStore
        [obj [("_type", str "user"), ("_id", str "u1")],
         obj [("_type", str "user"), ("_id", str "u2")]] none false =
      .ok [obj exampleUser,
           obj [("_type", str "user"), ("_id", str "u2"), ("_missed", bool true)]] :=
  ((load_returns noProjection exampleStore
      [obj [("_type", str "user"), ("_id", str "u1")],
       obj [("_type", str "user"), ("_id", str "u2")]] none false
      exampleStore_wellFormed (by decide) rfl (keepsTypeAndId_none _ _)).1 rfl).trans rfl

/-- With the description `{_type: false}`, whose projection leaves `_type` out,
`load` throws `Document not found` for the stored user `u1`: the documents
returned by the database no longer carry the `_type` that `load` looks for. -/
theorem load_without_type_example :
    load topLevelProjection exampleStore [obj [("_type", str "user"), ("_id", str "u1")]]
        (some (obj [("_type", bool false)])) true =
      .error (.documentNotFound (str "user") (str "u1")) := rfl

/-! ## `delete` -/

theorem typeName_of_prop {v : JSValue} {T : String} (h : v.prop "_type" = str T) :
    v.typeName = T := by
  simp [JSValue.typeName, h, toJSString]

theorem contains_iff_mem (l : List JSValue) (a : JSValue) : l.contains a = true ↔ a ∈ l :=
  List.elem_iff

theorem mem_loadedDocuments {view : JSValue → JSValue} {store : Store} {docs : List JSValue}
    {l : JSValue} :
    l ∈ loadedDocuments view store docs ↔
      ∃ g ∈ groupByType docs, ∃ y ∈ store g.1,
        (g.2.map (fun d => d.prop "_id")).contains (y.prop "_id") = true ∧ l = view y := by
  unfold loadedDocuments
  simp only [List.mem_flatMap, List.mem_map, List.mem_filter]
  constructor
  · rintro ⟨g, hg, y, ⟨hy, hc⟩, rfl⟩
    exact ⟨g, hg, y, hy, hc, rfl⟩
  · rintro ⟨g, hg, y, hy, hc, rfl⟩
    exact ⟨g, hg, y, ⟨hy, hc⟩, rfl⟩

/-- A stored document is among the loaded documents exactly when one of the
references has its type and `_id`. -/
theorem loaded_iff_referenced (view : JSValue → JSValue) (store : Store)
    (hstore : store.WellFormed) (hview : KeepsTypeAndId view store) (docs : List JSValue)
    (T : String) {x : JSValue} (hx : x ∈ store T) :
    (∃ l ∈ loadedDocuments view store docs, l.typeName = T ∧ l.prop "_id" = x.prop "_id") ↔
      (∃ d ∈ docs, d.typeName = T ∧ d.prop "_id" = x.prop "_id") := by
  obtain ⟨_, hin, hall⟩ := groupByType_spec docs
  constructor
  · rintro ⟨l, hl, hlT, hlid⟩
    obtain ⟨g, hg, y, hy, hc, rfl⟩ := mem_loadedDocuments.1 hl
    have hgT : g.1 = T := by
      rw [← hlT]
      exact (typeName_of_prop (by rw [(hview _ y hy).1]; exact hstore _ y hy)).symm
    rw [(hview _ y hy).2] at hlid
    simp only [contains_iff_mem, List.mem_map] at hc
    obtain ⟨d, hd, hdid⟩ := hc
    obtain ⟨hd1, hd2⟩ := hin g hg d hd
    exact ⟨d, hd1, by rw [hd2, hgT], by rw [hdid, hlid]⟩
  · rintro ⟨d, hd, hdT, hdid⟩
    obtain ⟨g, hg, hk, hdg⟩ := hall d hd
    have hgT : g.1 = T := by rw [hk, hdT]
    refine ⟨view x, mem_loadedDocuments.2 ⟨g, hg, x, by rw [hgT]; exact hx, ?_, rfl⟩, ?_, ?_⟩
    · simp only [contains_iff_mem, List.mem_map]
      exact ⟨d, hdg, hdid⟩
    · exact typeName_of_prop (by rw [(hview _ x hx).1]; exact hstore _ x hx)
    · exact (hview _ x hx).2

/-- The loop of `delete` over groups with distinct, non-empty keys does not
fail; it filters the collection of every key and leaves the others alone. -/
theorem deleteGroups_spec (gs : List (String × List JSValue)) :
    ∀ (store : Store), (gs.map Prod.fst).Nodup →
      (∀ g ∈ gs, g.1 ≠ "" ∧ ∀ d ∈ g.2, d ≠ undefined ∧ d ≠ null) →
      (deleteGroups store gs).1 = .ok () ∧
      (∀ g ∈ gs, (deleteGroups store gs).2 g.1 =
        deleteMany (store g.1) (g.2.map (fun d => d.prop "_id"))) ∧
      (∀ T, T ∉ gs.map Prod.fst → (deleteGroups store gs).2 T = store T) := by
  induction gs with
  | nil =>
    intro store _ _
    exact ⟨rfl, fun g hg => (by cases hg), fun _ _ => rfl⟩
  | cons g rest ih =>
    intro store hnd h
    simp only [List.map_cons, List.nodup_cons] at hnd
    obtain ⟨h1, h2⟩ := h g (List.mem_cons_self _ _)
    have hstep : deleteGroups store (g :: rest) =
        deleteGroups (Function.update store g.1
          (deleteMany (store g.1) (g.2.map (fun d => d.prop "_id")))) rest := by
      obtain ⟨k, ds⟩ := g
      simp only [deleteGroups, _getCollection, if_neg h1, documentIds_ok ds h2]
    rw [hstep]
    obtain ⟨i1, i2, i3⟩ := ih (Function.update store g.1
      (deleteMany (store g.1) (g.2.map (fun d => d.prop "_id")))) hnd.2
      (fun g0 hg0 => h g0 (List.mem_cons_of_mem _ hg0))
    refine ⟨i1, ?_, ?_⟩
    · intro g0 hg0
      rcases List.mem_cons.1 hg0 with hg0 | hg0
      · subst hg0
        rw [i3 _ hnd.1, Function.update_same]
      · have hne : g0.1 ≠ g.1 := by
          intro hne
          exact hnd.1 (hne ▸ List.mem_map_of_mem Prod.fst hg0)
        rw [i2 g0 hg0, Function.update_noteq hne]
    · intro T hT
      simp only [List.map_cons, List.mem_cons, not_or] at hT
      rw [i3 T hT.2, Function.update_noteq hT.1]

/-- What the callback of `delete` returns for one reference. -/
theorem deleteOne_eq (view : JSValue → JSValue) (store : Store) (hstore : store.WellFormed)
    (hview : KeepsTypeAndId view store) (docs : List JSValue) (throwIfNotFound : Bool)
    {d : JSValue} (hd : d ∈ docs) (hdoc : isDocument d = true) :
    deleteOne (loadedDocuments view store docs) throwIfNotFound d =
      match findStored store d with
      | some _ => .ok (reference d)
      | none =>
        if throwIfNotFound then .error (.documentNotFound (d.prop "_type") (d.prop "_id"))
        else .ok (missed d) := by
  obtain ⟨h1, h2⟩ := isDocument_ne hdoc
  have hfind := findDocument_loadedDocuments view store hstore hview docs hd hdoc
  have hone : deleteOne (loadedDocuments view store docs) throwIfNotFound d =
      match findDocument (d.prop "_type") (d.prop "_id") (loadedDocuments view store docs) with
      | .error e => .error e
      | .ok existingDocument =>
        if !truthy existingDocument then
          if throwIfNotFound then .error (.documentNotFound (d.prop "_type") (d.prop "_id"))
          else .ok (obj [("_type", d.prop "_type"), ("_id", d.prop "_id"), ("_missed", bool true)])
        else .ok (obj [("_type", d.prop "_type"), ("_id", d.prop "_id")]) := by
    cases d <;> first | exact absurd rfl h1 | exact absurd rfl h2 | rfl
  rw [hone, hfind]
  cases hf : findStored store d with
  | none =>
    simp only [truthy, Bool.not_false, if_true]
    cases throwIfNotFound <;> simp [missed]
  | some x =>
    simp only
    have hx := List.mem_of_find?_eq_some hf
    have hty : (view x).prop "_type" = str d.typeName := by
      rw [(hview _ x hx).1]; exact hstore _ x hx
    rw [(prop_str_cases hty).2.2]
    simp [reference]

/-- The store that `delete` leaves when it does not fail: in every collection,
the documents whose `_id` is the `_id` of a reference of that type are gone. -/
theorem deleteGroups_loaded (view : JSValue → JSValue) (store : Store)
    (hstore : store.WellFormed) (hview : KeepsTypeAndId view store) (docs : List JSValue)
    (hdocs : ∀ d ∈ docs, isDocument d = true) :
    (deleteGroups store (groupByType (loadedDocuments view store docs))).1 = .ok () ∧
    ∀ T, (deleteGroups store (groupByType (loadedDocuments view store docs))).2 T =
      (store T).filter (fun x =>
        !(docs.any (fun d => decide (d.typeName = T) && decide (d.prop "_id" = x.prop "_id")))) := by
  obtain ⟨gnd, gin, gall⟩ := groupByType_spec (loadedDocuments view store docs)
  have hloaded : ∀ l ∈ loadedDocuments view store docs,
      ∃ T, l.prop "_type" = str T ∧ T ≠ "" := by
    intro l hl
    obtain ⟨g, hg, y, hy, _, rfl⟩ := mem_loadedDocuments.1 hl
    refine ⟨g.1, by rw [(hview _ y hy).1]; exact hstore _ y hy, ?_⟩
    obtain ⟨d, hd, hk⟩ := groupByType_key hg
    obtain ⟨t, _, _, hne, _, hname⟩ := isDocument_spec (hdocs d hd)
    rw [← hk, hname]
    exact hne
  obtain ⟨s1, s2, s3⟩ := deleteGroups_spec (groupByType (loadedDocuments view store docs)) store
    gnd (by
      intro g hg
      constructor
      · obtain ⟨l, hl, hk⟩ := groupByType_key hg
        obtain ⟨T, hT, hne⟩ := hloaded l hl
        rw [← hk, typeName_of_prop hT]
        exact hne
      · intro l hl
        obtain ⟨T, hT, _⟩ := hloaded l (gin g hg l hl).1
        exact ⟨(prop_str_cases hT).1, (prop_str_cases hT).2.1⟩)
  refine ⟨s1, ?_⟩
  intro T
  by_cases hkey : T ∈ (groupByType (loadedDocuments view store docs)).map Prod.fst
  · obtain ⟨g, hg, hgT⟩ := List.mem_map.1 hkey
    have := s2 g hg
    rw [hgT] at this
    rw [this]
    unfold deleteMany
    apply List.filter_congr
    intro x hx
    congr 1
    rw [Bool.eq_iff_iff]
    simp only [contains_iff_mem, List.mem_map, List.any_eq_true, Bool.and_eq_true,
      decide_eq_true_eq]
    constructor
    · rintro ⟨l, hl, hlid⟩
      obtain ⟨hl1, hl2⟩ := gin g hg l hl
      obtain ⟨d, hd, hdT, hdid⟩ := (loaded_iff_referenced view store hstore hview docs T hx).1
        ⟨l, hl1, by rw [hl2, hgT], hlid⟩
      exact ⟨d, hd, hdT, hdid⟩
    · rintro ⟨d, hd, hdT, hdid⟩
      obtain ⟨l, hl, hlT, hlid⟩ := (loaded_iff_referenced view store hstore hview docs T hx).2
        ⟨d, hd, hdT, hdid⟩
      obtain ⟨g0, hg0, hk0, hlg0⟩ := gall l hl
      have : g0 = g := group_unique gnd hg0 hg (by rw [hk0, hlT, hgT])
      subst this
      exact ⟨l, hlg0, hlid⟩
  · rw [s3 T hkey]
    symm
    apply List.filter_eq_self.2
    intro x hx
    simp only [Bool.not_eq_true', List.any_eq_false, Bool.and_eq_true, decide_eq_true_eq, not_and]
    intro d hd hdT hdid
    obtain ⟨l, hl, hlT, _⟩ := (loaded_iff_referenced view store hstore hview docs T hx).2
      ⟨d, hd, hdT, hdid⟩
    obtain ⟨g0, hg0, hk0, _⟩ := gall l hl
    exact hkey (List.mem_map.2 ⟨g0, hg0, by rw [hk0, hlT]⟩)

/-- C9. For references the store expects and a store whose documents record
their collection as `_type`, `delete` returns one acknowledgment `{_type, _id}`
per reference, in the order of the references, with `_missed: true` exactly on
those that have no stored document, when `throwIfNotFound` is false or every
reference has a stored document, and it then leaves the store without the
documents the references designate; when `throwIfNotFound` is true it throws
`Document not found` for the first reference without a stored document and
leaves the store as it was. -/
theorem delete_acknowledges (project : Props → JSValue → JSValue) (store : Store)
    (docs : List JSValue) (throwIfNotFound : Bool)
    (hstore : store.WellFormed) (hdocs : ∀ d ∈ docs, isDocument d = true)
    (hview : KeepsTypeAndId
      (applyProjection project (some (buildProjection (obj [])))) store) :
    (throwIfNotFound = false ∨ (∀ d ∈ docs, findStored store d ≠ none) →
      delete project store docs throwIfNotFound =
        (.ok (docs.map (fun d =>
          match findStored store d with
          | some _ => reference d
          | none => missed d)), withoutReferenced store docs)) ∧
    (throwIfNotFound = true →
      ∀ pre d post, docs = pre ++ d :: post → (∀ x ∈ pre, findStored store x ≠ none) →
        findStored store d = none →
        delete project store docs throwIfNotFound =
          (.error (.documentNotFound (d.prop "_type") (d.prop "_id")), store)) := by
  have hload := loadDocuments_eq project store docs (some (obj [])) hdocs
  simp only [Option.map_some'] at hload
  have hacks : mapExcept
      (deleteOne (loadedDocuments (applyProjection project (some (buildProjection (obj []))))
        store docs) throwIfNotFound) docs =
      mapExcept (fun d =>
        match findStored store d with
        | some _ => .ok (reference d)
        | none =>
          if throwIfNotFound then .error (.documentNotFound (d.prop "_type") (d.prop "_id"))
          else .ok (missed d)) docs :=
    mapExcept_congr docs (fun d hd =>
      deleteOne_eq _ store hstore hview docs throwIfNotFound hd (hdocs d hd))
  obtain ⟨g1, g2⟩ := deleteGroups_loaded _ store hstore hview docs hdocs
  refine ⟨?_, ?_⟩
  · intro hcase
    have hok : mapExcept (fun d =>
        match findStored store d with
        | some _ => .ok (reference d)
        | none =>
          if throwIfNotFound then .error (.documentNotFound (d.prop "_type") (d.prop "_id"))
          else .ok (missed d)) docs =
        .ok (docs.map (fun d =>
          match findStored store d with
          | some _ => reference d
          | none => missed d)) := by
      apply mapExcept_ok
      intro d hd
      cases hf : findStored store d with
      | some x => rfl
      | none =>
        rcases hcase with hthrow | hall
        · simp [hthrow]
        · exact absurd hf (hall d hd)
    unfold delete
    rw [hload]
    simp only [hacks, hok]
    generalize hdg : deleteGroups store (groupByType (loadedDocuments
      (applyProjection project (some (buildProjection (obj [])))) store docs)) = dg at g1 g2
    obtain ⟨res, store1⟩ := dg
    simp only at g1 g2
    subst g1
    simp only [Prod.mk.injEq, true_and]
    funext T
    rw [g2 T]
    rfl
  · intro hthrow pre d post hsplit hpre hd
    have herr : mapExcept (fun d =>
        match findStored store d with
        | some _ => .ok (reference d)
        | none =>
          if throwIfNotFound then .error (.documentNotFound (d.prop "_type") (d.prop "_id"))
          else .ok (missed d)) docs =
        .error (.documentNotFound (d.prop "_type") (d.prop "_id")) := by
      rw [hsplit]
      apply mapExcept_error (g := fun d =>
        match findStored store d with
        | some _ => reference d
        | none => missed d) pre d post
      · intro y hy
        cases hf : findStored store y with
        | none => exact absurd hf (hpre y hy)
        | some x => rfl
      · simp [hd, hthrow]
    unfold delete
    rw [hload]
    simp only [hacks, herr]

/-- C9 on an example: deleting the stored user `u1` and the unknown user `u2`
with `throwIfNotFound` false acknowledges both references, the second one as
missed, and empties the collection. -/
theorem delete_acknowledges_witness :
    (delete noProjection exampleStore
        [obj [("_type", str "user"), ("_id", str "u1")],
         obj [("_type", str "user"), ("_id", str "u2")]] false).1 =
      .ok [obj [("_type", str "user"), ("_id", str "u1")],
           obj [("_type", str "user"), ("_id", str "u2"), ("_missed", bool true)]] ∧
    (delete noProjection exampleStore
        [obj [("_type", str "user"), ("_id", str "u1")],
         obj [("_type", str "user"), ("_id", str "u2")]] false).2 "user" = [] := by
  have h := (delete_acknowledges noProjection exampleStore
      [obj [("_type", str "user"), ("_id", str "u1")],
       obj [("_type", str "user"), ("_id", str "u2")]] false
      exampleStore_wellFormed (by decide) (fun _ _ _ => ⟨rfl, rfl⟩)).1 (Or.inl rfl)
  rw [h]
  exact ⟨rfl, rfl⟩

/-! ## `save` -/

theorem forOf_append {σ α : Type} (f : σ → α → Except StoreError σ) (s : σ) (xs ys : List α) :
    forOf f s (xs ++ ys) =
      match forOf f s xs with
      | .error e => .error e
      | .ok s1 => forOf f s1 ys := by
  induction xs generalizing s with
  | nil => rfl
  | cons x rest ih =>
    simp only [List.cons_append, forOf]
    cases f s x with
    | error e => rfl
    | ok s1 => exact ih s1

/-- The loop of `save` that writes the updated documents throws nothing but the
argument error of `_getCollection`. -/
theorem writeGroups_error (gs : List (String × List JSValue)) :
    ∀ (store : Store) (e : StoreError), (writeGroups store gs).1 = .error e →
      ∃ what, e = .argumentError what := by
  induction gs with
  | nil =>
    intro store e h
    cases h
  | cons g rest ih =>
    intro store e h
    obtain ⟨k, ds⟩ := g
    simp only [writeGroups, _getCollection] at h
    by_cases hk : k = ""
    · rw [if_pos hk] at h
      simp only at h
      injection h with h
      exact ⟨_, h.symm⟩
    · rw [if_neg hk] at h
      exact ih _ e h

/-- C10. When `save` throws `Document not found` or `Document already exists`,
whatever the document of the list and its type, nothing has been written: the
store is as it was before the call. -/
theorem save_all_or_nothing (project : Props → JSValue → JSValue) (store : Store)
    (docs : List JSValue) (o : SaveOptions) (type id : JSValue)
    (h : (save project store docs o).1 = .error (.documentNotFound type id) ∨
      (save project store docs o).1 = .error (.documentAlreadyExists type id)) :
    (save project store docs o).2 = store := by
  unfold save at h ⊢
  cases hl : _loadDocuments project store docs none with
  | error e => rfl
  | ok existing =>
    rw [hl] at h
    simp only at h ⊢
    cases hu : _updateDocuments o (arr existing) docs with
    | error e => rfl
    | ok r =>
      rw [hu] at h
      simp only at h ⊢
      generalize hw : writeGroups store (groupByType r.updatedDocuments) = w at h
      obtain ⟨res, store1⟩ := w
      cases res with
      | ok u =>
        simp only at h
        rcases h with h | h <;> cases h
      | error e =>
        simp only at h
        have hwe : (writeGroups store (groupByType r.updatedDocuments)).1 = .error e := by
          rw [hw]
        obtain ⟨what, hwhat⟩ := writeGroups_error _ _ _ hwe
        subst hwhat
        rcases h with h | h <;> cases h

/-- C10 on an example: saving the unknown user `u2` without the `_new` flag
throws `Document not found` and leaves the store as it was. -/
theorem save_all_or_nothing_witness :
    (save noProjection exampleStore [obj [("_type", str "user"), ("_id", str "u2")]] {}).1 =
        .error (.documentNotFound (str "user") (str "u2")) ∧
      (save noProjection exampleStore [obj [("_type", str "user"), ("_id", str "u2")]] {}).2 =
        exampleStore :=
  ⟨rfl, save_all_or_nothing noProjection exampleStore
    [obj [("_type", str "user"), ("_id", str "u2")]] {} (str "user") (str "u2") (Or.inl rfl)⟩

/-- On one of the documents of `save`, the search among the loaded documents is
answered by the store. -/
theorem updateDocumentsStep_loaded (project : Props → JSValue → JSValue) (store : Store)
    (hstore : store.WellFormed) (docs : List JSValue) (o : SaveOptions) (acc : UpdateResult)
    {d : JSValue} (hd : d ∈ docs) (hdoc : isDocument d = true) :
    updateDocumentsStep (_updateDocument o) o
        (arr (loadedDocuments (applyProjection project none) store docs)) acc d =
      saveStep store o acc d := by
  obtain ⟨h1, h2⟩ := isDocument_ne hdoc
  have hfind := findDocument_loadedDocuments (applyProjection project none) store hstore
    (keepsTypeAndId_none project store) docs hd hdoc
  have hstep : updateDocumentsStep (_updateDocument o) o
      (arr (loadedDocuments (applyProjection project none) store docs)) acc d =
      match findDocument (d.prop "_type") (d.prop "_id")
          (loadedDocuments (applyProjection project none) store docs) with
      | .error e => .error e
      | .ok found => updateChecked (_updateDocument o) o acc d found := by
    cases d <;> first | exact absurd rfl h1 | exact absurd rfl h2 | rfl
  rw [hstep, hfind]
  unfold saveStep storedOrUndefined
  cases findStored store d <;> rfl

/-- For documents the store expects, `save` is the loop of `_updateDocuments`
answered by the store, followed by the writes. -/
theorem save_eq (project : Props → JSValue → JSValue) (store : Store)
    (hstore : store.WellFormed) (docs : List JSValue) (o : SaveOptions)
    (hdocs : ∀ d ∈ docs, isDocument d = true) :
    save project store docs o =
      match forOf (saveStep store o) ⟨[], []⟩ docs with
      | .error e => (.error e, store)
      | .ok r =>
        match writeGroups store (groupByType r.updatedDocuments) with
        | (.error e, store1) => (.error e, store1)
        | (.ok _, store1) => (.ok r.acknowledgedDocuments, store1) := by
  unfold save
  rw [loadDocuments_eq project store docs none hdocs, Option.map_none']
  simp only
  rw [_updateDocuments_eq]
  rw [forOf_congr (fun s d hd =>
    updateDocumentsStep_loaded project store hstore docs o s hd (hdocs d hd))]

/-! ### Errors that the options tolerate are never thrown -/

theorem forOf_error {σ α : Type} {f : σ → α → Except StoreError σ} (C : StoreError → Prop)
    (h : ∀ s x e, f s x = .error e → ¬C e) (xs : List α) :
    ∀ (s : σ) (e : StoreError), forOf f s xs = .error e → ¬C e := by
  induction xs with
  | nil => intro s e he; cases he
  | cons x rest ih =>
    intro s e he
    simp only [forOf] at he
    cases hx : f s x with
    | error e1 =>
      rw [hx] at he
      injection he with he
      subst he
      exact h s x _ hx
    | ok s1 =>
      rw [hx] at he
      exact ih s1 e he

theorem findDocument_error {t i : JSValue} (ds : List JSValue) {e : StoreError}
    (h : findDocument t i ds = .error e) : ∃ what, e = .typeError what := by
  induction ds with
  | nil => cases h
  | cons d rest ih =>
    by_cases h1 : d = undefined
    · subst h1
      simp only [findDocument] at h
      injection h with h
      exact ⟨_, h.symm⟩
    · by_cases h2 : d = null
      · subst h2
        simp only [findDocument] at h
        injection h with h
        exact ⟨_, h.symm⟩
      · rw [findDocument_cons h1 h2] at h
        split at h
        · cases h
        · exact ih h

theorem findExisting_error {x t i : JSValue} {e : StoreError}
    (h : findExisting x t i = .error e) : ∃ what, e = .typeError what := by
  cases x <;> simp only [findExisting] at h
  case arr ds => exact findDocument_error ds h
  all_goals first | (cases h; exact ⟨_, rfl⟩) | cases h

/-- The errors of one kind that neither the checks of `_updateDocuments` (under
the options `o`) nor the type checks raise are not raised by `_updateDocument`
and `_updateDocuments` at all. -/
theorem updateAux_error (o : SaveOptions) (C : StoreError → Prop)
    (hfuel : ¬C .outOfFuel) (htype : ∀ what, ¬C (.typeError what))
    (hcheck : ∀ d found e, checkDocument o d found = .error e → ¬C e) (n : Nat) :
    (∀ x f e, updateDocumentAux n o x f = .error e → ¬C e) ∧
    (∀ x ds e, updateDocumentsAux n o x ds = .error e → ¬C e) := by
  induction n with
  | zero =>
    constructor
    · intro x f e h
      simp only [updateDocumentAux] at h
      injection h with h
      subst h
      exact hfuel
    · intro x ds e h
      simp only [updateDocumentsAux] at h
      injection h with h
      subst h
      exact hfuel
  | succ n ih =>
    constructor
    · intro x f e h
      simp only [updateDocumentAux] at h
      split at h
      · injection h with h; subst h; exact htype _
      · injection h with h; subst h; exact htype _
      · split at h
        · rename_i e1 he1
          injection h with h
          subst h
          refine forOf_error C ?_ _ _ _ he1
          intro s entry e2 he2
          unfold updateDocumentStep at he2
          simp only at he2
          split at he2
          · rename_i e3 he3
            injection he2 with he2
            subst he2
            split at he3
            · split at he3
              · rename_i e4 he4
                injection he3 with he3
                subst he3
                exact ih.2 _ _ _ he4
              · cases he3
            · split at he3
              · exact ih.1 _ _ _ he3
              · cases he3
          · split at he2 <;> cases he2
        · cases h
    · intro x ds e h
      simp only [updateDocumentsAux] at h
      refine forOf_error C ?_ _ _ _ h
      intro s d e2 he2
      unfold updateDocumentsStep at he2
      split at he2
      · injection he2 with he2; subst he2; exact htype _
      · injection he2 with he2; subst he2; exact htype _
      · split at he2
        · rename_i e3 he3
          injection he2 with he2
          subst he2
          obtain ⟨what, hw⟩ := findExisting_error he3
          subst hw
          exact htype _
        · unfold updateChecked at he2
          split at he2
          · rename_i e3 he3
            injection he2 with he2
            subst he2
            exact hcheck _ _ _ he3
          · split at he2
            · rename_i e3 he3
              injection he2 with he2
              subst he2
              exact ih.1 _ _ _ he3
            · cases he2

theorem checkDocument_error {o : SaveOptions} {d found : JSValue} {e : StoreError}
    (h : checkDocument o d found = .error e) :
    (e = .documentAlreadyExists (d.prop "_type") (d.prop "_id") ∧ o.throwIfAlreadyExists = true ∧
        truthy found = true ∧ truthy (d.prop "_new") = true) ∨
      (e = .documentNotFound (d.prop "_type") (d.prop "_id") ∧ o.throwIfNotFound = true ∧
        truthy found = false ∧ truthy (d.prop "_new") = false) := by
  unfold checkDocument at h
  simp only at h
  by_cases hf : truthy found = true
  · rw [if_pos hf] at h
    by_cases hn : truthy (d.prop "_new") = true
    · rw [if_pos hn] at h
      by_cases ho : o.throwIfAlreadyExists = true
      · rw [if_pos ho] at h
        injection h with h
        exact Or.inl ⟨h.symm, ho, hf, hn⟩
      · rw [if_neg ho] at h
        cases h
    · rw [if_neg hn] at h
      cases h
  · rw [if_neg hf] at h
    by_cases hn : truthy (d.prop "_new") = true
    · simp only [hn, Bool.not_true, Bool.false_eq_true, if_false] at h
      cases h
    · have hn1 : truthy (d.prop "_new") = false := by simpa using hn
      simp only [hn1, Bool.not_false, if_true] at h
      by_cases ho : o.throwIfNotFound = true
      · rw [if_pos ho] at h
        injection h with h
        exact Or.inr ⟨h.symm, ho, by simpa using hf, hn1⟩
      · rw [if_neg ho] at h
        cases h

theorem forOf_error_mem {σ α : Type} {f : σ → α → Except StoreError σ} (C : StoreError → Prop)
    (xs : List α) (h : ∀ s, ∀ x ∈ xs, ∀ e, f s x = .error e → ¬C e) :
    ∀ (s : σ) (e : StoreError), forOf f s xs = .error e → ¬C e := by
  induction xs with
  | nil => intro s e he; cases he
  | cons x rest ih =>
    intro s e he
    simp only [forOf] at he
    cases hx : f s x with
    | error e1 =>
      rw [hx] at he
      injection he with he
      subst he
      exact h s x (List.mem_cons_self _ _) _ hx
    | ok s1 =>
      rw [hx] at he
      exact ih (fun s y hy => h s y (List.mem_cons_of_mem _ hy)) s1 e he

/-- With the fuel that `_updateDocument` and `_updateDocuments` supply, the
recursion never runs out of fuel. -/
theorem updateAux_enough (o : SaveOptions) (n : Nat) :
    (∀ x f, 2 * depthFields (ownEntries f) + 1 ≤ n →
      updateDocumentAux n o x f ≠ .error .outOfFuel) ∧
    (∀ x ds, 2 * depthList ds + 2 ≤ n → updateDocumentsAux n o x ds ≠ .error .outOfFuel) := by
  induction n with
  | zero => exact ⟨fun _ _ h => by omega, fun _ _ h => by omega⟩
  | succ n ih =>
    constructor
    · intro x f hn h
      simp only [updateDocumentAux] at h
      split at h
      · cases h
      · cases h
      · split at h
        · rename_i e1 he1
          injection h with h
          subst h
          refine forOf_error_mem (fun e => e = .outOfFuel) _ ?_ _ _ he1 rfl
          intro s entry hentry e2 he2 hfuel
          subst hfuel
          have hd := depth_le_depthFields hentry
          unfold updateDocumentStep at he2
          simp only at he2
          split at he2
          · rename_i e3 he3
            injection he2 with he2
            subst he2
            split at he3
            · rename_i xs hxs
              have := fuel_deserialized_docs hxs
              split at he3
              · rename_i e4 he4
                injection he3 with he3
                subst he3
                exact ih.2 _ _ (by omega) he4
              · cases he3
            · split at he3
              · rename_i ht
                have := fuel_deserialized_doc ht
                exact ih.1 _ _ (by omega) he3
              · cases he3
          · split at he2 <;> cases he2
        · cases h
    · intro x ds hn h
      simp only [updateDocumentsAux] at h
      refine forOf_error_mem (fun e => e = .outOfFuel) _ ?_ _ _ h rfl
      intro s d hd e2 he2 hfuel
      subst hfuel
      have h1 := depth_le_depthList hd
      have h2 : depthFields (ownEntries (obj (restFields d))) ≤ depth d :=
        depthFields_restFields_le d
      unfold updateDocumentsStep at he2
      split at he2
      · cases he2
      · cases he2
      · split at he2
        · rename_i e3 he3
          injection he2 with he2
          subst he2
          obtain ⟨what, hw⟩ := findExisting_error he3
          cases hw
        · unfold updateChecked at he2
          split at he2
          · rename_i e3 he3
            injection he2 with he2
            subst he2
            rcases checkDocument_error he3 with ⟨h3, _⟩ | ⟨h3, _⟩ <;> cases h3
          · split at he2
            · rename_i e3 he3
              injection he2 with he2
              subst he2
              exact ih.1 _ _ (by omega) he3
            · cases he2

/-- With `throwIfNotFound` false, `_updateDocument` never throws
`Document not found`, at any depth. -/
theorem updateDocument_tolerates_notFound (o : SaveOptions) (h : o.throwIfNotFound = false)
    (x f : JSValue) (type id : JSValue) :
    _updateDocument o x f ≠ .error (.documentNotFound type id) := by
  intro he
  refine (updateAux_error o (fun e => ∃ t i, e = .documentNotFound t i)
    (by rintro ⟨_, _, h⟩; cases h) (by rintro _ ⟨_, _, h⟩; cases h) ?_ _).1 _ _ _ he ⟨_, _, rfl⟩
  rintro d found e hc ⟨t, i, rfl⟩
  rcases checkDocument_error hc with ⟨h1, _⟩ | ⟨_, h2, _⟩
  · cases h1
  · rw [h] at h2
    cases h2

/-- With `throwIfAlreadyExists` false, `_updateDocument` never throws
`Document already exists`, at any depth. -/
theorem updateDocument_tolerates_alreadyExists (o : SaveOptions)
    (h : o.throwIfAlreadyExists = false) (x f : JSValue) (type id : JSValue) :
    _updateDocument o x f ≠ .error (.documentAlreadyExists type id) := by
  intro he
  refine (updateAux_error o (fun e => ∃ t i, e = .documentAlreadyExists t i)
    (by rintro ⟨_, _, h⟩; cases h) (by rintro _ ⟨_, _, h⟩; cases h) ?_ _).1 _ _ _ he ⟨_, _, rfl⟩
  rintro d found e hc ⟨t, i, rfl⟩
  rcases checkDocument_error hc with ⟨_, h2, _⟩ | ⟨h1, _⟩
  · rw [h] at h2
    cases h2
  · cases h1

/-- The artefact `outOfFuel` of the embedding is never returned by
`_updateDocument`. -/
theorem updateDocument_never_outOfFuel (o : SaveOptions) (x f : JSValue) :
    _updateDocument o x f ≠ .error .outOfFuel :=
  (updateAux_enough o _).1 x f (Nat.le_refl _)

/-- The artefact `outOfFuel` of the embedding is never returned by
`_updateDocuments`. -/
theorem updateDocuments_never_outOfFuel (o : SaveOptions) (x : JSValue) (ds : List JSValue) :
    _updateDocuments o x ds ≠ .error .outOfFuel :=
  (updateAux_enough o _).2 x ds (Nat.le_refl _)

/-! ### The checks and the acknowledgments -/

/-- The four ways in which the checks of `_updateDocuments` let a document
through. -/
theorem checkDocument_ok {o : SaveOptions} {d found ex : JSValue} {ack : Props}
    (h : checkDocument o d found = .ok (ex, ack)) :
    (truthy found = true ∧ truthy (d.prop "_new") = true ∧ o.throwIfAlreadyExists = false ∧
        ex = found ∧
        ack = setProp (("_type", d.prop "_type") :: ("_id", d.prop "_id") :: restFields d)
          "_existed" (bool true)) ∨
    (truthy found = true ∧ truthy (d.prop "_new") = false ∧ ex = found ∧
        ack = ("_type", d.prop "_type") :: ("_id", d.prop "_id") :: restFields d) ∨
    (truthy found = false ∧ truthy (d.prop "_new") = false ∧ o.throwIfNotFound = false ∧
        ex = obj [("_type", d.prop "_type"), ("_id", d.prop "_id")] ∧
        ack = setProp (("_type", d.prop "_type") :: ("_id", d.prop "_id") :: restFields d)
          "_missed" (bool true)) ∨
    (truthy found = false ∧ truthy (d.prop "_new") = true ∧
        ex = obj [("_type", d.prop "_type"), ("_id", d.prop "_id")] ∧
        ack = ("_type", d.prop "_type") :: ("_id", d.prop "_id") :: restFields d) := by
  unfold checkDocument at h
  simp only at h
  by_cases hf : truthy found = true
  · rw [if_pos hf] at h
    by_cases hn : truthy (d.prop "_new") = true
    · rw [if_pos hn] at h
      by_cases ho : o.throwIfAlreadyExists = true
      · rw [if_pos ho] at h
        cases h
      · rw [if_neg ho] at h
        injection h with h
        injection h with h1 h2
        exact Or.inl ⟨hf, hn, by simpa using ho, h1.symm, h2.symm⟩
    · rw [if_neg hn] at h
      injection h with h
      injection h with h1 h2
      exact Or.inr (Or.inl ⟨hf, by simpa using hn, h1.symm, h2.symm⟩)
  · rw [if_neg hf] at h
    have hf1 : truthy found = false := by simpa using hf
    by_cases hn : truthy (d.prop "_new") = true
    · simp only [hn, Bool.not_true, Bool.false_eq_true, if_false] at h
      injection h with h
      injection h with h1 h2
      exact Or.inr (Or.inr (Or.inr ⟨hf1, hn, h1.symm, h2.symm⟩))
    · have hn1 : truthy (d.prop "_new") = false := by simpa using hn
      simp only [hn1, Bool.not_false, if_true] at h
      by_cases ho : o.throwIfNotFound = true
      · rw [if_pos ho] at h
        cases h
      · rw [if_neg ho] at h
        injection h with h
        injection h with h1 h2
        exact Or.inr (Or.inr (Or.inl ⟨hf1, hn1, by simpa using ho, h1.symm, h2.symm⟩))

theorem keys_deleteProp {u : Props} {n k : String} (h : k ∈ (deleteProp u n).map Prod.fst) :
    k ∈ u.map Prod.fst ∧ k ≠ n := by
  induction u with
  | nil => simp [deleteProp] at h
  | cons a rest ih =>
    obtain ⟨k1, w⟩ := a
    by_cases hk : k1 = n
    · simp only [deleteProp, if_pos hk] at h
      exact ⟨List.mem_cons_of_mem _ (ih h).1, (ih h).2⟩
    · simp only [deleteProp, if_neg hk, List.map_cons, List.mem_cons] at h
      rcases h with h | h
      · subst h
        exact ⟨List.mem_cons_self _ _, hk⟩
      · exact ⟨List.mem_cons_of_mem _ (ih h).1, (ih h).2⟩

theorem restFields_keys {d : JSValue} {k : String} (h : k ∈ (restFields d).map Prod.fst) :
    k ≠ "_type" ∧ k ≠ "_new" ∧ k ≠ "_id" := by
  unfold restFields at h
  obtain ⟨h1, c⟩ := keys_deleteProp h
  obtain ⟨h2, b⟩ := keys_deleteProp h1
  obtain ⟨_, a⟩ := keys_deleteProp h2
  exact ⟨a, b, c⟩

theorem lookupProp_restFields (d : JSValue) {k : String}
    (h1 : k ≠ "_type") (h2 : k ≠ "_new") (h3 : k ≠ "_id") :
    lookupProp (restFields d) k = lookupProp (ownEntries d) k := by
  unfold restFields
  rw [lookupProp_deleteProp_ne _ h3, lookupProp_deleteProp_ne _ h2,
    lookupProp_deleteProp_ne _ h1]

/-- A marker of the acknowledgment that the checks did not set is a field of
the input document. -/
theorem lookupProp_base (d : JSValue) {k : String}
    (h1 : k ≠ "_type") (h2 : k ≠ "_new") (h3 : k ≠ "_id") :
    lookupProp (("_type", d.prop "_type") :: ("_id", d.prop "_id") :: restFields d) k =
      lookupProp (ownEntries d) k := by
  simp only [lookupProp, if_neg (Ne.symm h1), if_neg (Ne.symm h3)]
  exact lookupProp_restFields d h1 h2 h3

theorem storedOrUndefined_truthy {store : Store} (hstore : store.WellFormed) {d : JSValue} :
    truthy (storedOrUndefined store d) = true ↔ findStored store d ≠ none := by
  unfold storedOrUndefined
  cases hf : findStored store d with
  | none => simp [truthy]
  | some x =>
    have hx := List.mem_of_find?_eq_some hf
    simp [(prop_str_cases (hstore _ x hx)).2.2]

/-- What the loop of `save` has done when it ends without failure: one
acknowledgment per document, in order, and one updated document per document,
each passing the checks. -/
theorem forOf_saveStep_ok (store : Store) (o : SaveOptions) (docs : List JSValue) :
    ∀ (acc r : UpdateResult), forOf (saveStep store o) acc docs = .ok r →
      r.acknowledgedDocuments = acc.acknowledgedDocuments ++
        docs.map (fun d => obj (acknowledgment o d (storedOrUndefined store d))) ∧
      ∃ us, r.updatedDocuments = acc.updatedDocuments ++ us ∧
        (∀ d ∈ docs, ∃ ex ack u, checkDocument o d (storedOrUndefined store d) = .ok (ex, ack) ∧
          _updateDocument o ex (obj (restFields d)) = .ok u ∧ u ∈ us) ∧
        (∀ u ∈ us, ∃ d ∈ docs, ∃ ex ack,
          checkDocument o d (storedOrUndefined store d) = .ok (ex, ack) ∧
          _updateDocument o ex (obj (restFields d)) = .ok u) := by
  induction docs with
  | nil =>
    intro acc r h
    simp only [forOf] at h
    injection h with h
    subst h
    exact ⟨by simp, [], by simp, fun d hd => (by cases hd), fun u hu => (by cases hu)⟩
  | cons d rest ih =>
    intro acc r h
    simp only [forOf] at h
    cases hs : saveStep store o acc d with
    | error e => rw [hs] at h; cases h
    | ok acc1 =>
      rw [hs] at h
      simp only at h
      obtain ⟨i1, us, i2, i3, i4⟩ := ih acc1 r h
      unfold saveStep updateChecked at hs
      cases hc : checkDocument o d (storedOrUndefined store d) with
      | error e => rw [hc] at hs; cases hs
      | ok p =>
        obtain ⟨ex, ack⟩ := p
        rw [hc] at hs
        simp only at hs
        cases hu : _updateDocument o ex (obj (restFields d)) with
        | error e => rw [hu] at hs; cases hs
        | ok u =>
          rw [hu] at hs
          simp only at hs
          injection hs with hs
          subst hs
          simp only at i1 i2
          refine ⟨?_, u :: us, ?_, ?_, ?_⟩
          · rw [i1]
            simp [acknowledgment, hc]
          · rw [i2]
            simp
          · intro d1 hd1
            rcases List.mem_cons.1 hd1 with hd1 | hd1
            · subst hd1
              exact ⟨ex, ack, u, hc, hu, List.mem_cons_self _ _⟩
            · obtain ⟨ex1, ack1, u1, a, b, c⟩ := i3 d1 hd1
              exact ⟨ex1, ack1, u1, a, b, List.mem_cons_of_mem _ c⟩
          · intro u1 hu1
            rcases List.mem_cons.1 hu1 with hu1 | hu1
            · subst hu1
              exact ⟨d, List.mem_cons_self _ _, ex, ack, hc, hu⟩
            · obtain ⟨d1, a, ex1, ack1, b, c⟩ := i4 u1 hu1
              exact ⟨d1, List.mem_cons_of_mem _ a, ex1, ack1, b, c⟩

/-- The updated document keeps the `_type` and the `_id` of the input document. -/
theorem updated_identity {store : Store} (hstore : store.WellFormed) {o : SaveOptions}
    {d ex u : JSValue} {ack : Props} (hdoc : isDocument d = true)
    (hc : checkDocument o d (storedOrUndefined store d) = .ok (ex, ack))
    (hu : _updateDocument o ex (obj (restFields d)) = .ok u) :
    u.prop "_type" = d.prop "_type" ∧ u.prop "_id" = d.prop "_id" := by
  obtain ⟨T, I, hT, _, hI, hname⟩ := isDocument_spec hdoc
  have hex : ex.prop "_type" = d.prop "_type" ∧ ex.prop "_id" = d.prop "_id" := by
    have hfound : truthy (storedOrUndefined store d) = true →
        (storedOrUndefined store d).prop "_type" = d.prop "_type" ∧
        (storedOrUndefined store d).prop "_id" = d.prop "_id" := by
      intro ht
      unfold storedOrUndefined at ht ⊢
      cases hf : findStored store d with
      | none => rw [hf] at ht; simp [truthy] at ht
      | some x =>
        simp only
        have hx := List.mem_of_find?_eq_some hf
        have hp := List.find?_some hf
        simp only [decide_eq_true_eq] at hp
        exact ⟨by rw [hstore _ x hx, hname, hT], hp⟩
    rcases checkDocument_ok hc with ⟨h1, _, _, h2, _⟩ | ⟨h1, _, h2, _⟩ | ⟨_, _, _, h2, _⟩ |
      ⟨_, _, h2, _⟩
    · rw [h2]; exact hfound h1
    · rw [h2]; exact hfound h1
    · rw [h2]; exact ⟨rfl, rfl⟩
    · rw [h2]; exact ⟨rfl, rfl⟩
  obtain ⟨rs, hrs, hloop⟩ := _updateDocument_ok hu
  subst hrs
  simp only [ownEntries] at hloop
  have hkeep : ∀ k, k = "_type" ∨ k = "_id" → (obj rs).prop k = ex.prop k := by
    intro k hk
    have hnot : k ∉ (restFields d).map Prod.fst := by
      intro hmem
      obtain ⟨a, _, c⟩ := restFields_keys hmem
      rcases hk with hk | hk
      · exact a hk
      · exact c hk
    exact getProp_eq_of_lookupProp_eq (forOf_updateDocumentStep_frame _ _ _ hloop hnot)
  rw [hkeep "_type" (Or.inl rfl), hkeep "_id" (Or.inr rfl)]
  exact hex

/-! ### The writes -/

theorem replaceOne_mem (id r : JSValue) (coll : List JSValue) : r ∈ replaceOne id r coll := by
  induction coll with
  | nil => simp [replaceOne]
  | cons x rest ih =>
    by_cases hx : x.prop "_id" = id
    · simp [replaceOne, hx]
    · simp only [replaceOne, if_neg hx]
      exact List.mem_cons_of_mem _ ih

theorem replaceOne_keeps {id r : JSValue} (hr : r.prop "_id" = id) (coll : List JSValue) :
    ∀ y ∈ coll, ∃ x ∈ replaceOne id r coll, x.prop "_id" = y.prop "_id" := by
  induction coll with
  | nil => intro y hy; cases hy
  | cons x rest ih =>
    intro y hy
    by_cases hx : x.prop "_id" = id
    · simp only [replaceOne, if_pos hx]
      rcases List.mem_cons.1 hy with hy | hy
      · subst hy
        exact ⟨r, List.mem_cons_self _ _, by rw [hr, hx]⟩
      · exact ⟨y, List.mem_cons_of_mem _ hy, rfl⟩
    · simp only [replaceOne, if_neg hx]
      rcases List.mem_cons.1 hy with hy | hy
      · subst hy
        exact ⟨y, List.mem_cons_self _ _, rfl⟩
      · obtain ⟨z, hz, hzid⟩ := ih y hy
        exact ⟨z, List.mem_cons_of_mem _ hz, hzid⟩

theorem bulkWrite_keeps (ds : List JSValue) :
    ∀ (coll : List JSValue), ∀ y ∈ coll, ∃ x ∈ bulkWrite coll ds, x.prop "_id" = y.prop "_id" := by
  induction ds with
  | nil => intro coll y hy; exact ⟨y, hy, rfl⟩
  | cons d rest ih =>
    intro coll y hy
    obtain ⟨z, hz, hzid⟩ := replaceOne_keeps (r := d) rfl coll y hy
    obtain ⟨x, hx, hxid⟩ := ih _ z hz
    exact ⟨x, hx, by rw [hxid, hzid]⟩

/-- After the writes of one collection, every written document has a stored
document with its `_id`. -/
theorem bulkWrite_mem (ds : List JSValue) :
    ∀ (coll : List JSValue), ∀ u ∈ ds, ∃ x ∈ bulkWrite coll ds, x.prop "_id" = u.prop "_id" := by
  induction ds with
  | nil => intro coll u hu; cases hu
  | cons d rest ih =>
    intro coll u hu
    rcases List.mem_cons.1 hu with hu | hu
    · subst hu
      exact bulkWrite_keeps rest _ u (replaceOne_mem _ _ _)
    · exact ih _ u hu

theorem writeGroups_spec (gs : List (String × List JSValue)) :
    ∀ (store : Store), (gs.map Prod.fst).Nodup → (∀ g ∈ gs, g.1 ≠ "") →
      (writeGroups store gs).1 = .ok () ∧
      (∀ g ∈ gs, (writeGroups store gs).2 g.1 = bulkWrite (store g.1) g.2) ∧
      (∀ T, T ∉ gs.map Prod.fst → (writeGroups store gs).2 T = store T) := by
  induction gs with
  | nil =>
    intro store _ _
    exact ⟨rfl, fun g hg => (by cases hg), fun _ _ => rfl⟩
  | cons g rest ih =>
    intro store hnd h
    simp only [List.map_cons, List.nodup_cons] at hnd
    have h1 := h g (List.mem_cons_self _ _)
    have hstep : writeGroups store (g :: rest) =
        writeGroups (Function.update store g.1 (bulkWrite (store g.1) g.2)) rest := by
      obtain ⟨k, ds⟩ := g
      simp only [writeGroups, _getCollection, if_neg h1]
    rw [hstep]
    obtain ⟨i1, i2, i3⟩ := ih (Function.update store g.1 (bulkWrite (store g.1) g.2)) hnd.2
      (fun g0 hg0 => h g0 (List.mem_cons_of_mem _ hg0))
    refine ⟨i1, ?_, ?_⟩
    · intro g0 hg0
      rcases List.mem_cons.1 hg0 with hg0 | hg0
      · subst hg0
        rw [i3 _ hnd.1, Function.update_same]
      · have hne : g0.1 ≠ g.1 := by
          intro hne
          exact hnd.1 (hne ▸ List.mem_map_of_mem Prod.fst hg0)
        rw [i2 g0 hg0, Function.update_noteq hne]
    · intro T hT
      simp only [List.map_cons, List.mem_cons, not_or] at hT
      rw [i3 T hT.2, Function.update_noteq hT.1]

/-! ### What `save` does, document by document -/

theorem saveStep_error {store : Store} {o : SaveOptions} {d : JSValue} {e : StoreError}
    (h : checkDocument o d (storedOrUndefined store d) = .error e) (acc : UpdateResult) :
    saveStep store o acc d = .error e := by
  simp only [saveStep, updateChecked, h]

/-- A document that does not pass the checks makes `save` throw, and throw the
error of that document when the loop goes through the documents before it. -/
theorem save_fails (project : Props → JSValue → JSValue) (store : Store)
    (hstore : store.WellFormed) (o : SaveOptions) (pre : List JSValue) (d : JSValue)
    (post : List JSValue) (hdocs : ∀ x ∈ pre ++ d :: post, isDocument x = true)
    {e : StoreError} (h : checkDocument o d (storedOrUndefined store d) = .error e) :
    (∃ e1, (save project store (pre ++ d :: post) o).1 = .error e1) ∧
    (∀ acks, (save project store pre o).1 = .ok acks →
      save project store (pre ++ d :: post) o = (.error e, store)) := by
  have hpre : ∀ x ∈ pre, isDocument x = true :=
    fun x hx => hdocs x (List.mem_append_left _ hx)
  rw [save_eq project store hstore _ o hdocs, forOf_append]
  constructor
  · cases forOf (saveStep store o) ⟨[], []⟩ pre with
    | error e1 => exact ⟨e1, rfl⟩
    | ok r0 =>
      simp only [forOf, saveStep_error h]
      exact ⟨e, rfl⟩
  · intro acks hacks
    rw [save_eq project store hstore pre o hpre] at hacks
    cases hf : forOf (saveStep store o) ⟨[], []⟩ pre with
    | error e1 => rw [hf] at hacks; cases hacks
    | ok r0 => simp only [forOf, saveStep_error h]

/-- What a successful `save` returns and leaves: the acknowledgments built by
the checks, in the order of the documents, every document passing the checks,
and a stored document for every document of the list. -/
theorem save_ok (project : Props → JSValue → JSValue) (store : Store)
    (hstore : store.WellFormed) (o : SaveOptions) (docs : List JSValue)
    (hdocs : ∀ x ∈ docs, isDocument x = true) {acks : List JSValue}
    (h : (save project store docs o).1 = .ok acks) :
    acks = docs.map (fun d => obj (acknowledgment o d (storedOrUndefined store d))) ∧
    (∀ d ∈ docs, ∃ ex ack, checkDocument o d (storedOrUndefined store d) = .ok (ex, ack)) ∧
    (∀ d ∈ docs, findStored (save project store docs o).2 d ≠ none) := by
  rw [save_eq project store hstore docs o hdocs] at h ⊢
  cases hf : forOf (saveStep store o) ⟨[], []⟩ docs with
  | error e => rw [hf] at h; cases h
  | ok r =>
    rw [hf] at h
    simp only at h ⊢
    obtain ⟨hack, us, hus, hall, hback⟩ := forOf_saveStep_ok store o docs _ r hf
    simp only [List.nil_append] at hack hus
    obtain ⟨gnd, gin, gall⟩ := groupByType_spec r.updatedDocuments
    have hkeys : ∀ g ∈ groupByType r.updatedDocuments, g.1 ≠ "" := by
      intro g hg
      obtain ⟨u, hu, hk⟩ := groupByType_key hg
      rw [hus] at hu
      obtain ⟨d, hd, ex, ack, hc, hupd⟩ := hback u hu
      obtain ⟨t, _, ht, hne, _, _⟩ := isDocument_spec (hdocs d hd)
      rw [← hk, typeName_of_prop (by rw [(updated_identity hstore (hdocs d hd) hc hupd).1, ht])]
      exact hne
    obtain ⟨w1, w2, _⟩ := writeGroups_spec (groupByType r.updatedDocuments) store gnd hkeys
    generalize hw : writeGroups store (groupByType r.updatedDocuments) = w at h w1 w2 ⊢
    obtain ⟨res, store1⟩ := w
    simp only at w1 w2
    subst w1
    simp only at h ⊢
    injection h with h
    refine ⟨by rw [← h, hack], ?_, ?_⟩
    · intro d hd
      obtain ⟨ex, ack, _, hc, _, _⟩ := hall d hd
      exact ⟨ex, ack, hc⟩
    · intro d hd
      obtain ⟨ex, ack, u, hc, hupd, hu⟩ := hall d hd
      obtain ⟨hut, hui⟩ := updated_identity hstore (hdocs d hd) hc hupd
      obtain ⟨g, hg, hk, hug⟩ := gall u (by rw [hus]; exact hu)
      have hname : u.typeName = d.typeName := by
        simp only [JSValue.typeName, hut]
      obtain ⟨x, hx, hxid⟩ := bulkWrite_mem g.2 (store g.1) u hug
      rw [← w2 g hg, hk, hname] at hx
      intro hnone
      unfold findStored at hnone
      have := List.find?_eq_none.1 hnone x hx
      simp only [decide_eq_true_eq] at this
      exact this (by rw [hxid, hui])

theorem save_error_kind (project : Props → JSValue → JSValue) (store : Store)
    (hstore : store.WellFormed) (o : SaveOptions) (docs : List JSValue)
    (hdocs : ∀ x ∈ docs, isDocument x = true) {e : StoreError}
    (h : (save project store docs o).1 = .error e) :
    (∃ what, e = .argumentError what) ∨
    (∃ d found, checkDocument o d found = .error e) ∨
    (∃ x f, _updateDocument o x f = .error e) := by
  rw [save_eq project store hstore docs o hdocs] at h
  cases hf : forOf (saveStep store o) ⟨[], []⟩ docs with
  | error e1 =>
    rw [hf] at h
    simp only at h
    injection h with h
    subst h
    by_contra hcon
    simp only [not_or, not_exists] at hcon
    refine forOf_error (fun e => e = e1) ?_ docs _ _ hf rfl
    intro s d e2 he2 hee
    subst hee
    unfold saveStep updateChecked at he2
    split at he2
    · rename_i e3 he3
      injection he2 with he2
      subst he2
      exact hcon.2.1 _ _ he3
    · split at he2
      · rename_i e3 he3
        injection he2 with he2
        subst he2
        exact hcon.2.2 _ _ he3
      · cases he2
  | ok r =>
    rw [hf] at h
    simp only at h
    generalize hw : writeGroups store (groupByType r.updatedDocuments) = w at h
    obtain ⟨res, store1⟩ := w
    cases res with
    | ok u => cases h
    | error e1 =>
      simp only at h
      injection h with h
      subst h
      exact Or.inl (writeGroups_error _ _ _ (by rw [hw]))

theorem getElem?_acks (o : SaveOptions) (store : Store) (pre : List JSValue) (d : JSValue)
    (post : List JSValue) :
    ((pre ++ d :: post).map
        (fun d => obj (acknowledgment o d (storedOrUndefined store d))))[pre.length]? =
      some (obj (acknowledgment o d (storedOrUndefined store d))) := by
  rw [List.map_append, List.map_cons, List.getElem?_append_right (by simp)]
  simp

theorem checkDocument_alreadyExists {o : SaveOptions} {d found : JSValue}
    (hf : truthy found = true) (hn : truthy (d.prop "_new") = true)
    (ho : o.throwIfAlreadyExists = true) :
    checkDocument o d found = .error (.documentAlreadyExists (d.prop "_type") (d.prop "_id")) := by
  simp [checkDocument, hf, hn, ho]

theorem checkDocument_notFound {o : SaveOptions} {d found : JSValue}
    (hf : truthy found = false) (hn : truthy (d.prop "_new") = false)
    (ho : o.throwIfNotFound = true) :
    checkDocument o d found = .error (.documentNotFound (d.prop "_type") (d.prop "_id")) := by
  simp [checkDocument, hf, hn, ho]

theorem storedOrUndefined_falsy {store : Store} {d : JSValue} (h : findStored store d = none) :
    truthy (storedOrUndefined store d) = false := by
  simp [storedOrUndefined, h, truthy]


/-! ### When `save` returns -/

/-- The document that the checks hand to `_updateDocument` is the stored
document, or the fresh `{_type, _id}` when there is none. -/
theorem checkDocument_existing {store : Store} (hstore : store.WellFormed) {o : SaveOptions}
    {d ex : JSValue} {ack : Props}
    (h : checkDocument o d (storedOrUndefined store d) = .ok (ex, ack)) :
    ex = existingOrFresh store d := by
  have ht := storedOrUndefined_truthy hstore (d := d)
  have hyes : truthy (storedOrUndefined store d) = true →
      storedOrUndefined store d = existingOrFresh store d := by
    intro a
    have hne := ht.1 a
    unfold existingOrFresh storedOrUndefined
    cases hf : findStored store d with
    | none => exact absurd hf hne
    | some x => rfl
  have hno : truthy (storedOrUndefined store d) = false →
      obj [("_type", d.prop "_type"), ("_id", d.prop "_id")] = existingOrFresh store d := by
    intro a
    have hnone : findStored store d = none := by
      by_contra hne
      rw [ht.2 hne] at a
      cases a
    simp only [existingOrFresh, hnone]
  rcases checkDocument_ok h with ⟨a, _, _, e, _⟩ | ⟨a, _, e, _⟩ | ⟨a, _, _, e, _⟩ | ⟨a, _, e, _⟩
  · rw [e]; exact hyes a
  · rw [e]; exact hyes a
  · rw [e]; exact hno a
  · rw [e]; exact hno a

/-- A document that passes the checks is neither flagged `_new` while stored
and not tolerated, nor missing without the flag `_new` and not tolerated. -/
theorem checkDocument_ok_passes {store : Store} (hstore : store.WellFormed) {o : SaveOptions}
    {d ex : JSValue} {ack : Props}
    (h : checkDocument o d (storedOrUndefined store d) = .ok (ex, ack)) :
    ¬(truthy (d.prop "_new") = true ∧ findStored store d ≠ none ∧
        o.throwIfAlreadyExists = true) ∧
      ¬(truthy (d.prop "_new") = false ∧ findStored store d = none ∧
        o.throwIfNotFound = true) := by
  have ht := storedOrUndefined_truthy hstore (d := d)
  constructor
  · rintro ⟨h1, h2, h3⟩
    rw [checkDocument_alreadyExists (ht.2 h2) h1 h3] at h
    cases h
  · rintro ⟨h1, h2, h3⟩
    rw [checkDocument_notFound (storedOrUndefined_falsy h2) h1 h3] at h
    cases h

/-- A document that is neither flagged `_new` while stored and not tolerated,
nor missing without the flag `_new` and not tolerated, passes the checks. -/
theorem checkDocument_passes {store : Store} (hstore : store.WellFormed) (o : SaveOptions)
    (d : JSValue)
    (h1 : ¬(truthy (d.prop "_new") = true ∧ findStored store d ≠ none ∧
        o.throwIfAlreadyExists = true))
    (h2 : ¬(truthy (d.prop "_new") = false ∧ findStored store d = none ∧
        o.throwIfNotFound = true)) :
    ∃ ack, checkDocument o d (storedOrUndefined store d) = .ok (existingOrFresh store d, ack) := by
  have ht := storedOrUndefined_truthy hstore (d := d)
  cases hc : checkDocument o d (storedOrUndefined store d) with
  | error e =>
    rcases checkDocument_error hc with ⟨_, a, b, c⟩ | ⟨_, a, b, c⟩
    · exact absurd ⟨c, ht.1 b, a⟩ h1
    · refine absurd ⟨c, ?_, a⟩ h2
      by_contra hne
      rw [ht.2 hne] at b
      cases b
  | ok p =>
    obtain ⟨ex, ack⟩ := p
    rw [checkDocument_existing hstore hc]
    exact ⟨ack, rfl⟩

/-- The loop of `save` ends without failure when every document passes the
checks and has its fields merged without failure. -/
theorem forOf_saveStep_succeeds (store : Store) (o : SaveOptions) (docs : List JSValue)
    (h : ∀ d ∈ docs, ∃ ex ack u, checkDocument o d (storedOrUndefined store d) = .ok (ex, ack) ∧
      _updateDocument o ex (obj (restFields d)) = .ok u) :
    ∀ acc, ∃ r, forOf (saveStep store o) acc docs = .ok r := by
  induction docs with
  | nil => intro acc; exact ⟨acc, rfl⟩
  | cons d rest ih =>
    intro acc
    obtain ⟨ex, ack, u, hc, hu⟩ := h d (List.mem_cons_self _ _)
    simp only [forOf, saveStep, updateChecked, hc, hu]
    exact ih (fun x hx => h x (List.mem_cons_of_mem _ hx)) _

/-- Once the loop of `save` has ended without failure, the writes do not fail:
`save` returns the acknowledgments and leaves the store that the writes build. -/
theorem save_of_loop (project : Props → JSValue → JSValue) (store : Store)
    (hstore : store.WellFormed) (o : SaveOptions) (docs : List JSValue)
    (hdocs : ∀ x ∈ docs, isDocument x = true) {r : UpdateResult}
    (hf : forOf (saveStep store o) ⟨[], []⟩ docs = .ok r) :
    save project store docs o =
      (.ok r.acknowledgedDocuments, (writeGroups store (groupByType r.updatedDocuments)).2) ∧
    ((groupByType r.updatedDocuments).map Prod.fst).Nodup ∧
    (∀ g ∈ groupByType r.updatedDocuments,
      (writeGroups store (groupByType r.updatedDocuments)).2 g.1 = bulkWrite (store g.1) g.2) := by
  obtain ⟨_, us, hus, _, hback⟩ := forOf_saveStep_ok store o docs _ r hf
  simp only [List.nil_append] at hus
  obtain ⟨gnd, _, _⟩ := groupByType_spec r.updatedDocuments
  have hkeys : ∀ g ∈ groupByType r.updatedDocuments, g.1 ≠ "" := by
    intro g hg
    obtain ⟨u, hu, hk⟩ := groupByType_key hg
    rw [hus] at hu
    obtain ⟨d, hd, ex, ack, hc, hupd⟩ := hback u hu
    obtain ⟨t, _, ht, hne, _, _⟩ := isDocument_spec (hdocs d hd)
    rw [← hk, typeName_of_prop (by rw [(updated_identity hstore (hdocs d hd) hc hupd).1, ht])]
    exact hne
  obtain ⟨w1, w2, _⟩ := writeGroups_spec (groupByType r.updatedDocuments) store gnd hkeys
  refine ⟨?_, gnd, w2⟩
  rw [save_eq project store hstore docs o hdocs, hf]
  simp only
  generalize hw : writeGroups store (groupByType r.updatedDocuments) = w at w1
  obtain ⟨res, store1⟩ := w
  simp only at w1
  subst w1
  rfl

/-- For documents the store expects, `save` returns exactly when every document
of the list passes the two checks and has its fields merged without failure. -/
theorem save_succeeds_iff (project : Props → JSValue → JSValue) (store : Store)
    (hstore : store.WellFormed) (o : SaveOptions) (docs : List JSValue)
    (hdocs : ∀ x ∈ docs, isDocument x = true) :
    (∃ acks, (save project store docs o).1 = .ok acks) ↔
      ∀ x ∈ docs,
        ¬(truthy (x.prop "_new") = true ∧ findStored store x ≠ none ∧
          o.throwIfAlreadyExists = true) ∧
        ¬(truthy (x.prop "_new") = false ∧ findStored store x = none ∧
          o.throwIfNotFound = true) ∧
        ∃ u, mergeInto store o x = .ok u := by
  constructor
  · rintro ⟨acks, h⟩ x hx
    rw [save_eq project store hstore docs o hdocs] at h
    cases hf : forOf (saveStep store o) ⟨[], []⟩ docs with
    | error e => rw [hf] at h; cases h
    | ok r =>
      obtain ⟨_, us, _, hall, _⟩ := forOf_saveStep_ok store o docs _ r hf
      obtain ⟨ex, ack, u, hc, hu, _⟩ := hall x hx
      obtain ⟨a, b⟩ := checkDocument_ok_passes hstore hc
      refine ⟨a, b, u, ?_⟩
      rw [checkDocument_existing hstore hc] at hu
      exact hu
  · intro h
    have hloop : ∀ d ∈ docs, ∃ ex ack u,
        checkDocument o d (storedOrUndefined store d) = .ok (ex, ack) ∧
        _updateDocument o ex (obj (restFields d)) = .ok u := by
      intro d hd
      obtain ⟨a, b, u, hu⟩ := h d hd
      obtain ⟨ack, hc⟩ := checkDocument_passes hstore o d a b
      exact ⟨_, ack, u, hc, hu⟩
    obtain ⟨r, hr⟩ := forOf_saveStep_succeeds store o docs hloop ⟨[], []⟩
    exact ⟨_, by rw [(save_of_loop project store hstore o docs hdocs hr).1]⟩

/-! ### The document that `save` leaves in the store -/

theorem replaceOne_find (i : JSValue) {r : JSValue} (coll : List JSValue) :
    (replaceOne (r.prop "_id") r coll).find? (fun x => x.prop "_id" = i) =
      if r.prop "_id" = i then some r else coll.find? (fun x => x.prop "_id" = i) := by
  induction coll with
  | nil =>
    by_cases hr : r.prop "_id" = i
    · simp [replaceOne, hr]
    · simp [replaceOne, hr]
  | cons x rest ih =>
    by_cases hx : x.prop "_id" = r.prop "_id"
    · simp only [replaceOne, if_pos hx]
      by_cases hr : r.prop "_id" = i
      · simp [hr]
      · have hxi : ¬x.prop "_id" = i := by rw [hx]; exact hr
        simp [hr, hxi]
    · simp only [replaceOne, if_neg hx]
      by_cases hxi : x.prop "_id" = i
      · have hr : ¬r.prop "_id" = i := by
          intro hr
          exact hx (by rw [hxi, hr])
        simp [hxi, hr]
      · rw [List.find?_cons_of_neg _ (by simpa using hxi), ih,
          List.find?_cons_of_neg _ (by simpa using hxi)]

/-- After the writes of one collection, the document found under an `_id` that
one of the written documents has is one of the written documents. -/
theorem bulkWrite_find (i : JSValue) (Q : JSValue → Prop) (ds : List JSValue) :
    ∀ (coll : List JSValue),
      ((∃ u ∈ ds, u.prop "_id" = i) ∨
        ∃ v, Q v ∧ coll.find? (fun x => x.prop "_id" = i) = some v) →
      (∀ u ∈ ds, u.prop "_id" = i → Q u) →
      ∃ v, Q v ∧ (bulkWrite coll ds).find? (fun x => x.prop "_id" = i) = some v := by
  induction ds with
  | nil =>
    intro coll h _
    rcases h with ⟨u, hu, _⟩ | h
    · cases hu
    · exact h
  | cons d rest ih =>
    intro coll h hQ
    have hstep : bulkWrite coll (d :: rest) = bulkWrite (replaceOne (d.prop "_id") d coll) rest :=
      rfl
    rw [hstep]
    apply ih _ _ (fun u hu => hQ u (List.mem_cons_of_mem _ hu))
    by_cases hd : d.prop "_id" = i
    · exact Or.inr ⟨d, hQ d (List.mem_cons_self _ _) hd, by rw [replaceOne_find, if_pos hd]⟩
    · rcases h with ⟨u, hu, hui⟩ | ⟨v, hv, hfind⟩
      · rcases List.mem_cons.1 hu with hu | hu
        · subst hu
          exact absurd hui hd
        · exact Or.inl ⟨u, hu, hui⟩
      · exact Or.inr ⟨v, hv, by rw [replaceOne_find, if_neg hd]; exact hfind⟩

/-- After a `save` that returns, the store holds, for each document of the list,
a document that `_updateDocument` computed for a document of the list with the
same `_type` and `_id`. -/
theorem save_stored (project : Props → JSValue → JSValue) (store : Store)
    (hstore : store.WellFormed) (o : SaveOptions) (docs : List JSValue)
    (hdocs : ∀ x ∈ docs, isDocument x = true) {acks : List JSValue}
    (h : (save project store docs o).1 = .ok acks) {d : JSValue} (hd : d ∈ docs) :
    ∃ y ∈ docs, y.prop "_type" = d.prop "_type" ∧ y.prop "_id" = d.prop "_id" ∧
      ∃ u, mergeInto store o y = .ok u ∧ findStored (save project store docs o).2 d = some u := by
  have hcopy := h
  rw [save_eq project store hstore docs o hdocs] at hcopy
  cases hf : forOf (saveStep store o) ⟨[], []⟩ docs with
  | error e => rw [hf] at hcopy; cases hcopy
  | ok r =>
    obtain ⟨hsave, gnd, hwrite⟩ := save_of_loop project store hstore o docs hdocs hf
    obtain ⟨_, us, hus, hall, hback⟩ := forOf_saveStep_ok store o docs _ r hf
    simp only [List.nil_append] at hus
    obtain ⟨_, gin, gall⟩ := groupByType_spec r.updatedDocuments
    obtain ⟨ex, ack, u, hc, hupd, hu⟩ := hall d hd
    obtain ⟨hut, hui⟩ := updated_identity hstore (hdocs d hd) hc hupd
    obtain ⟨g, hg, hk, hug⟩ := gall u (by rw [hus]; exact hu)
    have hname : g.1 = d.typeName := by
      rw [hk]
      simp only [JSValue.typeName, hut]
    obtain ⟨T, I, hT, _, hI, hTn⟩ := isDocument_spec (hdocs d hd)
    have hfind := bulkWrite_find (d.prop "_id")
      (fun v => ∃ y ∈ docs, y.prop "_type" = d.prop "_type" ∧ y.prop "_id" = d.prop "_id" ∧
        mergeInto store o y = .ok v) g.2 (store g.1) (Or.inl ⟨u, hug, hui⟩)
      (by
        intro v hv hvi
        obtain ⟨hvm, hvn⟩ := gin g hg v hv
        rw [hus] at hvm
        obtain ⟨y, hy, ey, acky, hcy, hupy⟩ := hback v hvm
        obtain ⟨hyt, hyi⟩ := updated_identity hstore (hdocs y hy) hcy hupy
        obtain ⟨Ty, Iy, hTy, _, hIy, hTyn⟩ := isDocument_spec (hdocs y hy)
        refine ⟨y, hy, ?_, by rw [← hyi, hvi], ?_⟩
        · have h1 : v.typeName = Ty := by
            simp only [JSValue.typeName, hyt, hTy, toJSString]
          have h2 : Ty = T := by rw [← h1, hvn, hname, hTn]
          rw [hTy, hT, h2]
        · rw [checkDocument_existing hstore hcy] at hupy
          exact hupy)
    obtain ⟨v, ⟨y, hy, hyt, hyi, hym⟩, hv⟩ := hfind
    refine ⟨y, hy, hyt, hyi, v, hym, ?_⟩
    rw [hsave]
    simp only [findStored]
    rw [← hname, hwrite g hg]
    exact hv

/-! ### Where the errors of `save` come from -/

theorem forOf_error_exists {σ α : Type} {f : σ → α → Except StoreError σ} (xs : List α) :
    ∀ (s : σ) (e : StoreError), forOf f s xs = .error e → ∃ x ∈ xs, ∃ s1, f s1 x = .error e := by
  induction xs with
  | nil => intro s e he; cases he
  | cons x rest ih =>
    intro s e he
    simp only [forOf] at he
    cases hx : f s x with
    | error e1 =>
      rw [hx] at he
      injection he with he
      subst he
      exact ⟨x, List.mem_cons_self _ _, s, hx⟩
    | ok s1 =>
      rw [hx] at he
      obtain ⟨y, hy, s2, h2⟩ := ih s1 e he
      exact ⟨y, List.mem_cons_of_mem _ hy, s2, h2⟩

/-- A step of the loop of `_updateDocument` fails only through one of the two
nested calls. -/
theorem updateDocumentStep_error {F : JSValue → JSValue → Except StoreError JSValue}
    {Fs : JSValue → List JSValue → Except StoreError UpdateResult} {s : Props}
    {entry : String × JSValue} {e : StoreError}
    (h : updateDocumentStep F Fs s entry = .error e) :
    (∃ xs, deserializeValue entry.2 = arr xs ∧ Fs (getProp s entry.1) xs = .error e) ∨
    ((∀ xs, deserializeValue entry.2 ≠ arr xs) ∧ typeofObject (deserializeValue entry.2) = true ∧
      F (getProp s entry.1) (deserializeValue entry.2) = .error e) := by
  unfold updateDocumentStep at h
  simp only at h
  split at h
  · rename_i e3 he3
    injection h with h
    subst h
    split at he3
    · rename_i xs hxs
      split at he3
      · rename_i e4 he4
        injection he3 with he3
        subst he3
        exact Or.inl ⟨xs, hxs, he4⟩
      · cases he3
    · rename_i hnot
      split at he3
      · rename_i ht
        exact Or.inr ⟨fun xs hxs => hnot xs hxs, ht, he3⟩
      · cases he3
  · split at h <;> cases h

theorem mem_nestedAux_arr {n : Nat} {f d : JSValue} {entry : String × JSValue}
    {xs : List JSValue} (he : entry ∈ ownEntries f) (hv : deserializeValue entry.2 = arr xs)
    (hd : d ∈ nestedListAux n xs) : d ∈ nestedAux (n + 1) f := by
  simp only [nestedAux, List.mem_flatMap]
  refine ⟨entry, he, ?_⟩
  rw [hv]
  exact hd

theorem mem_nestedAux_record {n : Nat} {f d : JSValue} {entry : String × JSValue}
    (he : entry ∈ ownEntries f) (hv : ∀ xs, deserializeValue entry.2 ≠ arr xs)
    (ht : typeofObject (deserializeValue entry.2) = true)
    (hd : d ∈ nestedAux n (deserializeValue entry.2)) : d ∈ nestedAux (n + 1) f := by
  simp only [nestedAux, List.mem_flatMap]
  refine ⟨entry, he, ?_⟩
  cases hdv : deserializeValue entry.2 with
  | arr xs => exact absurd hdv (hv xs)
  | _ =>
    rw [hdv] at ht hd
    simp only [ht, if_true]
    exact hd

/-- An error of `_updateDocument` or `_updateDocuments` that is not a type error
is thrown by the checks of `_updateDocuments`, on one of the nested documents. -/
theorem updateAux_error_nested (o : SaveOptions) (n : Nat) :
    (∀ x f e, updateDocumentAux n o x f = .error e →
      e = .outOfFuel ∨ (∃ what, e = .typeError what) ∨
        ∃ d ∈ nestedAux n f, ∃ found, checkDocument o d found = .error e) ∧
    (∀ x ds e, updateDocumentsAux n o x ds = .error e →
      e = .outOfFuel ∨ (∃ what, e = .typeError what) ∨
        ∃ d ∈ nestedListAux n ds, ∃ found, checkDocument o d found = .error e) := by
  induction n with
  | zero =>
    constructor
    · intro x f e h
      simp only [updateDocumentAux] at h
      injection h with h
      exact Or.inl h.symm
    · intro x ds e h
      simp only [updateDocumentsAux] at h
      injection h with h
      exact Or.inl h.symm
  | succ n ih =>
    constructor
    · intro x f e h
      simp only [updateDocumentAux] at h
      split at h
      · injection h with h; exact Or.inr (Or.inl ⟨_, h.symm⟩)
      · injection h with h; exact Or.inr (Or.inl ⟨_, h.symm⟩)
      · split at h
        · rename_i e1 he1
          injection h with h
          subst h
          obtain ⟨entry, hentry, s, hs⟩ := forOf_error_exists _ _ _ he1
          rcases updateDocumentStep_error hs with ⟨xs, hxs, herr⟩ | ⟨hnot, ht, herr⟩
          · rcases ih.2 _ _ _ herr with hfuel | htype | ⟨d, hd, found, hc⟩
            · exact Or.inl hfuel
            · exact Or.inr (Or.inl htype)
            · exact Or.inr (Or.inr ⟨d, mem_nestedAux_arr hentry hxs hd, found, hc⟩)
          · rcases ih.1 _ _ _ herr with hfuel | htype | ⟨d, hd, found, hc⟩
            · exact Or.inl hfuel
            · exact Or.inr (Or.inl htype)
            · exact Or.inr (Or.inr ⟨d, mem_nestedAux_record hentry hnot ht hd, found, hc⟩)
        · cases h
    · intro x ds e h
      simp only [updateDocumentsAux] at h
      obtain ⟨d, hd, s, hs⟩ := forOf_error_exists _ _ _ h
      unfold updateDocumentsStep at hs
      split at hs
      · injection hs with hs; exact Or.inr (Or.inl ⟨_, hs.symm⟩)
      · injection hs with hs; exact Or.inr (Or.inl ⟨_, hs.symm⟩)
      · split at hs
        · rename_i e3 he3
          injection hs with hs
          subst hs
          exact Or.inr (Or.inl (findExisting_error he3))
        · unfold updateChecked at hs
          split at hs
          · rename_i e3 he3
            injection hs with hs
            subst hs
            refine Or.inr (Or.inr ⟨d, ?_, _, he3⟩)
            simp only [nestedListAux]
            exact List.mem_append_left _ hd
          · split at hs
            · rename_i e3 he3
              injection hs with hs
              subst hs
              rcases ih.1 _ _ _ he3 with hfuel | htype | ⟨d1, hd1, found, hc⟩
              · exact Or.inl hfuel
              · exact Or.inr (Or.inl htype)
              · refine Or.inr (Or.inr ⟨d1, ?_, found, hc⟩)
                simp only [nestedListAux]
                exact List.mem_append_right _ (List.mem_flatMap.2 ⟨d, hd, hd1⟩)
            · cases hs

/-- When the merge of the fields of a document fails, and not by a type error,
the error is thrown by the checks on an element of one of its array fields. -/
theorem updateDocument_error_nested {o : SaveOptions} {ex d : JSValue} {e : StoreError}
    (h : _updateDocument o ex (obj (restFields d)) = .error e) :
    (∃ what, e = .typeError what) ∨
      ∃ x ∈ nestedDocuments d, ∃ found, checkDocument o x found = .error e := by
  have hne := updateDocument_never_outOfFuel o ex (obj (restFields d))
  rcases (updateAux_error_nested o _).1 _ _ _ h with hfuel | htype | hnested
  · subst hfuel
    exact absurd h hne
  · exact Or.inl htype
  · exact Or.inr hnested

/-- The errors of `save`, for documents the store expects: a type error, or the
error of a check, on a document of the list or on an element of an array field
of a document of the list. -/
theorem save_error_source (project : Props → JSValue → JSValue) (store : Store)
    (hstore : store.WellFormed) (o : SaveOptions) (docs : List JSValue)
    (hdocs : ∀ x ∈ docs, isDocument x = true) {e : StoreError}
    (h : (save project store docs o).1 = .error e) :
    (∃ what, e = .typeError what) ∨
    (∃ d ∈ docs, checkDocument o d (storedOrUndefined store d) = .error e) ∨
    (∃ d ∈ docs, ∃ x ∈ nestedDocuments d, ∃ found, checkDocument o x found = .error e) := by
  rw [save_eq project store hstore docs o hdocs] at h
  cases hf : forOf (saveStep store o) ⟨[], []⟩ docs with
  | error e1 =>
    rw [hf] at h
    simp only at h
    injection h with h
    subst h
    obtain ⟨d, hd, s, hs⟩ := forOf_error_exists _ _ _ hf
    unfold saveStep updateChecked at hs
    split at hs
    · rename_i e3 he3
      injection hs with hs
      subst hs
      exact Or.inr (Or.inl ⟨d, hd, he3⟩)
    · split at hs
      · rename_i e3 he3
        injection hs with hs
        subst hs
        rcases updateDocument_error_nested he3 with htype | hnested
        · exact Or.inl htype
        · exact Or.inr (Or.inr ⟨d, hd, hnested⟩)
      · cases hs
  | ok r =>
    have hsave := (save_of_loop project store hstore o docs hdocs hf).1
    rw [← save_eq project store hstore docs o hdocs, hsave] at h
    cases h

/-! ### Fields without arrays are merged without failure -/

theorem forOf_ok_of_steps {σ α : Type} {f : σ → α → Except StoreError σ} (xs : List α)
    (h : ∀ s, ∀ x ∈ xs, ∃ s1, f s x = .ok s1) : ∀ s, ∃ s1, forOf f s xs = .ok s1 := by
  induction xs with
  | nil => intro s; exact ⟨s, rfl⟩
  | cons x rest ih =>
    intro s
    obtain ⟨s1, hs1⟩ := h s x (List.mem_cons_self _ _)
    simp only [forOf, hs1]
    exact ih (fun s y hy => h s y (List.mem_cons_of_mem _ hy)) s1

theorem noArrays_of_mem {fs : Props} {e : String × JSValue}
    (h : noArraysFields fs = true) (he : e ∈ fs) : noArrays e.2 = true := by
  induction fs with
  | nil => cases he
  | cons a rest ih =>
    obtain ⟨k, w⟩ := a
    simp only [noArraysFields, Bool.and_eq_true] at h
    rcases List.mem_cons.1 he with he | he
    · subst he
      exact h.1
    · exact ih h.2 he

theorem noArraysFields_of_forall {fs : Props} (h : ∀ e ∈ fs, noArrays e.2 = true) :
    noArraysFields fs = true := by
  induction fs with
  | nil => rfl
  | cons a rest ih =>
    obtain ⟨k, w⟩ := a
    simp only [noArraysFields, Bool.and_eq_true]
    exact ⟨h (k, w) (List.mem_cons_self _ _), ih (fun e he => h e (List.mem_cons_of_mem _ he))⟩

theorem mem_deleteProp {u : Props} {n : String} {e : String × JSValue}
    (h : e ∈ deleteProp u n) : e ∈ u := by
  induction u with
  | nil => simp [deleteProp] at h
  | cons a rest ih =>
    obtain ⟨k, w⟩ := a
    by_cases hk : k = n
    · simp only [deleteProp, if_pos hk] at h
      exact List.mem_cons_of_mem _ (ih h)
    · simp only [deleteProp, if_neg hk] at h
      rcases List.mem_cons.1 h with h | h
      · exact h ▸ List.mem_cons_self _ _
      · exact List.mem_cons_of_mem _ (ih h)

theorem mem_indexedFrom {xs : List JSValue} {i : Nat} {e : String × JSValue}
    (h : e ∈ indexedFrom i xs) : e.2 ∈ xs := by
  induction xs generalizing i with
  | nil => simp [indexedFrom] at h
  | cons x rest ih =>
    simp only [indexedFrom] at h
    rcases List.mem_cons.1 h with h | h
    · subst h
      exact List.mem_cons_self _ _
    · exact List.mem_cons_of_mem _ (ih h)

/-- The fields `restFields d` of a value without arrays hold no array. -/
theorem noArraysFields_restFields {d : JSValue} (h : noArrays d = true) :
    noArraysFields (restFields d) = true := by
  apply noArraysFields_of_forall
  intro e he
  have hmem : e ∈ ownEntries d := mem_deleteProp (mem_deleteProp (mem_deleteProp he))
  cases d with
  | obj fs => exact noArrays_of_mem (by simpa [noArrays] using h) hmem
  | arr xs => simp [noArrays] at h
  | str s =>
    simp only [ownEntries] at hmem
    have := mem_indexedFrom hmem
    simp only [List.mem_map] at this
    obtain ⟨c, _, hc⟩ := this
    rw [← hc]
    rfl
  | _ => simp [ownEntries] at hmem

/-- A step of the loop of `_updateDocument` succeeds when its value is not an
array and the nested call, if there is one, succeeds. -/
theorem updateDocumentStep_ok_of {F : JSValue → JSValue → Except StoreError JSValue}
    {Fs : JSValue → List JSValue → Except StoreError UpdateResult} (s : Props)
    (entry : String × JSValue) (hv : ∀ xs, deserializeValue entry.2 ≠ arr xs)
    (hF : typeofObject (deserializeValue entry.2) = true →
      ∃ u, F (getProp s entry.1) (deserializeValue entry.2) = .ok u) :
    ∃ s1, updateDocumentStep F Fs s entry = .ok s1 := by
  cases hs : updateDocumentStep F Fs s entry with
  | ok s1 => exact ⟨s1, rfl⟩
  | error e =>
    rcases updateDocumentStep_error hs with ⟨xs, hxs, _⟩ | ⟨_, ht, herr⟩
    · exact absurd hxs (hv xs)
    · obtain ⟨u, hu⟩ := hF ht
      rw [hu] at herr
      cases herr

/-- Fields that hold no array, at any depth, are merged without failure,
whatever the existing document. -/
theorem updateDocument_noArrays (o : SaveOptions) :
    ∀ (k : Nat) (f : JSValue), depth f ≤ k → noArrays f = true → typeofObject f = true →
      f ≠ null → ∀ x, ∃ u, _updateDocument o x f = .ok u := by
  intro k
  induction k with
  | zero =>
    intro f hk hn ht hnull x
    cases f <;> simp [typeofObject, noArrays] at ht hn
    · exact absurd rfl hnull
    · exact ⟨_, updateDocument_of_date o x _⟩
    · simp [depth] at hk
  | succ k ih =>
    intro f hk hn ht hnull x
    cases f with
    | date w => exact ⟨_, updateDocument_of_date o x w⟩
    | null => exact absurd rfl hnull
    | arr xs => simp [noArrays] at hn
    | obj fs =>
      have hsteps : ∀ s, ∀ entry ∈ fs,
          ∃ s1, updateDocumentStep (_updateDocument o) (_updateDocuments o) s entry = .ok s1 := by
        intro s entry hentry
        have hna := noArrays_of_mem (by simpa [noArrays] using hn) hentry
        have hdepth := depth_le_depthFields hentry
        simp only [depth] at hk
        rcases deserializeValue_cases entry.2 with hv | hv | ⟨w, hv, _, _⟩
        · apply updateDocumentStep_ok_of
          · intro xs hxs
            rw [hv] at hxs
            rw [hxs] at hna
            simp [noArrays] at hna
          · intro hto
            rw [hv] at hto ⊢
            have hnn : entry.2 ≠ null := by
              intro hnn
              rw [hnn] at hv
              simp [deserializeValue] at hv
            exact ih entry.2 (by omega) hna hto hnn _
        · apply updateDocumentStep_ok_of
          · intro xs hxs
            rw [hv] at hxs
            cases hxs
          · intro hto
            rw [hv] at hto
            simp [typeofObject] at hto
        · apply updateDocumentStep_ok_of
          · intro xs hxs
            rw [hv] at hxs
            cases hxs
          · intro _
            rw [hv]
            exact ⟨_, updateDocument_of_date o _ w⟩
      obtain ⟨s1, hs1⟩ := forOf_ok_of_steps fs hsteps (ownEntries x)
      have hfs : ownEntries (obj fs) = fs := rfl
      rw [_updateDocument_eq]
      simp only [hfs, hs1]
      exact ⟨_, rfl⟩
    | _ => simp [typeofObject] at ht

/-- The fields of a document that holds no array are merged without failure. -/
theorem mergeInto_noArrays (store : Store) (o : SaveOptions) {d : JSValue}
    (h : noArrays d = true) : ∃ u, mergeInto store o d = .ok u := by
  unfold mergeInto
  exact updateDocument_noArrays o (depth (obj (restFields d))) (obj (restFields d))
    (Nat.le_refl _) (by simpa [noArrays] using noArraysFields_restFields h) rfl (by simp) _

/-! ### The errors of the two checks, and the acknowledgments -/

/-- When `save` throws `Document not found`, `throwIfNotFound` is true and the
error is that of a document of the list that is not flagged `_new` and has no
stored document, or of an element, not flagged `_new`, of an array field of a
document of the list. -/
theorem save_throws_notFound (project : Props → JSValue → JSValue) (store : Store)
    (hstore : store.WellFormed) (o : SaveOptions) (docs : List JSValue)
    (hdocs : ∀ x ∈ docs, isDocument x = true) {type id : JSValue}
    (h : (save project store docs o).1 = .error (.documentNotFound type id)) :
    o.throwIfNotFound = true ∧
      ((∃ d ∈ docs, truthy (d.prop "_new") = false ∧ findStored store d = none ∧
          d.prop "_type" = type ∧ d.prop "_id" = id) ∨
        (∃ d ∈ docs, ∃ x ∈ nestedDocuments d, truthy (x.prop "_new") = false ∧
          x.prop "_type" = type ∧ x.prop "_id" = id)) := by
  rcases save_error_source project store hstore o docs hdocs h with ⟨_, hw⟩ | ⟨d, hd, hc⟩ |
    ⟨d, hd, x, hx, found, hc⟩
  · cases hw
  · rcases checkDocument_error hc with ⟨h1, _⟩ | ⟨h1, h2, h3, h4⟩
    · cases h1
    · injection h1 with ht hi
      refine ⟨h2, Or.inl ⟨d, hd, h4, ?_, ht.symm, hi.symm⟩⟩
      by_contra hne
      rw [(storedOrUndefined_truthy hstore).2 hne] at h3
      cases h3
  · rcases checkDocument_error hc with ⟨h1, _⟩ | ⟨h1, h2, _, h4⟩
    · cases h1
    · injection h1 with ht hi
      exact ⟨h2, Or.inr ⟨d, hd, x, hx, h4, ht.symm, hi.symm⟩⟩

/-- When `save` throws `Document already exists`, `throwIfAlreadyExists` is true
and the error is that of a document of the list that is flagged `_new` and has a
stored document, or of an element, flagged `_new`, of an array field of a
document of the list. -/
theorem save_throws_alreadyExists (project : Props → JSValue → JSValue) (store : Store)
    (hstore : store.WellFormed) (o : SaveOptions) (docs : List JSValue)
    (hdocs : ∀ x ∈ docs, isDocument x = true) {type id : JSValue}
    (h : (save project store docs o).1 = .error (.documentAlreadyExists type id)) :
    o.throwIfAlreadyExists = true ∧
      ((∃ d ∈ docs, truthy (d.prop "_new") = true ∧ findStored store d ≠ none ∧
          d.prop "_type" = type ∧ d.prop "_id" = id) ∨
        (∃ d ∈ docs, ∃ x ∈ nestedDocuments d, truthy (x.prop "_new") = true ∧
          x.prop "_type" = type ∧ x.prop "_id" = id)) := by
  rcases save_error_source project store hstore o docs hdocs h with ⟨_, hw⟩ | ⟨d, hd, hc⟩ |
    ⟨d, hd, x, hx, found, hc⟩
  · cases hw
  · rcases checkDocument_error hc with ⟨h1, h2, h3, h4⟩ | ⟨h1, _⟩
    · injection h1 with ht hi
      exact ⟨h2, Or.inl ⟨d, hd, h4, (storedOrUndefined_truthy hstore).1 h3, ht.symm, hi.symm⟩⟩
    · cases h1
  · rcases checkDocument_error hc with ⟨h1, h2, _, h4⟩ | ⟨h1, _⟩
    · injection h1 with ht hi
      exact ⟨h2, Or.inr ⟨d, hd, x, hx, h4, ht.symm, hi.symm⟩⟩
    · cases h1

/-- The acknowledgment that a `save` that returns gives for the document at one
position of the list. -/
theorem save_ack (project : Props → JSValue → JSValue) (store : Store)
    (hstore : store.WellFormed) (o : SaveOptions) (pre : List JSValue) (d : JSValue)
    (post : List JSValue) (hdocs : ∀ x ∈ pre ++ d :: post, isDocument x = true)
    {acks : List JSValue} (h : (save project store (pre ++ d :: post) o).1 = .ok acks) :
    acks[pre.length]? = some (obj (acknowledgment o d (storedOrUndefined store d))) := by
  obtain ⟨h1, _, _⟩ := save_ok project store hstore o _ hdocs h
  rw [h1]
  exact getElem?_acks o store pre d post

/-- After a `save` that returns, and for a document whose `_type` and `_id` no
other document of the list has, the store holds the document that
`_updateDocument` computed for it. -/
theorem save_stored_unique (project : Props → JSValue → JSValue) (store : Store)
    (hstore : store.WellFormed) (o : SaveOptions) (pre : List JSValue) (d : JSValue)
    (post : List JSValue) (hdocs : ∀ x ∈ pre ++ d :: post, isDocument x = true)
    {acks : List JSValue} (h : (save project store (pre ++ d :: post) o).1 = .ok acks)
    (hunique : ∀ y ∈ pre ++ post,
      ¬(y.prop "_type" = d.prop "_type" ∧ y.prop "_id" = d.prop "_id")) :
    ∃ u, mergeInto store o d = .ok u ∧
      findStored (save project store (pre ++ d :: post) o).2 d = some u := by
  obtain ⟨y, hy, hyt, hyi, u, hu, hfind⟩ := save_stored project store hstore o _ hdocs h
    (d := d) (List.mem_append_right _ (List.mem_cons_self _ _))
  have hyd : y = d := by
    rcases List.mem_append.1 hy with hy | hy
    · exact absurd ⟨hyt, hyi⟩ (hunique y (List.mem_append_left _ hy))
    · rcases List.mem_cons.1 hy with hy | hy
      · exact hy
      · exact absurd ⟨hyt, hyi⟩ (hunique y (List.mem_append_right _ hy))
  subst hyd
  exact ⟨u, hu, hfind⟩

/-! ## C6, C7: the checks of `save` -/

/-- C6, as the code has it. For documents the store expects (a non-empty string
`_type`, a string `_id`) and a store whose documents record their collection as
`_type`:
* a document flagged `_new` that has a stored document makes `save` throw when
  `throwIfAlreadyExists` is true, and throw `Document already exists` for it,
  the store being left as it was, when the documents before it are saved
  without failure;
* when `throwIfAlreadyExists` is false, `save` returns exactly when no document
  of the list is missing without the flag `_new` while `throwIfNotFound` is
  true and the fields of every document are merged without failure;
* the fields of a document that holds no array are merged without failure;
* when `throwIfAlreadyExists` is false and `save` returns, the acknowledgment of
  a document flagged `_new` that has a stored document is `{_type, _id,
  ...fields}` with `_existed: true` set;
* `save` throws `Document already exists` only when `throwIfAlreadyExists` is
  true, for a document of the list flagged `_new` that has a stored document or
  for an element flagged `_new` of an array field;
* an acknowledgment carries `_existed`, unless the input document has such a
  field itself, only for a document flagged `_new` that has a stored document,
  `throwIfAlreadyExists` being false. -/
theorem save_already_exists (project : Props → JSValue → JSValue) (store : Store)
    (o : SaveOptions) (docs : List JSValue)
    (hstore : store.WellFormed) (hdocs : ∀ x ∈ docs, isDocument x = true) :
    (∀ pre d post, docs = pre ++ d :: post → truthy (d.prop "_new") = true →
      findStored store d ≠ none → o.throwIfAlreadyExists = true →
        (∃ e, (save project store docs o).1 = .error e) ∧
        (∀ acks, (save project store pre o).1 = .ok acks →
          save project store docs o =
            (.error (.documentAlreadyExists (d.prop "_type") (d.prop "_id")), store))) ∧
    (o.throwIfAlreadyExists = false →
      ((∃ acks, (save project store docs o).1 = .ok acks) ↔
        ∀ x ∈ docs,
          ¬(truthy (x.prop "_new") = false ∧ findStored store x = none ∧
            o.throwIfNotFound = true) ∧
          ∃ u, mergeInto store o x = .ok u)) ∧
    (∀ x, noArrays x = true → ∃ u, mergeInto store o x = .ok u) ∧
    (o.throwIfAlreadyExists = false →
      ∀ pre d post acks, docs = pre ++ d :: post → truthy (d.prop "_new") = true →
        findStored store d ≠ none → (save project store docs o).1 = .ok acks →
        ∃ ack, acks[pre.length]? = some (obj ack) ∧
          ack = setProp (("_type", d.prop "_type") :: ("_id", d.prop "_id") :: restFields d)
            "_existed" (bool true) ∧
          lookupProp ack "_existed" = some (bool true)) ∧
    (∀ type id, (save project store docs o).1 = .error (.documentAlreadyExists type id) →
      o.throwIfAlreadyExists = true ∧
        ((∃ d ∈ docs, truthy (d.prop "_new") = true ∧ findStored store d ≠ none ∧
            d.prop "_type" = type ∧ d.prop "_id" = id) ∨
          (∃ d ∈ docs, ∃ x ∈ nestedDocuments d, truthy (x.prop "_new") = true ∧
            x.prop "_type" = type ∧ x.prop "_id" = id))) ∧
    (∀ (acks : List JSValue) (j : Nat) (x : JSValue) (ack : Props),
      (save project store docs o).1 = .ok acks → docs[j]? = some x →
      acks[j]? = some (obj ack) → lookupProp (ownEntries x) "_existed" = none →
      lookupProp ack "_existed" ≠ none →
      truthy (x.prop "_new") = true ∧ findStored store x ≠ none ∧
        o.throwIfAlreadyExists = false) := by
  refine ⟨?_, ?_, ?_, ?_, ?_, ?_⟩
  · intro pre d post hsplit hnew hex ho
    subst hsplit
    exact save_fails project store hstore o pre d post hdocs
      (checkDocument_alreadyExists ((storedOrUndefined_truthy hstore).2 hex) hnew ho)
  · intro ho
    rw [save_succeeds_iff project store hstore o docs hdocs]
    constructor
    · intro h x hx
      exact ⟨(h x hx).2.1, (h x hx).2.2⟩
    · intro h x hx
      refine ⟨?_, (h x hx).1, (h x hx).2⟩
      rintro ⟨_, _, h3⟩
      rw [ho] at h3
      cases h3
  · intro x hx
    exact mergeInto_noArrays store o hx
  · intro ho pre d post acks hsplit hnew hex hacks
    subst hsplit
    have hfound := (storedOrUndefined_truthy hstore).2 hex
    refine ⟨_, save_ack project store hstore o pre d post hdocs hacks, ?_, ?_⟩
    · simp only [acknowledgment, checkDocument, hfound, hnew, ho, if_true, Bool.false_eq_true,
        if_false]
    · simp only [acknowledgment, checkDocument, hfound, hnew, ho, if_true, Bool.false_eq_true,
        if_false]
      exact lookupProp_setProp_same _ _ _
  · intro type id herr
    exact save_throws_alreadyExists project store hstore o docs hdocs herr
  · intro acks j x ack hacks hx hack hown hmark
    obtain ⟨h1, h2, _⟩ := save_ok project store hstore o docs hdocs hacks
    have hxmem : x ∈ docs := List.getElem?_mem hx
    rw [h1, List.getElem?_map, hx] at hack
    simp only [Option.map_some', Option.some.injEq, JSValue.obj.injEq] at hack
    obtain ⟨ex, ack1, hc⟩ := h2 x hxmem
    have hackeq : ack = ack1 := by
      rw [← hack]
      simp only [acknowledgment, hc]
    subst hackeq
    have hne1 : ("_existed" : String) ≠ "_type" := by decide
    have hne2 : ("_existed" : String) ≠ "_new" := by decide
    have hne3 : ("_existed" : String) ≠ "_id" := by decide
    have hne4 : ("_existed" : String) ≠ "_missed" := by decide
    rcases checkDocument_ok hc with ⟨a, b, c, _, _⟩ | ⟨_, _, _, e⟩ | ⟨_, _, _, _, e⟩ | ⟨_, _, _, e⟩
    · exact ⟨b, (storedOrUndefined_truthy hstore).1 a, c⟩
    · rw [e, lookupProp_base x hne1 hne2 hne3] at hmark
      exact absurd hown hmark
    · rw [e, lookupProp_setProp_ne _ _ hne4, lookupProp_base x hne1 hne2 hne3] at hmark
      exact absurd hown hmark
    · rw [e, lookupProp_base x hne1 hne2 hne3] at hmark
      exact absurd hown hmark

/-- C7, as the code has it. For documents the store expects (a non-empty string
`_type`, a string `_id`) and a store whose documents record their collection as
`_type`:
* a document that is not flagged `_new` and has no stored document makes `save`
  throw when `throwIfNotFound` is true, and throw `Document not found` for it,
  the store being left as it was, when the documents before it are saved
  without failure;
* `save` throws `Document not found` only when `throwIfNotFound` is true, for a
  document of the list that is not flagged `_new` and has no stored document or
  for an element, not flagged `_new`, of an array field;
* when `throwIfNotFound` is false, `save` returns exactly when no document of
  the list is flagged `_new` and stored while `throwIfAlreadyExists` is true and
  the fields of every document are merged without failure;
* the fields of a document that holds no array are merged without failure;
* when `throwIfNotFound` is false and `save` returns, the acknowledgment of a
  document that is not flagged `_new` and has no stored document is `{_type,
  _id, ...fields}` with `_missed: true` set, and the store holds under its
  `_type` and `_id` a document computed by `_updateDocument` for a document of
  the list with that `_type` and `_id`: its own, computed from `{_type, _id}`
  and its fields, when no other document of the list has them;
* when `save` returns, the acknowledgment of a document flagged `_new` that has
  no stored document is `{_type, _id, ...fields}`, which carries `_missed` or
  `_existed` only as a field of the document itself, and the store holds the
  document computed for it in the same way. -/
theorem save_not_found (project : Props → JSValue → JSValue) (store : Store)
    (o : SaveOptions) (docs : List JSValue)
    (hstore : store.WellFormed) (hdocs : ∀ x ∈ docs, isDocument x = true) :
    (∀ pre d post, docs = pre ++ d :: post → truthy (d.prop "_new") = false →
      findStored store d = none → o.throwIfNotFound = true →
        (∃ e, (save project store docs o).1 = .error e) ∧
        (∀ acks, (save project store pre o).1 = .ok acks →
          save project store docs o =
            (.error (.documentNotFound (d.prop "_type") (d.prop "_id")), store))) ∧
    (∀ type id, (save project store docs o).1 = .error (.documentNotFound type id) →
      o.throwIfNotFound = true ∧
        ((∃ d ∈ docs, truthy (d.prop "_new") = false ∧ findStored store d = none ∧
            d.prop "_type" = type ∧ d.prop "_id" = id) ∨
          (∃ d ∈ docs, ∃ x ∈ nestedDocuments d, truthy (x.prop "_new") = false ∧
            x.prop "_type" = type ∧ x.prop "_id" = id))) ∧
    (o.throwIfNotFound = false →
      ((∃ acks, (save project store docs o).1 = .ok acks) ↔
        ∀ x ∈ docs,
          ¬(truthy (x.prop "_new") = true ∧ findStored store x ≠ none ∧
            o.throwIfAlreadyExists = true) ∧
          ∃ u, mergeInto store o x = .ok u)) ∧
    (∀ x, noArrays x = true → ∃ u, mergeInto store o x = .ok u) ∧
    (o.throwIfNotFound = false →
      ∀ pre d post acks, docs = pre ++ d :: post → truthy (d.prop "_new") = false →
        findStored store d = none → (save project store docs o).1 = .ok acks →
        (∃ ack, acks[pre.length]? = some (obj ack) ∧
          ack = setProp (("_type", d.prop "_type") :: ("_id", d.prop "_id") :: restFields d)
            "_missed" (bool true) ∧
          lookupProp ack "_missed" = some (bool true)) ∧
        (∃ y ∈ docs, y.prop "_type" = d.prop "_type" ∧ y.prop "_id" = d.prop "_id" ∧
          ∃ u, mergeInto store o y = .ok u ∧
            findStored (save project store docs o).2 d = some u) ∧
        ((∀ y ∈ pre ++ post,
            ¬(y.prop "_type" = d.prop "_type" ∧ y.prop "_id" = d.prop "_id")) →
          ∃ u, _updateDocument o (obj [("_type", d.prop "_type"), ("_id", d.prop "_id")])
              (obj (restFields d)) = .ok u ∧
            findStored (save project store docs o).2 d = some u)) ∧
    (∀ pre d post acks, docs = pre ++ d :: post → truthy (d.prop "_new") = true →
      findStored store d = none → (save project store docs o).1 = .ok acks →
      (∃ ack, acks[pre.length]? = some (obj ack) ∧
        ack = ("_type", d.prop "_type") :: ("_id", d.prop "_id") :: restFields d ∧
        lookupProp ack "_missed" = lookupProp (ownEntries d) "_missed" ∧
        lookupProp ack "_existed" = lookupProp (ownEntries d) "_existed") ∧
      (∃ y ∈ docs, y.prop "_type" = d.prop "_type" ∧ y.prop "_id" = d.prop "_id" ∧
        ∃ u, mergeInto store o y = .ok u ∧
          findStored (save project store docs o).2 d = some u) ∧
      ((∀ y ∈ pre ++ post,
          ¬(y.prop "_type" = d.prop "_type" ∧ y.prop "_id" = d.prop "_id")) →
        ∃ u, _updateDocument o (obj [("_type", d.prop "_type"), ("_id", d.prop "_id")])
            (obj (restFields d)) = .ok u ∧
          findStored (save project store docs o).2 d = some u)) := by
  have hfresh : ∀ d, findStored store d = none →
      mergeInto store o d =
        _updateDocument o (obj [("_type", d.prop "_type"), ("_id", d.prop "_id")])
          (obj (restFields d)) := by
    intro d hd
    simp only [mergeInto, existingOrFresh, hd]
  refine ⟨?_, ?_, ?_, ?_, ?_, ?_⟩
  · intro pre d post hsplit hnew hmiss ho
    subst hsplit
    exact save_fails project store hstore o pre d post hdocs
      (checkDocument_notFound (storedOrUndefined_falsy hmiss) hnew ho)
  · intro type id herr
    exact save_throws_notFound project store hstore o docs hdocs herr
  · intro ho
    rw [save_succeeds_iff project store hstore o docs hdocs]
    constructor
    · intro h x hx
      exact ⟨(h x hx).1, (h x hx).2.2⟩
    · intro h x hx
      refine ⟨(h x hx).1, ?_, (h x hx).2⟩
      rintro ⟨_, _, h3⟩
      rw [ho] at h3
      cases h3
  · intro x hx
    exact mergeInto_noArrays store o hx
  · intro ho pre d post acks hsplit hnew hmiss hacks
    subst hsplit
    have hfound := storedOrUndefined_falsy hmiss
    refine ⟨⟨_, save_ack project store hstore o pre d post hdocs hacks, ?_, ?_⟩,
      save_stored project store hstore o _ hdocs hacks
        (List.mem_append_right _ (List.mem_cons_self _ _)), ?_⟩
    · simp only [acknowledgment, checkDocument, hfound, hnew, ho, Bool.false_eq_true, if_false,
        Bool.not_false, if_true]
    · simp only [acknowledgment, checkDocument, hfound, hnew, ho, Bool.false_eq_true, if_false,
        Bool.not_false, if_true]
      exact lookupProp_setProp_same _ _ _
    · intro hunique
      rw [← hfresh d hmiss]
      exact save_stored_unique project store hstore o pre d post hdocs hacks hunique
  · intro pre d post acks hsplit hnew hmiss hacks
    subst hsplit
    have hfound := storedOrUndefined_falsy hmiss
    refine ⟨⟨_, save_ack project store hstore o pre d post hdocs hacks, ?_, ?_, ?_⟩,
      save_stored project store hstore o _ hdocs hacks
        (List.mem_append_right _ (List.mem_cons_self _ _)), ?_⟩
    · simp only [acknowledgment, checkDocument, hfound, hnew, Bool.false_eq_true, if_false,
        Bool.not_true]
    · simp only [acknowledgment, checkDocument, hfound, hnew, Bool.false_eq_true, if_false,
        Bool.not_true]
      exact lookupProp_base d (by decide) (by decide) (by decide)
    · simp only [acknowledgment, checkDocument, hfound, hnew, Bool.false_eq_true, if_false,
        Bool.not_true]
      exact lookupProp_base d (by decide) (by decide) (by decide)
    · intro hunique
      rw [← hfresh d hmiss]
      exact save_stored_unique project store hstore o pre d post hdocs hacks hunique

/-- C6 as stated fails. With both options at their default `true`, the list
made of the unknown user `u2` (not flagged `_new`) and of the stored user `u1`
flagged `_new` makes `save` throw `Document not found` for `u2`, not
`Document already exists` for `u1`; with `throwIfAlreadyExists` false the same
list still makes `save` throw; and the acknowledgment of a stored document sent
with a field `_existed` of its own, and no `_new` flag, carries `_existed`. -/
theorem save_already_exists_counterexample :
    (truthy (newUser1.prop "_new") = true ∧ findStored exampleStore newUser1 ≠ none ∧
      (save noProjection exampleStore [unknownUser2, newUser1] {}).1 =
        .error (.documentNotFound (str "user") (str "u2")) ∧
      (save noProjection exampleStore [unknownUser2, newUser1] {}).1 ≠
        .error (.documentAlreadyExists (str "user") (str "u1"))) ∧
    (save noProjection exampleStore [unknownUser2, newUser1]
        { throwIfNotFound := true, throwIfAlreadyExists := false }).1 =
      .error (.documentNotFound (str "user") (str "u2")) ∧
    (save noProjection exampleStore
        [obj [("_type", str "user"), ("_id", str "u1"), ("_existed", bool true)]] {}).1 =
      .ok [obj [("_type", str "user"), ("_id", str "u1"), ("_existed", bool true)]] := by
  refine ⟨⟨rfl, by decide, rfl, ?_⟩, rfl, rfl⟩
  intro h
  have heq : (save noProjection exampleStore [unknownUser2, newUser1] {}).1 =
      .error (.documentNotFound (str "user") (str "u2")) := rfl
  rw [heq] at h
  cases h

/-- C6 on examples. With `throwIfAlreadyExists` false, the stored user `u1` sent
alone with the flag `_new` is saved and acknowledged with `_existed: true`; with
the default options it makes `save` throw `Document already exists` and leave
the store as it was. -/
theorem save_already_exists_witness :
    (∃ acks, (save noProjection exampleStore [newUser1] tolerateExisting).1 = .ok acks ∧
      acks[0]? =
        some (obj [("_type", str "user"), ("_id", str "u1"), ("_existed", bool true)])) ∧
    save noProjection exampleStore [newUser1] {} =
      (.error (.documentAlreadyExists (str "user") (str "u1")), exampleStore) := by
  have tolerant := save_already_exists noProjection exampleStore tolerateExisting [newUser1]
    exampleStore_wellFormed (by decide)
  obtain ⟨acks, hacks⟩ := (tolerant.2.1 rfl).2 (by
    intro x hx
    simp only [List.mem_singleton] at hx
    subst hx
    exact ⟨fun h => absurd h.1 (by decide), _, rfl⟩)
  obtain ⟨ack, h1, h2, _⟩ :=
    tolerant.2.2.2.1 rfl [] newUser1 [] acks rfl rfl (by decide) hacks
  simp only [List.length_nil] at h1
  refine ⟨⟨acks, hacks, ?_⟩, ?_⟩
  · rw [h1, h2]
    rfl
  · exact ((save_already_exists noProjection exampleStore {} [newUser1] exampleStore_wellFormed
      (by decide)).1 [] newUser1 [] rfl rfl (by decide) rfl).2 [] rfl

/-- C7 as stated fails. With both options at their default `true`, the list
made of the stored user `u1` flagged `_new` and of the unknown user `u2` (not
flagged `_new`) makes `save` throw `Document already exists` for `u1`, not
`Document not found`; a single document flagged `_new`, unknown to the store,
makes `save` throw `Document not found` for the element of its array field
`tags`; and a document flagged `_new`, unknown to the store, that has a field
`_missed` of its own is acknowledged with that marker. -/
theorem save_not_found_counterexample :
    (truthy (unknownUser2.prop "_new") = false ∧ findStored exampleStore unknownUser2 = none ∧
      (save noProjection exampleStore [newUser1, unknownUser2] {}).1 =
        .error (.documentAlreadyExists (str "user") (str "u1")) ∧
      ∀ type id, (save noProjection exampleStore [newUser1, unknownUser2] {}).1 ≠
        .error (.documentNotFound type id)) ∧
    (save noProjection exampleStore
        [obj [("_type", str "user"), ("_id", str "u2"), ("_new", bool true),
          ("tags", arr [obj [("_type", str "tag"), ("_id", str "t1")]])]] {}).1 =
      .error (.documentNotFound (str "tag") (str "t1")) ∧
    (truthy (newUser3Missed.prop "_new") = true ∧ findStored exampleStore newUser3Missed = none ∧
      (save noProjection exampleStore [newUser3Missed] {}).1 =
        .ok [obj [("_type", str "user"), ("_id", str "u3"), ("_missed", bool true)]]) := by
  refine ⟨⟨rfl, by decide, rfl, ?_⟩, rfl, rfl, by decide, rfl⟩
  intro type id h
  have heq : (save noProjection exampleStore [newUser1, unknownUser2] {}).1 =
      .error (.documentAlreadyExists (str "user") (str "u1")) := rfl
  rw [heq] at h
  cases h

/-- C7 on examples. With `throwIfNotFound` false, the unknown user `u2` sent
alone without the flag `_new` is saved, acknowledged with `_missed: true` and
stored with its fields; with the default options it makes `save` throw
`Document not found` and leave the store as it was. -/
theorem save_not_found_witness :
    (∃ acks, (save noProjection exampleStore [unknownUser2Named] tolerateMissing).1 = .ok acks ∧
      acks[0]? =
        some (obj [("_type", str "user"), ("_id", str "u2"), ("name", str "Eve"),
          ("_missed", bool true)]) ∧
      findStored (save noProjection exampleStore [unknownUser2Named] tolerateMissing).2
          unknownUser2Named =
        some (obj [("_type", str "user"), ("_id", str "u2"), ("name", str "Eve")])) ∧
    save noProjection exampleStore [unknownUser2] {} =
      (.error (.documentNotFound (str "user") (str "u2")), exampleStore) := by
  have tolerant := save_not_found noProjection exampleStore tolerateMissing [unknownUser2Named]
    exampleStore_wellFormed (by decide)
  obtain ⟨acks, hacks⟩ := (tolerant.2.2.1 rfl).2 (by
    intro x hx
    simp only [List.mem_singleton] at hx
    subst hx
    exact ⟨fun h => absurd h.1 (by decide), _, rfl⟩)
  obtain ⟨⟨ack, h1, h2, _⟩, _, hstored⟩ :=
    tolerant.2.2.2.2.1 rfl [] unknownUser2Named [] acks rfl rfl (by decide) hacks
  obtain ⟨u, hu, hfind⟩ := hstored (fun y hy => by cases hy)
  have hvalue : (Except.ok u : Except StoreError JSValue) =
      .ok (obj [("_type", str "user"), ("_id", str "u2"), ("name", str "Eve")]) := by
    rw [← hu]
    rfl
  injection hvalue with hvalue
  subst hvalue
  simp only [List.length_nil] at h1
  refine ⟨⟨acks, hacks, ?_, hfind⟩, ?_⟩
  · rw [h1, h2]
    rfl
  · exact ((save_not_found noProjection exampleStore {} [unknownUser2] exampleStore_wellFormed
      (by decide)).1 [] unknownUser2 [] rfl rfl (by decide) rfl).2 [] rfl

/-- The element of the array field `tags` of the new user `u4` is the one nested
document of it, and it is for that element that `save` throws
`Document not found`. -/
theorem nestedDocuments_example :
    nestedDocuments newUser4WithTag = [obj [("_type", str "tag"), ("_id", str "t1")]] ∧
    (save noProjection exampleStore [newUser4WithTag] {}).1 =
      .error (.documentNotFound (str "tag") (str "t1")) :=
  ⟨rfl, rfl⟩

/-- A new user unknown to the store is created with the default options: the
acknowledgment carries no marker and the store holds the document. -/
theorem save_new_example :
    (save noProjection exampleStore [newUser3] {}).1 =
      .ok [obj [("_type", str "user"), ("_id", str "u3"), ("name", str "Bob")]] ∧
    (save noProjection exampleStore [newUser3] {}).2 "user" =
      [obj exampleUser, obj [("_type", str "user"), ("_id", str "u3"), ("name", str "Bob")]] :=
  ⟨rfl, rfl⟩

/-- With both options false, the stored user `u1` flagged `_new` and the unknown
user `u2` are saved together: the first is acknowledged with `_existed: true`,
the second with `_missed: true`. -/
theorem save_tolerant_example :
    (save noProjection exampleStore [newUser1, unknownUser2Named]
        { throwIfNotFound := false, throwIfAlreadyExists := false }).1 =
      .ok [obj [("_type", str "user"), ("_id", str "u1"), ("_existed", bool true)],
        obj [("_type", str "user"), ("_id", str "u2"), ("name", str "Eve"),
          ("_missed", bool true)]] ∧
    (save noProjection exampleStore [newUser1, unknownUser2Named]
        { throwIfNotFound := false, throwIfAlreadyExists := false }).2 "user" =
      [obj exampleUser, obj [("_type", str "user"), ("_id", str "u2"), ("name", str "Eve")]] :=
  ⟨rfl, rfl⟩
/-! ### `save` keeps the store well formed -/

theorem replaceOne_subset {id r : JSValue} (coll : List JSValue) :
    ∀ x ∈ replaceOne id r coll, x ∈ coll ∨ x = r := by
  induction coll with
  | nil =>
    intro x hx
    simp only [replaceOne, List.mem_singleton] at hx
    exact Or.inr hx
  | cons y rest ih =>
    intro x hx
    by_cases hy : y.prop "_id" = id
    · simp only [replaceOne, if_pos hy] at hx
      rcases List.mem_cons.1 hx with hx | hx
      · exact Or.inr hx
      · exact Or.inl (List.mem_cons_of_mem _ hx)
    · simp only [replaceOne, if_neg hy] at hx
      rcases List.mem_cons.1 hx with hx | hx
      · exact Or.inl (hx ▸ List.mem_cons_self _ _)
      · rcases ih x hx with h | h
        · exact Or.inl (List.mem_cons_of_mem _ h)
        · exact Or.inr h

theorem bulkWrite_subset (ds : List JSValue) :
    ∀ (coll : List JSValue), ∀ x ∈ bulkWrite coll ds, x ∈ coll ∨ x ∈ ds := by
  induction ds with
  | nil => intro coll x hx; exact Or.inl hx
  | cons d rest ih =>
    intro coll x hx
    rcases ih _ x hx with h | h
    · rcases replaceOne_subset coll x h with h | h
      · exact Or.inl h
      · exact Or.inr (h ▸ List.mem_cons_self _ _)
    · exact Or.inr (List.mem_cons_of_mem _ h)

/-- The store that `save` leaves is well formed when the store it started from
is: every document still records its collection as `_type`. -/
theorem save_wellFormed (project : Props → JSValue → JSValue) (store : Store)
    (hstore : store.WellFormed) (o : SaveOptions) (docs : List JSValue)
    (hdocs : ∀ x ∈ docs, isDocument x = true) :
    (save project store docs o).2.WellFormed := by
  rw [save_eq project store hstore docs o hdocs]
  cases hf : forOf (saveStep store o) ⟨[], []⟩ docs with
  | error e => exact hstore
  | ok r =>
    simp only
    obtain ⟨_, us, hus, _, hback⟩ := forOf_saveStep_ok store o docs _ r hf
    simp only [List.nil_append] at hus
    obtain ⟨gnd, gin, _⟩ := groupByType_spec r.updatedDocuments
    have hupd : ∀ u ∈ r.updatedDocuments, ∃ t, u.prop "_type" = str t ∧ t ≠ "" := by
      intro u hu
      rw [hus] at hu
      obtain ⟨d, hd, ex, ack, hc, hupd⟩ := hback u hu
      obtain ⟨t, _, ht, hne, _, _⟩ := isDocument_spec (hdocs d hd)
      exact ⟨t, by rw [(updated_identity hstore (hdocs d hd) hc hupd).1, ht], hne⟩
    have hkeys : ∀ g ∈ groupByType r.updatedDocuments, g.1 ≠ "" := by
      intro g hg
      obtain ⟨u, hu, hk⟩ := groupByType_key hg
      obtain ⟨t, ht, hne⟩ := hupd u hu
      rw [← hk, typeName_of_prop ht]
      exact hne
    obtain ⟨w1, w2, w3⟩ := writeGroups_spec (groupByType r.updatedDocuments) store gnd hkeys
    generalize hw : writeGroups store (groupByType r.updatedDocuments) = w at w1 w2 w3 ⊢
    obtain ⟨res, store1⟩ := w
    simp only at w1 w2 w3
    subst w1
    simp only
    intro T x hx
    by_cases hkey : T ∈ (groupByType r.updatedDocuments).map Prod.fst
    · obtain ⟨g, hg, hgT⟩ := List.mem_map.1 hkey
      rw [← hgT, w2 g hg] at hx
      rcases bulkWrite_subset g.2 _ x hx with h | h
      · rw [← hgT]
        exact hstore _ x h
      · obtain ⟨hmem, hname⟩ := gin g hg x h
        obtain ⟨t, ht, _⟩ := hupd x hmem
        rw [typeName_of_prop ht, hgT] at hname
        rw [ht, hname]
    · rw [w3 T hkey] at hx
      exact hstore T x hx
